import Mathlib

/-!
Quantitative fault-tree analysis core of SCRAM: a shallow embedding of
`src/importance_analysis.h`, `src/uncertainty_analysis.h` and `src/config.cc`.

* `double` values are exact rationals (`ℚ`).
* `std::vector<double>& var_probs` is a `List ℚ` that is passed in and
  returned; a subscript outside the vector is undefined behaviour in the
  source and is `none` here.
* `assert(c)` is `none` when `c` fails.
* The probability calculator (`ProbabilityAnalyzer::CalculateTotalProbability`)
  is not part of the embedded sources; cut-set mode takes it as a parameter
  `ctp : VarProbs → ℚ` (for `CalculateTotalProbability`), a function of the
  current probability vector.
* The random state behind `BasicEvent::Reset` and
  `BasicEvent::SampleProbability` is a parameter type `σ`.
* `Ite` vertices of a BDD are shared and mutable: they live in a vertex store
  (`List Ite`) that is passed in and returned, and are referred to by position.
  The recursive traversals take a `fuel` argument that bounds their depth.
* A call of the configuration code returns an `Outcome`: a value, a thrown
  error, or `undefined` when the source produces no value.
* The calls that `Sample` makes on the distributions are observed by wrapping
  each event (`recorded`) so that it appends its calls to a record kept in the
  random state.
-/

namespace scram

/-! ## Data model -/

/-- The vector `var_probs` of the probability analyzer. -/
abbrev VarProbs := List ℚ

/-- Read `v[i]` for an `int` subscript; `none` outside the vector. -/
def vecGet (v : VarProbs) (i : Int) : Option ℚ :=
  if 0 ≤ i then v[i.toNat]? else none

/-- Write `v[i] = x` for an `int` subscript; `none` outside the vector. -/
def vecSet (v : VarProbs) (i : Int) (x : ℚ) : Option VarProbs :=
  if 0 ≤ i ∧ i.toNat < v.length then some (v.set i.toNat x) else none

/-- Modelled from the spec: a basic event (`event.h` is not among the sources):
its nominal probability `p()`, and its distribution, which acts on the random
state `σ` through `Reset()` and `SampleProbability()`. -/
structure BasicEvent (σ : Type) where
  p : ℚ
  Reset : σ → σ
  SampleProbability : σ → ℚ × σ

/-- Modelled from the spec: the Boolean graph as the analyses use it
(`boolean_graph.h` is not among the sources): `GetBasicEvent(index)` returns
the descriptor bound to a variable index. -/
structure BooleanGraph (σ : Type) where
  GetBasicEvent : Int → BasicEvent σ

/-! ## Importance analysis on cut sets -/

namespace ImportanceAnalyzer

/-- The method `ImportanceAnalyzer<Algorithm, Calculator>::CalculateMif(int index)`
(importance_analysis.h:181-200). Returns the factor and the probability vector
it leaves behind. -/
def CalculateMif {σ : Type} (ctp : VarProbs → ℚ) (graph : BooleanGraph σ)
    (var_probs : VarProbs) (index : Int) : Option (ℚ × VarProbs) :=
  -- Calculate P(top/event)
  match vecSet var_probs index 1 with
  | none => none
  | some vp1 =>
    let p_e := ctp vp1
    if p_e < 0 then none
    else
      let p_e := if p_e > 1 then 1 else p_e
      -- Calculate P(top/Not event)
      match vecSet vp1 index 0 with
      | none => none
      | some vp2 =>
        let p_not_e := ctp vp2
        if p_not_e < 0 then none
        else
          let p_not_e := if p_not_e > 1 then 1 else p_not_e
          -- Restore the probability.
          match vecSet vp2 index (graph.GetBasicEvent index).p with
          | none => none
          | some vp3 => some (p_e - p_not_e, vp3)

end ImportanceAnalyzer

/-! ## Binary decision diagrams -/

/-- Modelled from the spec: a reference to a BDD vertex (`VertexPtr`; `bdd.h`
is not among the sources). A vertex is the tagged variant `Terminal(bool)` or
an `Ite`; `Ite` vertices are shared and mutable, so they live in a vertex store
and are referred to by their position in it. -/
inductive VertexPtr where
  | terminal (value : Bool)
  | ite (id : Nat)
deriving DecidableEq

/-- Modelled from the spec: the if-then-else vertex
`Ite { index, order, high, low, complement_edge, module, mark, prob, factor }`.
The fields `mark`, `prob` and `factor` are the mutable scratch fields. -/
structure Ite where
  index : Int
  order : Int
  high : VertexPtr
  low : VertexPtr
  complement_edge : Bool
  module : Bool
  mark : Bool
  prob : ℚ
  factor : ℚ

/-- Modelled from the spec: `Bdd::Function { vertex, complement }`, the root of
a function graph with its complement flag. -/
structure Bdd.Function where
  complement : Bool
  vertex : VertexPtr

/-- Modelled from the spec: the BDD as the importance analyzer uses it: the
root function, the table `gates` of module functions, the map
`index_to_order`, and the store of `Ite` vertices. The two maps are
association lists read with `List.lookup`. -/
structure Bdd where
  root : Bdd.Function
  gates : List (Int × Bdd.Function)
  index_to_order : List (Int × Int)
  vertices : List Ite

/-- The assignment `ite->mark(mark)` on vertex `id` of the store. -/
def setMark (vertices : List Ite) (id : Nat) (mark : Bool) : List Ite :=
  match vertices[id]? with
  | none => vertices
  | some ite => vertices.set id { ite with mark := mark }

/-- The assignment `ite->factor(x)` on vertex `id` of the store. -/
def setFactor (vertices : List Ite) (id : Nat) (x : ℚ) : List Ite :=
  match vertices[id]? with
  | none => vertices
  | some ite => vertices.set id { ite with factor := x }

/-- Modelled from the spec: `Bdd::ClearMarks(restore_to)`, which sets the mark
of every `Ite` to `restore_to`. -/
def ClearMarks (vertices : List Ite) (restore_to : Bool) : List Ite :=
  vertices.map (fun ite => { ite with mark := restore_to })

/-- Modelled from the spec: the bottom-up probability of a vertex in BDD mode
(§4.1; `probability_analysis.h` is not among the sources), without
memoisation. `Terminal(true)` is 1 and `Terminal(false)` is 0; an `Ite` is
`p_var * prob(high) + (1 - p_var) * prob(low)` with `prob(low)` replaced by
`1 - prob(low)` on a complement edge; `p_var` is `var_probs[index]` for
a variable and the probability of the module's function (complemented if the
function is) for a module. `fuel` bounds the depth of the recursion. -/
def CalculateProbability (gates : List (Int × Bdd.Function)) (var_probs : VarProbs)
    (vertices : List Ite) : Nat → VertexPtr → Option ℚ
  | 0, _ => none
  | _ + 1, .terminal true => some 1
  | _ + 1, .terminal false => some 0
  | fuel + 1, .ite id =>
    match vertices[id]? with
    | none => none
    | some ite =>
      let p_var : Option ℚ :=
        if ite.module then
          match gates.lookup ite.index with
          | none => none
          | some res =>
            match CalculateProbability gates var_probs vertices fuel res.vertex with
            | none => none
            | some p => some (if res.complement then 1 - p else p)
        else vecGet var_probs ite.index
      match p_var with
      | none => none
      | some p_var =>
        match CalculateProbability gates var_probs vertices fuel ite.high with
        | none => none
        | some ph =>
          match CalculateProbability gates var_probs vertices fuel ite.low with
          | none => none
          | some pl =>
            let pl := if ite.complement_edge then 1 - pl else pl
            some (p_var * ph + (1 - p_var) * pl)

/-! ## Importance analysis on a BDD -/

namespace ImportanceAnalyzerBdd

/-- The method `ImportanceAnalyzer<Algorithm, Bdd>::RetrieveProbability`
(importance_analysis.h:322-327). -/
def RetrieveProbability (vertices : List Ite) : VertexPtr → Option ℚ
  | .terminal _ => some 1
  | .ite id =>
    match vertices[id]? with
    | none => none
    | some ite => some ite.prob

/-- The pivot probability `var_prob` of the branch `ite->order() < order`
(importance_analysis.h:306-313). -/
def pivotProbability (gates : List (Int × Bdd.Function)) (var_probs : VarProbs)
    (vertices : List Ite) (ite : Ite) : Option ℚ :=
  if ite.module then
    match gates.lookup ite.index with
    | none => none
    | some res =>
      match RetrieveProbability vertices res.vertex with
      | none => none
      | some var_prob => some (if res.complement then 1 - var_prob else var_prob)
  else vecGet var_probs ite.index

/-- The difference `high - low` of the retrieved child probabilities, with
`low = 1 - low` on a complement edge (importance_analysis.h:290-292 and
300-302). -/
def edgeDifference (vertices : List Ite) (ite : Ite) : Option ℚ :=
  match RetrieveProbability vertices ite.high with
  | none => none
  | some high =>
    match RetrieveProbability vertices ite.low with
    | none => none
    | some low => some (high - (if ite.complement_edge then 1 - low else low))

/-- The method `ImportanceAnalyzer<Algorithm, Bdd>::CalculateMif(const VertexPtr& vertex,
int order, bool mark)` (importance_analysis.h:275-320), threading the vertex
store. `fuel` bounds the depth of the recursion; `none` stands for exhausted
fuel, a failed assertion or a dereference the source leaves undefined. -/
def CalculateMifVertex (gates : List (Int × Bdd.Function)) (var_probs : VarProbs)
    (order : Int) (mark : Bool) : Nat → List Ite → VertexPtr → Option (ℚ × List Ite)
  | 0, _, _ => none
  | _ + 1, vertices, .terminal _ => some (0, vertices)
  | fuel + 1, vertices, .ite id =>
    match vertices[id]? with
    | none => none
    | some ite =>
      if ite.mark = mark then some (ite.factor, vertices)
      else
        let vs1 := setMark vertices id mark
        if ite.order > order then
          if ite.module = false then some (0, setFactor vs1 id 0)
          else  -- @todo Detect if the variable is in the module.
            match edgeDifference vs1 ite with
            | none => none
            | some diff =>
              match gates.lookup ite.index with
              | none => none
              | some res =>
                match CalculateMifVertex gates var_probs order mark fuel vs1 res.vertex with
                | none => none
                | some (mif, vs2) =>
                  let mif := if res.complement then -mif else mif
                  some (diff * mif, setFactor vs2 id (diff * mif))
        else if ite.order = order then
          if ite.module then none  -- assert(!ite->module())
          else
            match edgeDifference vs1 ite with
            | none => none
            | some diff => some (diff, setFactor vs1 id diff)
        else
          match pivotProbability gates var_probs vs1 ite with
          | none => none
          | some var_prob =>
            match CalculateMifVertex gates var_probs order mark fuel vs1 ite.high with
            | none => none
            | some (high, vs2) =>
              match CalculateMifVertex gates var_probs order mark fuel vs2 ite.low with
              | none => none
              | some (low, vs3) =>
                let low := if ite.complement_edge then -low else low
                some (var_prob * high + (1 - var_prob) * low,
                  setFactor vs3 id (var_prob * high + (1 - var_prob) * low))

/-- The method `ImportanceAnalyzer<Algorithm, Bdd>::CalculateMif(int index)`
(importance_analysis.h:260-273). Returns the factor and the BDD it leaves
behind. -/
def CalculateMif (fuel : Nat) (bdd : Bdd) (var_probs : VarProbs) (index : Int) :
    Option (ℚ × Bdd) :=
  match bdd.root.vertex with
  | .terminal _ => some (0, bdd)
  | .ite id =>
    match bdd.vertices[id]? with
    | none => none
    | some root =>
      let original_mark := root.mark
      match bdd.index_to_order.lookup index with
      | none => none
      | some order =>
        match CalculateMifVertex bdd.gates var_probs order (!original_mark) fuel
            bdd.vertices bdd.root.vertex with
        | none => none
        | some (mif, vs) => some (mif, { bdd with vertices := ClearMarks vs original_mark })

/-- The recursion of `CalculateMif(vertex, order, mark)` without the marks: the
factor of a vertex is recomputed on every visit and nothing is stored. -/
def MifUnmemoised (gates : List (Int × Bdd.Function)) (var_probs : VarProbs)
    (order : Int) (vertices : List Ite) : Nat → VertexPtr → Option ℚ
  | 0, _ => none
  | _ + 1, .terminal _ => some 0
  | fuel + 1, .ite id =>
    match vertices[id]? with
    | none => none
    | some ite =>
      if ite.order > order then
        if ite.module = false then some 0
        else
          match edgeDifference vertices ite with
          | none => none
          | some diff =>
            match gates.lookup ite.index with
            | none => none
            | some res =>
              match MifUnmemoised gates var_probs order vertices fuel res.vertex with
              | none => none
              | some mif => some (diff * (if res.complement then -mif else mif))
      else if ite.order = order then
        if ite.module then none
        else edgeDifference vertices ite
      else
        match pivotProbability gates var_probs vertices ite with
        | none => none
        | some var_prob =>
          match MifUnmemoised gates var_probs order vertices fuel ite.high with
          | none => none
          | some high =>
            match MifUnmemoised gates var_probs order vertices fuel ite.low with
            | none => none
            | some low =>
              some (var_prob * high + (1 - var_prob) * (if ite.complement_edge then -low else low))

end ImportanceAnalyzerBdd

/-! ## Gathering the important events -/

namespace ImportanceAnalysis

/-- The body of the inner loop of `GatherImportantEvents`
(importance_analysis.h:132-138) on the pair
`(important_events, unique_indices)`. The `std::unordered_set<int>` is a list
used through membership and insertion only. Indices are Boolean-graph node
indices, far inside the range of `int`, where `std::abs` is the absolute
value. -/
def gatherIndex {σ : Type} (graph : BooleanGraph σ)
    (acc : List (Int × BasicEvent σ) × List Int) (index : Int) :
    List (Int × BasicEvent σ) × List Int :=
  if |index| ∈ acc.2 then acc  -- Most likely.
  else
    let pos_index := |index|
    (acc.1 ++ [(pos_index, graph.GetBasicEvent pos_index)], pos_index :: acc.2)

/-- The method `ImportanceAnalysis::GatherImportantEvents(graph, cut_sets)`
(importance_analysis.h:124-141). -/
def GatherImportantEvents {σ : Type} (graph : BooleanGraph σ) (cut_sets : List (List Int)) :
    List (Int × BasicEvent σ) :=
  (cut_sets.foldl (fun acc cut_set => cut_set.foldl (gatherIndex graph) acc) ([], [])).1

end ImportanceAnalysis

/-- The duplicate-free list of the elements of `l` in the order of their first
occurrence (`List.dedup` keeps last occurrences, hence the reversals). -/
def firstEncounters (l : List Int) : List Int := (l.reverse.dedup).reverse

/-! ## Uncertainty analysis -/

namespace UncertaintyAnalyzer

/-- The loop `for (const auto& event : uncertain_events) event.second->Reset();`
(uncertainty_analysis.h:156). -/
def resetEvents {σ : Type} : List (Int × BasicEvent σ) → σ → σ
  | [], st => st
  | event :: rest, st => resetEvents rest (event.2.Reset st)

/-- The loop that samples all basic events with distributions
(uncertainty_analysis.h:159-167): each draw is adjusted into the range and
stored in `var_probs[event.first]`. -/
def sampleEvents {σ : Type} : List (Int × BasicEvent σ) → VarProbs → σ → Option (VarProbs × σ)
  | [], var_probs, st => some (var_probs, st)
  | event :: rest, var_probs, st =>
    let drawn := event.2.SampleProbability st
    let prob := if drawn.1 < 0 then 0 else if drawn.1 > 1 then 1 else drawn.1
    match vecSet var_probs event.1 prob with
    | none => none
    | some vp1 => sampleEvents rest vp1 drawn.2

/-- The trial loop `for (int i = 0; i < num_trials; ++i)`
(uncertainty_analysis.h:154-172), by the number of trials still to run. -/
def trialLoop {σ : Type} (ctp : VarProbs → ℚ) (uncertain_events : List (Int × BasicEvent σ)) :
    Nat → List ℚ → VarProbs → σ → Option (List ℚ × VarProbs × σ)
  | 0, samples, var_probs, st => some (samples, var_probs, st)
  | n + 1, samples, var_probs, st =>
    -- Reset distributions.
    let st1 := resetEvents uncertain_events st
    -- Sample all basic events with distributions.
    match sampleEvents uncertain_events var_probs st1 with
    | none => none
    | some (vp1, st2) =>
      let result := ctp vp1
      if result < 0 then none
      else
        let result := if result > 1 then 1 else result
        trialLoop ctp uncertain_events n (samples ++ [result]) vp1 st2

/-- The cleanup loop (uncertainty_analysis.h:174-175):
`var_probs[event.first] = event.second->p()`. -/
def cleanup {σ : Type} : List (Int × BasicEvent σ) → VarProbs → Option VarProbs
  | [], var_probs => some var_probs
  | event :: rest, var_probs =>
    match vecSet var_probs event.1 event.2.p with
    | none => none
    | some vp1 => cleanup rest vp1

/-- The method `UncertaintyAnalyzer<Algorithm, Calculator>::Sample()`
(uncertainty_analysis.h:146-178). `uncertain_events` is the result of
`FilterUncertainEvents`, `num_trials` is `kSettings_.num_trials()`. Returns the
samples, the probability vector left behind and the random state. -/
def Sample {σ : Type} (ctp : VarProbs → ℚ) (uncertain_events : List (Int × BasicEvent σ))
    (num_trials : Int) (var_probs : VarProbs) (st : σ) : Option (List ℚ × VarProbs × σ) :=
  match trialLoop ctp uncertain_events num_trials.toNat [] var_probs st with
  | none => none
  | some (samples, vp1, st1) =>
    match cleanup uncertain_events vp1 with
    | none => none
    | some vp2 => some (samples, vp2, st1)

/-- The probability vector and random state with which the calculator is
invoked in trial `k` (counted from 0): distributions reset, all uncertain
events sampled, `k` earlier trials done. -/
def trialInput {σ : Type} (uncertain_events : List (Int × BasicEvent σ)) :
    Nat → VarProbs → σ → Option (VarProbs × σ)
  | 0, var_probs, st => sampleEvents uncertain_events var_probs (resetEvents uncertain_events st)
  | k + 1, var_probs, st =>
    match sampleEvents uncertain_events var_probs (resetEvents uncertain_events st) with
    | none => none
    | some (vp1, st1) => trialInput uncertain_events k vp1 st1

end UncertaintyAnalyzer

/-- The subscripts of the uncertain events lie inside a vector of length `len`. -/
def ValidEvents {σ : Type} (uncertain_events : List (Int × BasicEvent σ)) (len : Nat) : Prop :=
  ∀ e ∈ uncertain_events, 0 ≤ e.1 ∧ e.1.toNat < len

/-! ## Predicates on the vertex store -/

/-- The fields of an `Ite` other than the scratch fields `mark` and `factor`. -/
def Ite.shape (a : Ite) : Ite := { a with mark := false, factor := 0 }

/-- Two vertex stores that differ at most in the `mark` and `factor` fields. -/
def SameShape (h h' : List Ite) : Prop :=
  ∀ id : Nat, (h[id]?).map Ite.shape = (h'[id]?).map Ite.shape

/-- A level function on vertex ids that strictly increases along the edges the
MIF traversal follows: to the high and low child and into a module's function
graph. Its existence makes the store a DAG. -/
def LevelIncreasing (gates : List (Int × Bdd.Function)) (vs : List Ite) (lvl : Nat → Int) :
    Prop :=
  ∀ id a, vs[id]? = some a →
    (∀ c, a.high = .ite c → lvl id < lvl c) ∧ (∀ c, a.low = .ite c → lvl id < lvl c)
    ∧ (a.module = true → ∀ res c, gates.lookup a.index = some res → res.vertex = .ite c →
        lvl id < lvl c)

/-- The value `x` is the unmemoised factor of vertex `id` whenever that factor
is defined. -/
def MifCorrect (gates : List (Int × Bdd.Function)) (vp : VarProbs) (order : Int)
    (vs0 : List Ite) (id : Nat) (x : ℚ) : Prop :=
  ∀ m d, ImportanceAnalyzerBdd.MifUnmemoised gates vp order vs0 m (.ite id) = some d → x = d

/-- The memoisation invariant from level `k` upwards: a vertex of level at
least `k` whose mark is the target mark holds its factor. -/
def MemoInv (gates : List (Int × Bdd.Function)) (vp : VarProbs) (order : Int) (mark : Bool)
    (vs0 : List Ite) (lvl : Nat → Int) (k : Int) (h : List Ite) : Prop :=
  ∀ id a, h[id]? = some a → k ≤ lvl id → a.mark = mark → MifCorrect gates vp order vs0 id a.factor

/-! ## Well-formed BDDs -/

/-- Modelled from the spec: the probability of the top function of the BDD,
the bottom-up probability of the root vertex, complemented if the root function
is complemented. -/
def TopProbability (fuel : Nat) (bdd : Bdd) (var_probs : VarProbs) : Option ℚ :=
  match CalculateProbability bdd.gates var_probs bdd.vertices fuel bdd.root.vertex with
  | none => none
  | some p => some (if bdd.root.complement then 1 - p else p)

/-- Well-formedness of a BDD with respect to a probability vector: the root and
all children lie in the vertex store, `order` strictly increases from a vertex
to its children, the order of a variable vertex is the order
`index_to_order` gives its index, distinct indices have distinct orders, and
the index of a variable vertex is a subscript of `var_probs`. -/
structure WellFormedBdd (bdd : Bdd) (var_probs : VarProbs) : Prop where
  root_in_store : ∀ id, bdd.root.vertex = .ite id → id < bdd.vertices.length
  order_increasing : ∀ a ∈ bdd.vertices, ∀ c, (a.high = .ite c ∨ a.low = .ite c) →
    ∃ b, bdd.vertices[c]? = some b ∧ a.order < b.order
  order_of_index : ∀ a ∈ bdd.vertices, a.module = false →
    bdd.index_to_order.lookup a.index = some a.order
  order_injective : (bdd.index_to_order.map Prod.snd).Nodup
  index_in_range : ∀ a ∈ bdd.vertices, a.module = false →
    0 ≤ a.index ∧ a.index.toNat < var_probs.length

/-- No vertex of the BDD is a module. -/
def ModuleFree (bdd : Bdd) : Prop := ∀ a ∈ bdd.vertices, a.module = false

/-- Every terminal child is `Terminal(true)`: the constant false is reached
through a complement edge only. -/
def TerminalsTrue (bdd : Bdd) : Prop :=
  ∀ a ∈ bdd.vertices, ∀ b, (a.high = .terminal b ∨ a.low = .terminal b) → b = true

/-- All `Ite` marks of the BDD are equal to `m`. -/
def UniformMarks (bdd : Bdd) (m : Bool) : Prop := ∀ a ∈ bdd.vertices, a.mark = m

/-- The `prob` field of every `Ite` holds its bottom-up probability under
`var_probs`. -/
def ProbAnnotated (bdd : Bdd) (var_probs : VarProbs) : Prop :=
  ∀ id a, bdd.vertices[id]? = some a →
    ∃ n, CalculateProbability bdd.gates var_probs bdd.vertices n (.ite id) = some a.prob

/-- The level of a vertex id in a module-free BDD: the order of the vertex. -/
def orderLevel (vs : List Ite) (id : Nat) : Int :=
  match vs[id]? with
  | some a => a.order
  | none => 0

/-! ## Concrete inputs used in the examples -/

/-- A graph whose every basic event has nominal probability `1/10`. -/
def graphTenth : BooleanGraph Unit :=
  ⟨fun _ => ⟨1 / 10, id, fun s => (1 / 10, s)⟩⟩

/-- A rare-event style calculator on a two-slot vector: the size of slot 1. -/
def calcSlot1 (v : VarProbs) : ℚ := |v.getD 1 0|

/-- An uncertain event with nominal probability `1/10` whose `k`-th draw is
`k/4 - 1/4` (the random state counts the draws). -/
def rampEvent : BasicEvent Nat :=
  ⟨1 / 10, id, fun k => ((k : ℚ) / 4 - 1 / 4, k + 1)⟩

/-! ## Concrete BDDs used in the examples -/

/-- The BDD of `A OR B`: the root `Ite` for `A` (index 1, order 1) has
`Terminal(true)` as high child and the `Ite` for `B` (index 2, order 2) as low
child; the low child of `B` is `Terminal(true)` behind a complement edge. The
`prob` fields are the bottom-up probabilities under `[0, pA, pB]`. -/
def orBdd (pA pB : ℚ) (m : Bool) : Bdd where
  root := ⟨false, .ite 0⟩
  gates := []
  index_to_order := [(1, 1), (2, 2)]
  vertices :=
    [ ⟨1, 1, .terminal true, .ite 1, false, false, m, pA * 1 + (1 - pA) * pB, 0⟩,
      ⟨2, 2, .terminal true, .terminal true, true, false, m, pB, 0⟩ ]

/-- A one-variable BDD whose low child is `Terminal(false)` without a
complement edge: the function `x1`, with `prob` annotated under `[0, 1/2]`. -/
def falseLeafBdd : Bdd where
  root := ⟨false, .ite 0⟩
  gates := []
  index_to_order := [(1, 1)]
  vertices := [ ⟨1, 1, .terminal true, .terminal false, false, false, false, 1 / 2, 0⟩ ]

/-- The BDD of `NOT x1`: the vertex of `x1` (low child `Terminal(true)` behind
a complement edge) under a complemented root function, with `prob` annotated
under `[0, 1/2]`. -/
def notBdd : Bdd where
  root := ⟨true, .ite 0⟩
  gates := []
  index_to_order := [(1, 1)]
  vertices := [ ⟨1, 1, .terminal true, .terminal true, true, false, false, 1 / 2, 0⟩ ]

/-- The BDD of `M OR M` with the module `M = A AND B`: the root is the module
`Ite` for `M` (index 3, order 3), which is `M` itself; `gates` maps `M` to the
BDD of `A AND B` over `A` (index 1, order 1) and `B` (index 2, order 2). The
`prob` fields are the bottom-up probabilities under `[0, pA, pB]`. -/
def moduleBdd (pA pB : ℚ) (m : Bool) : Bdd where
  root := ⟨false, .ite 0⟩
  gates := [(3, ⟨false, .ite 1⟩)]
  index_to_order := [(1, 1), (2, 2), (3, 3)]
  vertices :=
    [ ⟨3, 3, .terminal true, .terminal true, true, true, m, pA * pB, 0⟩,
      ⟨1, 1, .ite 2, .terminal true, true, false, m, pA * pB, 0⟩,
      ⟨2, 2, .terminal true, .terminal true, true, false, m, pB, 0⟩ ]

/-- The values drawn in one pass of the sampling loop
(uncertainty_analysis.h:159-167), in the order of the events, before they are
adjusted into the range. -/
def drawnValues {σ : Type} : List (Int × BasicEvent σ) → σ → List ℚ
  | [], _ => []
  | event :: rest, st =>
    (event.2.SampleProbability st).1 :: drawnValues rest (event.2.SampleProbability st).2

/-! ## Configuration (`config.cc`) -/

/-- Modelled from the spec: the errors raised at the boundaries (`error.h` is
not among the sources). -/
inductive Error where
  | IOError (msg : String)
  | ValidationError (msg : String)
  | InvalidSettings (msg : String)
deriving DecidableEq

/-- The outcome of a call of a function that may throw: a returned value, a
thrown error, or `undefined` when no value is produced (a failed assertion, a
null dereference, control that reaches the end of a non-void function). -/
inductive Outcome (α : Type) where
  | value (a : α)
  | thrown (e : Error)
  | undefined
deriving DecidableEq

/-- Modelled from the spec: the settings record with its recognised options
(`settings.h` is not among the sources); a setter assigns its field. -/
structure Settings where
  probability_analysis : Bool
  importance_analysis : Bool
  uncertainty_analysis : Bool
  ccf_analysis : Bool
  approx : String
  limit_order : Int
  mission_time : ℚ
  cut_off : ℚ
  num_sums : Int
  num_trials : Int
  seed : Int
deriving DecidableEq

/-- Modelled from the spec: an element of the parsed configuration document
(`xmlpp::Element`): its name, its attributes in document order, its text
content if it has any, and its child elements (`find("./*")`). -/
inductive Element where
  | mk (name : String) (attributes : List (String × String)) (child_text : Option String)
      (children : List Element)

/-- The call `element->get_name()`. -/
def Element.get_name : Element → String
  | .mk name _ _ _ => name

/-- The call `element->get_attributes()`, as pairs of name and value. -/
def Element.get_attributes : Element → List (String × String)
  | .mk _ attributes _ _ => attributes

/-- The call `element->get_child_text()`, `none` for the null pointer. -/
def Element.get_child_text : Element → Option String
  | .mk _ _ child_text _ => child_text

/-- The call `element->find("./*")`: the child elements. -/
def Element.children : Element → List Element
  | .mk _ _ _ children => children

/-- The members of `Config` that the constructor fills. -/
structure Config where
  input_files : List String
  output_path : String
  settings : Settings

/-- The method `Config::GetBoolFromString` (config.cc:123-129). For a string
other than the four it compares with, control reaches the end of the function
without a `return` and without a `throw`. -/
def Config.GetBoolFromString (flag : String) : Outcome Bool :=
  if flag = "1" ∨ flag = "true" then .value true
  else if flag = "0" ∨ flag = "false" then .value false
  else .undefined

/-- The dispatch on the attribute name in `Config::SetAnalysis`
(config.cc:93-104). -/
def Config.storeFlag (settings : Settings) (name : String) (flag : Bool) : Settings :=
  if name = "probability" then { settings with probability_analysis := flag }
  else if name = "importance" then { settings with importance_analysis := flag }
  else if name = "uncertainty" then { settings with uncertainty_analysis := flag }
  else if name = "ccf" then { settings with ccf_analysis := flag }
  else settings

/-- The loop over the attributes in `Config::SetAnalysis` (config.cc:89-105). -/
def Config.setAnalysisLoop : List (String × String) → Settings → Outcome Settings
  | [], settings => .value settings
  | type :: rest, settings =>
    match Config.GetBoolFromString type.2 with
    | .value flag => Config.setAnalysisLoop rest (Config.storeFlag settings type.1 flag)
    | .thrown e => .thrown e
    | .undefined => .undefined

/-- The method `Config::SetAnalysis` (config.cc:86-106) on `settings_`. -/
def Config.SetAnalysis (analysis : Element) (settings : Settings) : Outcome Settings :=
  Config.setAnalysisLoop analysis.get_attributes settings

/-- The method `Config::SetApprox` (config.cc:108-113) on `settings_`: the loop
over the child elements has an empty body. -/
def Config.SetApprox (approx : Element) (settings : Settings) : Settings :=
  approx.children.foldl (fun s _ => s) settings

/-- The method `Config::SetLimits` (config.cc:115-121) on `settings_`: the loop
over the child elements has an empty body. -/
def Config.SetLimits (limits : Element) (settings : Settings) : Settings :=
  limits.children.foldl (fun s _ => s) settings

/-- The loop over the `file` elements (config.cc:54-60), appending to
`input_files_`. -/
def Config.readInputFiles : List Element → List String → Outcome (List String)
  | [], input_files => .value input_files
  | file :: rest, input_files =>
    if file.get_name = "file" then
      match file.get_child_text with
      | none => .undefined
      | some content => Config.readInputFiles rest (input_files ++ [content])
    else .undefined  -- assert(file->get_name() == "file")

/-- The loop over the option groups (config.cc:67-81) on `settings_`. -/
def Config.readOptions : List Element → Settings → Outcome Settings
  | [], settings => .value settings
  | option_group :: rest, settings =>
    if option_group.get_name = "analysis" then
      match Config.SetAnalysis option_group settings with
      | .value s1 => Config.readOptions rest s1
      | .thrown e => .thrown e
      | .undefined => .undefined
    else if option_group.get_name = "approximations" then
      Config.readOptions rest (Config.SetApprox option_group settings)
    else if option_group.get_name = "limits" then
      Config.readOptions rest (Config.SetLimits option_group settings)
    else Config.readOptions rest settings

/-- The loop over the children of the root element (config.cc:43-83). -/
def Config.readChildren : List Element → Config → Outcome Config
  | [], config => .value config
  | element :: rest, config =>
    if element.get_name = "input-files" then
      if element.children.isEmpty then .undefined  -- assert(!input_files.empty())
      else
        match Config.readInputFiles element.children config.input_files with
        | .value files => Config.readChildren rest { config with input_files := files }
        | .thrown e => .thrown e
        | .undefined => .undefined
    else if element.get_name = "output-path" then
      match element.get_child_text with
      | none => .undefined
      | some content => Config.readChildren rest { config with output_path := content }
    else if element.get_name = "options" then
      match Config.readOptions element.children config.settings with
      | .value s1 => Config.readChildren rest { config with settings := s1 }
      | .thrown e => .thrown e
      | .undefined => .undefined
    else Config.readChildren rest config

/-- The constructor `Config::Config(std::string config_file)` (config.cc:14-84).
Reading the file, parsing it and validating it against the schema
(config.cc:15-38) is the parameter `load`, which returns the root element or
the `IOError` or `ValidationError` to throw; `defaults` is the
default-constructed `settings_`. -/
def Config.construct (load : String → Except Error Element) (defaults : Settings)
    (config_file : String) : Outcome Config :=
  match load config_file with
  | .error e => .thrown e
  | .ok root =>
    if root.get_name = "config" then Config.readChildren root.children ⟨[], "", defaults⟩
    else .undefined  -- assert(root->get_name() == "config")

/-- The settings flag that an attribute name of the `analysis` element names. -/
def Settings.flag (settings : Settings) (name : String) : Option Bool :=
  if name = "probability" then some settings.probability_analysis
  else if name = "importance" then some settings.importance_analysis
  else if name = "uncertainty" then some settings.uncertainty_analysis
  else if name = "ccf" then some settings.ccf_analysis
  else none

/-- The full configuration of the test `ConfigTest.FullSettings`
(config_tests.cc:22-41): one input file, an output path, and the options the
test expects to find in the settings. -/
def fullConfiguration : Element :=
  .mk "config" [] none
    [ .mk "input-files" [] none
        [ .mk "file" [] (some "input/fta/correct_tree_input_with_probs.xml") [] ],
      .mk "output-path" [] (some "temp_results.xml") [],
      .mk "options" [] none
        [ .mk "analysis"
            [("probability", "true"), ("importance", "true"), ("uncertainty", "true"),
              ("ccf", "true")] none [],
          .mk "approximations" [] none [ .mk "rare-event" [] none [] ],
          .mk "limits" [] none
            [ .mk "limit-order" [] (some "11") [],
              .mk "mission-time" [] (some "48") [],
              .mk "cut-off" [] (some "0.009") [],
              .mk "number-of-sums" [] (some "42") [],
              .mk "number-of-trials" [] (some "777") [],
              .mk "seed" [] (some "97531") [] ] ] ]

/-- The settings that the test `ConfigTest.FullSettings` expects
(config_tests.cc:33-37). -/
def expectedFullSettings : Settings where
  probability_analysis := true
  importance_analysis := true
  uncertainty_analysis := true
  ccf_analysis := true
  approx := "rare-event"
  limit_order := 11
  mission_time := 48
  cut_off := 9 / 1000
  num_sums := 42
  num_trials := 777
  seed := 97531

/-- The options of the settings other than the four analysis flags: the
approximation and the limits. -/
def Settings.approxAndLimits (settings : Settings) : String × Int × ℚ × ℚ × Int × Int × Int :=
  (settings.approx, settings.limit_order, settings.mission_time, settings.cut_off,
    settings.num_sums, settings.num_trials, settings.seed)

/-- Well-formedness of the vertex store of a BDD with modules for a traversal
with query order `order`: every child and every module function lies in the
store, the height `ht` strictly decreases along the edges to the children and
into a module's function graph (so the store is a DAG with nested modules),
the index of every variable vertex is a subscript of `var_probs`, and a vertex
whose order is the query order is a variable, not a module. -/
structure WellFormedDag (gates : List (Int × Bdd.Function)) (vp : VarProbs) (order : Int)
    (vs : List Ite) (ht : Nat → Nat) : Prop where
  children : ∀ id a, vs[id]? = some a → ∀ c, (a.high = .ite c ∨ a.low = .ite c) →
    c < vs.length ∧ ht c < ht id
  modules : ∀ id a, vs[id]? = some a → a.module = true →
    ∃ res, gates.lookup a.index = some res
      ∧ ∀ c, res.vertex = .ite c → c < vs.length ∧ ht c < ht id
  variable_slots : ∀ a ∈ vs, a.module = false → ∃ p, vecGet vp a.index = some p
  query_is_variable : ∀ a ∈ vs, a.order = order → a.module = false

/-- The BDD of `M AND C` with the module `M = A AND B`: the root is the module
`Ite` for `M` (index 3, order 3) with the `Ite` for `C` (index 4, order 4) as
high child and the complemented terminal as low child; `gates` maps `M` to
the BDD of `A AND B` over `A` (index 1, order 1) and `B` (index 2, order 2).
The `prob` fields are the bottom-up probabilities under `[0, pA, pB, 0, pC]`. -/
def moduleAndBdd (pA pB pC : ℚ) (m : Bool) : Bdd where
  root := ⟨false, .ite 0⟩
  gates := [(3, ⟨false, .ite 1⟩)]
  index_to_order := [(1, 1), (2, 2), (3, 3), (4, 4)]
  vertices :=
    [ ⟨3, 3, .ite 3, .terminal true, true, true, m, pA * pB * pC, 0⟩,
      ⟨1, 1, .ite 2, .terminal true, true, false, m, pA * pB, 0⟩,
      ⟨2, 2, .terminal true, .terminal true, true, false, m, pB, 0⟩,
      ⟨4, 4, .terminal true, .terminal true, true, false, m, pC, 0⟩ ]

/-! ## Recording the calls on the distributions -/

/-- A call that `Sample` makes on the distribution of the uncertain event with
the given index: `Reset()` or `SampleProbability()`. -/
inductive DistributionCall where
  | reset (index : Int)
  | sample (index : Int)
deriving DecidableEq

/-- The event `event` observed: it behaves as `event` on its own state and
appends every call of `Reset()` and of `SampleProbability()` to a record of the
calls made so far. -/
def recorded {σ : Type} (index : Int) (event : BasicEvent σ) :
    BasicEvent (σ × List DistributionCall) where
  p := event.p
  Reset := fun s => (event.Reset s.1, s.2 ++ [.reset index])
  SampleProbability := fun s =>
    ((event.SampleProbability s.1).1,
      ((event.SampleProbability s.1).2, s.2 ++ [.sample index]))

/-- The uncertain events, each observed under its own index. -/
def recordCalls {σ : Type} (uncertain_events : List (Int × BasicEvent σ)) :
    List (Int × BasicEvent (σ × List DistributionCall)) :=
  uncertain_events.map (fun event => (event.1, recorded event.1 event.2))

/-- The calls of one trial of `Sample`: every distribution is reset, then
every distribution is sampled, in the order of the events. -/
def trialCalls {σ : Type} (uncertain_events : List (Int × BasicEvent σ)) :
    List DistributionCall :=
  uncertain_events.map (fun event => .reset event.1)
    ++ uncertain_events.map (fun event => .sample event.1)

/-- The calls of `Sample` as the specification words them: every distribution
is reset exactly once, before the first trial, and each of the `num_trials`
trials samples every distribution without resetting any. -/
def resetOnceCalls {σ : Type} (uncertain_events : List (Int × BasicEvent σ))
    (num_trials : Nat) : List DistributionCall :=
  uncertain_events.map (fun event => .reset event.1)
    ++ (List.replicate num_trials
          (uncertain_events.map (fun event => DistributionCall.sample event.1))).flatten

/-! ## Reachable vertices -/

/-- The `Ite` vertices of the store `vs` reachable from the vertex `root`:
through high and low edges and, from a module vertex, through the module's
Function in `gates`. -/
inductive Reachable (gates : List (Int × Bdd.Function)) (vs : List Ite) (root : VertexPtr) :
    Nat → Prop where
  | start {id : Nat} : root = .ite id → Reachable gates vs root id
  | high {id c : Nat} {a : Ite} : Reachable gates vs root id → vs[id]? = some a →
      a.high = .ite c → Reachable gates vs root c
  | low {id c : Nat} {a : Ite} : Reachable gates vs root id → vs[id]? = some a →
      a.low = .ite c → Reachable gates vs root c
  | gate {id c : Nat} {a : Ite} {res : Bdd.Function} : Reachable gates vs root id →
      vs[id]? = some a → a.module = true → gates.lookup a.index = some res →
      res.vertex = .ite c → Reachable gates vs root c

/-- The BDD of `M OR M` with the module `M = A AND B`, as `moduleBdd` under
`p(A) = 1/2`, `p(B) = 1/5`, in a store that also holds an `Ite` for a variable
`C` (index 4, order 0) to which no edge and no module function leads. -/
def spareVertexBdd (m : Bool) : Bdd where
  root := ⟨false, .ite 0⟩
  gates := [(3, ⟨false, .ite 1⟩)]
  index_to_order := [(1, 1), (2, 2), (3, 3), (4, 0)]
  vertices :=
    [ ⟨3, 3, .terminal true, .terminal true, true, true, m, 1 / 10, 0⟩,
      ⟨1, 1, .ite 2, .terminal true, true, false, m, 1 / 10, 0⟩,
      ⟨2, 2, .terminal true, .terminal true, true, false, m, 1 / 5, 0⟩,
      ⟨4, 0, .terminal true, .terminal true, true, false, m, 1 / 2, 0⟩ ]

/-- The values a call with this outcome may hand to its caller: the returned
value; nothing when an error is thrown; and any value at all when the outcome
is `undefined`, since the source then fixes none (whatever the compiled code
leaves in place of the result is used by the caller). -/
def Outcome.mayReturn {α : Type} : Outcome α → α → Prop
  | .value a, b => a = b
  | .thrown _, _ => False
  | .undefined, _ => True

open UncertaintyAnalyzer ImportanceAnalyzerBdd

/-! ## Helper lemmas on the probability vector -/

/-- A write at a valid subscript succeeds and is `List.set`. -/
theorem vecSet_eq_some {v : VarProbs} {i : Int} (h0 : 0 ≤ i) (hlt : i.toNat < v.length)
    (x : ℚ) : vecSet v i x = some (v.set i.toNat x) := by
  simp [vecSet, h0, hlt]

/-- The adjustment `if (x > 1) x = 1` is `min 1 x`. -/
theorem clamp_upper_eq_min (x : ℚ) : (if x > 1 then 1 else x) = min 1 x := by
  split_ifs with h
  · exact (min_eq_left (le_of_lt h)).symm
  · exact (min_eq_right (not_lt.mp h)).symm

/-- Unfolding of cut-set `CalculateMif` on a valid index with a calculator
that passes both assertions. -/
theorem cutset_CalculateMif_eq {σ : Type} (ctp : VarProbs → ℚ) (graph : BooleanGraph σ)
    (vp : VarProbs) (i : Int) (h0 : 0 ≤ i) (hlt : i.toNat < vp.length)
    (h1 : 0 ≤ ctp (vp.set i.toNat 1)) (h2 : 0 ≤ ctp (vp.set i.toNat 0)) :
    ImportanceAnalyzer.CalculateMif ctp graph vp i
      = some (min 1 (ctp (vp.set i.toNat 1)) - min 1 (ctp (vp.set i.toNat 0)),
              vp.set i.toNat (graph.GetBasicEvent i).p) := by
  have hlt1 : i.toNat < (vp.set i.toNat 1).length := by simpa using hlt
  have hlt2 : i.toNat < (vp.set i.toNat 0).length := by simpa using hlt
  simp only [ImportanceAnalyzer.CalculateMif, vecSet_eq_some h0 hlt, vecSet_eq_some h0 hlt1,
    vecSet_eq_some h0 hlt2, List.set_set, not_lt.mpr h1, not_lt.mpr h2, if_false,
    clamp_upper_eq_min]

/-! ## Claims C2 and C3: cut-set mode `CalculateMif` -/

/-- C2: for every probability vector, every valid positive index `i` and every
calculator with non-negative results, cut-set `CalculateMif(i)` returns
`p_e - p_not_e`, where `p_e` is the calculator's result on the vector with slot
`i` set to 1 and `p_not_e` its result on the vector with slot `i` set to 0 (all
other slots as on entry), each clamped to at most 1. -/
theorem C2_cutset_mif_value {σ : Type} (ctp : VarProbs → ℚ) (graph : BooleanGraph σ)
    (vp : VarProbs) (i : Int) (hpos : 0 < i) (hlt : i.toNat < vp.length)
    (hnn : ∀ v, 0 ≤ ctp v) :
    (ImportanceAnalyzer.CalculateMif ctp graph vp i).map Prod.fst
      = some (min 1 (ctp (vp.set i.toNat 1)) - min 1 (ctp (vp.set i.toNat 0))) := by
  rw [cutset_CalculateMif_eq ctp graph vp i (le_of_lt hpos) hlt (hnn _) (hnn _)]
  rfl

/-- Witness of C2 on the vector `[0, 1/2]` at index 1. -/
theorem C2_cutset_mif_value_witness :
    (ImportanceAnalyzer.CalculateMif calcSlot1 graphTenth [0, 1 / 2] 1).map Prod.fst
      = some (min 1 (calcSlot1 ([0, 1 / 2].set (1 : Int).toNat 1))
          - min 1 (calcSlot1 ([0, 1 / 2].set (1 : Int).toNat 0))) :=
  C2_cutset_mif_value calcSlot1 graphTenth [0, 1 / 2] 1 (by decide) (by decide)
    (fun v => abs_nonneg _)

/-- C3, as stated, fails: with `var_probs = [0, 1/2]` on entry and an event of
nominal probability `1/10` at index 1, the vector after `CalculateMif(1)` is
`[0, 1/10]`, which differs from its state on entry. -/
theorem C3_counterexample :
    ∃ r, ImportanceAnalyzer.CalculateMif calcSlot1 graphTenth [0, 1 / 2] 1 = some r
      ∧ r.2 ≠ [0, 1 / 2] := by
  refine ⟨_, cutset_CalculateMif_eq calcSlot1 graphTenth [0, 1 / 2] 1 (by decide) (by decide)
    (abs_nonneg _) (abs_nonneg _), ?_⟩
  simp [graphTenth]

/-- C3 (amended): after cut-set `CalculateMif(i)` returns, slot `i` of
`var_probs` holds the nominal probability of basic event `i` and every other
slot holds its value on entry; so the vector is identical to its state on entry
whenever slot `i` held the event's nominal probability on entry. -/
theorem C3_cutset_mif_restores {σ : Type} (ctp : VarProbs → ℚ) (graph : BooleanGraph σ)
    (vp : VarProbs) (i : Int) (h0 : 0 ≤ i) (hlt : i.toNat < vp.length)
    (hnn : ∀ v, 0 ≤ ctp v) :
    ∃ r, ImportanceAnalyzer.CalculateMif ctp graph vp i = some r
      ∧ r.2 = vp.set i.toNat (graph.GetBasicEvent i).p
      ∧ (vecGet vp i = some (graph.GetBasicEvent i).p → r.2 = vp) := by
  refine ⟨_, cutset_CalculateMif_eq ctp graph vp i h0 hlt (hnn _) (hnn _), rfl, ?_⟩
  intro hget
  simp only [vecGet, h0, if_true] at hget
  apply List.ext_getElem?
  intro j
  by_cases hj : i.toNat = j
  · rw [← hj, List.getElem?_set_self hlt, hget]
  · rw [List.getElem?_set_ne hj]

/-- Witness of the amended C3 on the vector `[0, 1/10]` at index 1. -/
theorem C3_cutset_mif_restores_witness :
    ∃ r, ImportanceAnalyzer.CalculateMif calcSlot1 graphTenth [0, 1 / 10] 1 = some r
      ∧ r.2 = [0, 1 / 10].set (1 : Int).toNat (graphTenth.GetBasicEvent 1).p
      ∧ (vecGet [0, 1 / 10] 1 = some (graphTenth.GetBasicEvent 1).p → r.2 = [0, 1 / 10]) :=
  C3_cutset_mif_restores calcSlot1 graphTenth [0, 1 / 10] 1 (by decide) (by decide)
    (fun v => abs_nonneg _)

/-! ## Lemmas on `Sample` -/

/-- The sampling loop succeeds on valid subscripts, keeps the length of the
vector and leaves every slot that belongs to no uncertain event untouched. -/
theorem sampleEvents_spec {σ : Type} (ue : List (Int × BasicEvent σ)) :
    ∀ (vp : VarProbs) (st : σ), ValidEvents ue vp.length →
      ∃ vp' st', sampleEvents ue vp st = some (vp', st') ∧ vp'.length = vp.length
        ∧ ∀ j : Nat, (∀ e ∈ ue, e.1.toNat ≠ j) → vp'[j]? = vp[j]? := by
  induction ue with
  | nil => intro vp st _; exact ⟨vp, st, rfl, rfl, fun _ _ => rfl⟩
  | cons e es ih =>
    intro vp st hv
    have he := hv e (List.mem_cons_self _ _)
    have hes : ValidEvents es (vp.set e.1.toNat
        (if (e.2.SampleProbability st).1 < 0 then 0
          else if (e.2.SampleProbability st).1 > 1 then 1
          else (e.2.SampleProbability st).1)).length := by
      intro e' he'
      simpa using hv e' (List.mem_cons_of_mem _ he')
    obtain ⟨vp', st', hs, hlen, hframe⟩ := ih _ (e.2.SampleProbability st).2 hes
    refine ⟨vp', st', ?_, by simpa using hlen, ?_⟩
    · simp only [sampleEvents, vecSet_eq_some he.1 he.2]
      exact hs
    · intro j hj
      rw [hframe j (fun e' he' => hj e' (List.mem_cons_of_mem _ he'))]
      exact List.getElem?_set_ne (hj e (List.mem_cons_self _ _))

/-- The cleanup loop succeeds on valid subscripts, keeps the length, leaves
slots of no uncertain event untouched, and leaves in the slot of each uncertain
event the nominal probability of an event with that slot. -/
theorem cleanup_spec {σ : Type} (ue : List (Int × BasicEvent σ)) :
    ∀ (vp : VarProbs), ValidEvents ue vp.length →
      ∃ vp', cleanup ue vp = some vp' ∧ vp'.length = vp.length
        ∧ (∀ j : Nat, (∀ e ∈ ue, e.1.toNat ≠ j) → vp'[j]? = vp[j]?)
        ∧ ∀ e ∈ ue, ∃ e' ∈ ue, e'.1.toNat = e.1.toNat ∧ vp'[e.1.toNat]? = some e'.2.p := by
  induction ue with
  | nil => intro vp _; exact ⟨vp, rfl, rfl, fun _ _ => rfl, fun e he => absurd he (List.not_mem_nil e)⟩
  | cons e es ih =>
    intro vp hv
    have he := hv e (List.mem_cons_self _ _)
    have hes : ValidEvents es (vp.set e.1.toNat e.2.p).length := by
      intro e' he'
      simpa using hv e' (List.mem_cons_of_mem _ he')
    obtain ⟨vp', hs, hlen, hframe, hval⟩ := ih _ hes
    refine ⟨vp', ?_, by simpa using hlen, ?_, ?_⟩
    · simp only [cleanup, vecSet_eq_some he.1 he.2]
      exact hs
    · intro j hj
      rw [hframe j (fun e' he' => hj e' (List.mem_cons_of_mem _ he'))]
      exact List.getElem?_set_ne (hj e (List.mem_cons_self _ _))
    · intro x hx
      rcases List.mem_cons.mp hx with rfl | hx
      · by_cases hlater : ∃ e' ∈ es, e'.1.toNat = x.1.toNat
        · obtain ⟨e', he', heq⟩ := hlater
          obtain ⟨e'', he'', heq'', hv''⟩ := hval e' he'
          exact ⟨e'', List.mem_cons_of_mem _ he'', heq''.trans heq, heq ▸ hv''⟩
        · refine ⟨x, List.mem_cons_self _ _, rfl, ?_⟩
          rw [hframe x.1.toNat (fun e' he' h => hlater ⟨e', he', h⟩)]
          exact List.getElem?_set_self he.2
      · obtain ⟨e', he', heq, hv'⟩ := hval x hx
        exact ⟨e', List.mem_cons_of_mem _ he', heq, hv'⟩

/-- The trial loop run for `n` trials: it succeeds, appends `n` samples, the
`k`-th of which is the clamped total probability of trial `k`, and touches only
slots of uncertain events. -/
theorem trialLoop_spec {σ : Type} (ctp : VarProbs → ℚ) (ue : List (Int × BasicEvent σ))
    (hnn : ∀ v, 0 ≤ ctp v) :
    ∀ (n : Nat) (samples : List ℚ) (vp : VarProbs) (st : σ), ValidEvents ue vp.length →
      ∃ news vp' st', trialLoop ctp ue n samples vp st = some (samples ++ news, vp', st')
        ∧ news.length = n ∧ vp'.length = vp.length
        ∧ (∀ j : Nat, (∀ e ∈ ue, e.1.toNat ≠ j) → vp'[j]? = vp[j]?)
        ∧ ∀ k, k < n → ∃ vpk stk, trialInput ue k vp st = some (vpk, stk)
            ∧ news[k]? = some (max 0 (min 1 (ctp vpk))) := by
  intro n
  induction n with
  | zero =>
    intro samples vp st _
    exact ⟨[], vp, st, by simp [trialLoop], rfl, rfl, fun _ _ => rfl,
      fun k hk => absurd hk (Nat.not_lt_zero k)⟩
  | succ n ih =>
    intro samples vp st hv
    obtain ⟨vp1, st2, hs, hlen1, hframe1⟩ := sampleEvents_spec ue vp (resetEvents ue st) hv
    have hv1 : ValidEvents ue vp1.length := by rw [hlen1]; exact hv
    obtain ⟨news, vp', st', hl, hnlen, hlen, hframe, hk⟩ :=
      ih (samples ++ [min 1 (ctp vp1)]) vp1 st2 hv1
    refine ⟨min 1 (ctp vp1) :: news, vp', st', ?_, by simp [hnlen], hlen.trans hlen1, ?_, ?_⟩
    · simp only [trialLoop, hs, not_lt.mpr (hnn vp1), if_false, clamp_upper_eq_min]
      rw [hl]
      simp
    · intro j hj
      rw [hframe j hj, hframe1 j hj]
    · intro k hklt
      cases k with
      | zero =>
        refine ⟨vp1, st2, hs, ?_⟩
        simp [max_eq_right (le_min zero_le_one (hnn vp1))]
      | succ k =>
        obtain ⟨vpk, stk, hti, hget⟩ := hk k (Nat.lt_of_succ_lt_succ hklt)
        refine ⟨vpk, stk, ?_, by simpa using hget⟩
        simp only [trialInput, hs]
        exact hti

/-- Everything `Sample` guarantees on valid subscripts and a calculator with
non-negative results. -/
theorem Sample_spec {σ : Type} (ctp : VarProbs → ℚ) (ue : List (Int × BasicEvent σ))
    (hnn : ∀ v, 0 ≤ ctp v) (n : Int) (vp : VarProbs) (st : σ) (hv : ValidEvents ue vp.length) :
    ∃ samples vp' st', Sample ctp ue n vp st = some (samples, vp', st')
      ∧ samples.length = n.toNat ∧ vp'.length = vp.length
      ∧ (∀ j : Nat, (∀ e ∈ ue, e.1.toNat ≠ j) → vp'[j]? = vp[j]?)
      ∧ (∀ e ∈ ue, ∃ e' ∈ ue, e'.1.toNat = e.1.toNat ∧ vp'[e.1.toNat]? = some e'.2.p)
      ∧ ∀ k, k < n.toNat → ∃ vpk stk, trialInput ue k vp st = some (vpk, stk)
          ∧ samples[k]? = some (max 0 (min 1 (ctp vpk))) := by
  obtain ⟨news, vp1, st1, hl, hnlen, hlen1, hframe1, hk⟩ :=
    trialLoop_spec ctp ue hnn n.toNat [] vp st hv
  have hv1 : ValidEvents ue vp1.length := by rw [hlen1]; exact hv
  obtain ⟨vp2, hc, hlen2, hframe2, hval⟩ := cleanup_spec ue vp1 hv1
  refine ⟨news, vp2, st1, ?_, hnlen, hlen2.trans hlen1, ?_, hval, hk⟩
  · simp only [Sample, hl, hc, List.nil_append]
  · intro j hj
    rw [hframe2 j hj, hframe1 j hj]

/-- Writing the same value into the same slot of two vectors of equal length
that agree outside a set of slots containing it. -/
theorem vecSet_agree {vp vp' : VarProbs} (hlen : vp.length = vp'.length) (i : Int) (x : ℚ)
    (P : Nat → Prop) (hag : ∀ j : Nat, (i.toNat ≠ j ∧ P j) → vp[j]? = vp'[j]?) :
    (vecSet vp i x = none ∧ vecSet vp' i x = none) ∨
      ∃ w w', vecSet vp i x = some w ∧ vecSet vp' i x = some w' ∧ w.length = w'.length
        ∧ ∀ j : Nat, P j → w[j]? = w'[j]? := by
  by_cases hv : 0 ≤ i ∧ i.toNat < vp.length
  · have hv' : 0 ≤ i ∧ i.toNat < vp'.length := hlen ▸ hv
    refine Or.inr ⟨_, _, vecSet_eq_some hv.1 hv.2 x, vecSet_eq_some hv'.1 hv'.2 x, by simp [hlen], ?_⟩
    intro j hj
    by_cases hij : i.toNat = j
    · rw [← hij, List.getElem?_set_self hv.2, List.getElem?_set_self hv'.2]
    · rw [List.getElem?_set_ne hij, List.getElem?_set_ne hij]
      exact hag j ⟨hij, hj⟩
  · have hv' : ¬ (0 ≤ i ∧ i.toNat < vp'.length) := hlen ▸ hv
    exact Or.inl ⟨by simp only [vecSet, hv, if_false], by simp only [vecSet, hv', if_false]⟩

/-- The sampling loop overwrites every slot of an uncertain event: its result
does not depend on what those slots held before. -/
theorem sampleEvents_agree {σ : Type} (ue : List (Int × BasicEvent σ)) :
    ∀ (vp vp' : VarProbs) (st : σ), vp.length = vp'.length →
      (∀ j : Nat, (∀ e ∈ ue, e.1.toNat ≠ j) → vp[j]? = vp'[j]?) →
      sampleEvents ue vp st = sampleEvents ue vp' st := by
  induction ue with
  | nil =>
    intro vp vp' st hlen hag
    have : vp = vp' := List.ext_getElem? (fun j => hag j (fun e he => absurd he (List.not_mem_nil e)))
    rw [this]
  | cons e es ih =>
    intro vp vp' st hlen hag
    rcases vecSet_agree hlen e.1
      (if (e.2.SampleProbability st).1 < 0 then 0
        else if (e.2.SampleProbability st).1 > 1 then 1 else (e.2.SampleProbability st).1)
      (fun j => ∀ e' ∈ es, e'.1.toNat ≠ j)
      (fun j hj => hag j (fun e' he' => by
        rcases List.mem_cons.mp he' with rfl | h
        · exact hj.1
        · exact hj.2 e' h)) with ⟨h1, h2⟩ | ⟨w, w', h1, h2, hl, hw⟩
    · simp only [sampleEvents, h1, h2]
    · simp only [sampleEvents, h1, h2]
      exact ih w w' _ hl hw

/-- The cleanup loop overwrites every slot of an uncertain event. -/
theorem cleanup_agree {σ : Type} (ue : List (Int × BasicEvent σ)) :
    ∀ (vp vp' : VarProbs), vp.length = vp'.length →
      (∀ j : Nat, (∀ e ∈ ue, e.1.toNat ≠ j) → vp[j]? = vp'[j]?) →
      cleanup ue vp = cleanup ue vp' := by
  induction ue with
  | nil =>
    intro vp vp' hlen hag
    have : vp = vp' := List.ext_getElem? (fun j => hag j (fun e he => absurd he (List.not_mem_nil e)))
    rw [this]
  | cons e es ih =>
    intro vp vp' hlen hag
    rcases vecSet_agree hlen e.1 e.2.p (fun j => ∀ e' ∈ es, e'.1.toNat ≠ j)
      (fun j hj => hag j (fun e' he' => by
        rcases List.mem_cons.mp he' with rfl | h
        · exact hj.1
        · exact hj.2 e' h)) with ⟨h1, h2⟩ | ⟨w, w', h1, h2, hl, hw⟩
    · simp only [cleanup, h1, h2]
    · simp only [cleanup, h1, h2]
      exact ih w w' hl hw

/-- Two runs of `Sample` from probability vectors that differ only in slots of
uncertain events behave identically. -/
theorem Sample_agree {σ : Type} (ctp : VarProbs → ℚ) (ue : List (Int × BasicEvent σ))
    (n : Int) (vp vp' : VarProbs) (st : σ) (hlen : vp.length = vp'.length)
    (hag : ∀ j : Nat, (∀ e ∈ ue, e.1.toNat ≠ j) → vp[j]? = vp'[j]?) :
    Sample ctp ue n vp st = Sample ctp ue n vp' st := by
  unfold Sample
  cases n.toNat with
  | zero => simp only [trialLoop, cleanup_agree ue vp vp' hlen hag]
  | succ m => simp only [trialLoop, sampleEvents_agree ue vp vp' _ hlen hag]

/-! ## Claims C4 to C7: `UncertaintyAnalyzer::Sample` -/

/-- C4, as stated, fails: with `var_probs = [0, 1/2]` on entry, one trial and
one uncertain event of nominal probability `1/10` at index 1, `Sample` leaves
`[0, 1/10]` behind, which differs from the vector on entry. -/
theorem C4_counterexample :
    UncertaintyAnalyzer.Sample calcSlot1 [((1 : Int), rampEvent)] 1 [0, 1 / 2] 0
        = some ([0], [0, 1 / 10], 1)
      ∧ ([0, 1 / 10] : VarProbs) ≠ [0, 1 / 2] := by
  constructor
  · norm_num [UncertaintyAnalyzer.Sample, UncertaintyAnalyzer.trialLoop,
      UncertaintyAnalyzer.sampleEvents, UncertaintyAnalyzer.resetEvents,
      UncertaintyAnalyzer.cleanup, vecSet, rampEvent, calcSlot1]
  · norm_num

/-- C4 (amended): for every probability vector in which the slot of each
uncertain event holds that event's nominal probability on entry, every set of
uncertain events and every `num_trials`, `Sample` returns and leaves
`var_probs` equal to its state on entry. -/
theorem C4_sample_restores_entry {σ : Type} (ctp : VarProbs → ℚ)
    (ue : List (Int × BasicEvent σ)) (n : Int) (vp : VarProbs) (st : σ)
    (hnn : ∀ v, 0 ≤ ctp v) (hv : ValidEvents ue vp.length)
    (hnom : ∀ e ∈ ue, vecGet vp e.1 = some e.2.p) :
    ∃ samples st', UncertaintyAnalyzer.Sample ctp ue n vp st = some (samples, vp, st') := by
  obtain ⟨samples, vp', st', hs, -, -, hframe, hval, -⟩ := Sample_spec ctp ue hnn n vp st hv
  have : vp' = vp := by
    apply List.ext_getElem?
    intro j
    by_cases hj : ∃ e ∈ ue, e.1.toNat = j
    · obtain ⟨e, he, rfl⟩ := hj
      obtain ⟨e', he', heq, hget⟩ := hval e he
      have h := hnom e' he'
      simp only [vecGet, (hv e' he').1, if_true, heq] at h
      rw [hget, h]
    · exact hframe j (fun e he h => hj ⟨e, he, h⟩)
  exact ⟨samples, st', this ▸ hs⟩

/-- Witness of the amended C4: entry vector `[0, 1/10]`, two trials. -/
theorem C4_sample_restores_entry_witness :
    ∃ samples st', UncertaintyAnalyzer.Sample calcSlot1 [((1 : Int), rampEvent)] 2 [0, 1 / 10] 0
      = some (samples, [0, 1 / 10], st') :=
  C4_sample_restores_entry calcSlot1 [((1 : Int), rampEvent)] 2 [0, 1 / 10] 0
    (fun v => abs_nonneg _) (by simp [ValidEvents]) (by simp [vecGet, rampEvent])

/-- C5: after `Sample` returns (for any `num_trials`, zero and negative values
included), the slot of every uncertain event holds the event's nominal
probability, and every slot that belongs to no uncertain event holds the value
it had on entry. Uncertain events carry distinct valid indices. -/
theorem C5_sample_cleanup {σ : Type} (ctp : VarProbs → ℚ)
    (ue : List (Int × BasicEvent σ)) (n : Int) (vp : VarProbs) (st : σ)
    (hnn : ∀ v, 0 ≤ ctp v) (hv : ValidEvents ue vp.length)
    (hnd : (ue.map Prod.fst).Nodup) :
    ∃ samples vp' st', UncertaintyAnalyzer.Sample ctp ue n vp st = some (samples, vp', st')
      ∧ (∀ e ∈ ue, vecGet vp' e.1 = some e.2.p)
      ∧ ∀ j : Nat, (∀ e ∈ ue, e.1 ≠ (j : Int)) → vp'[j]? = vp[j]? := by
  obtain ⟨samples, vp', st', hs, -, -, hframe, hval, -⟩ := Sample_spec ctp ue hnn n vp st hv
  refine ⟨samples, vp', st', hs, ?_, ?_⟩
  · intro e he
    obtain ⟨e', he', heq, hget⟩ := hval e he
    have hidx : e'.1 = e.1 := by
      have h1 := (hv e he).1
      have h2 := (hv e' he').1
      rw [← Int.toNat_of_nonneg h1, ← Int.toNat_of_nonneg h2, heq]
    have : e' = e := List.inj_on_of_nodup_map hnd he' he hidx
    simp only [vecGet, (hv e he).1, if_true, hget, this]
  · intro j hj
    apply hframe j
    intro e he h
    apply hj e he
    rw [← h, Int.toNat_of_nonneg (hv e he).1]

/-- Witness of C5: one uncertain event at index 1, entry vector `[0, 1/2]`,
zero trials. -/
theorem C5_sample_cleanup_witness :
    ∃ samples vp' st',
      UncertaintyAnalyzer.Sample calcSlot1 [((1 : Int), rampEvent)] 0 [0, 1 / 2] 0
        = some (samples, vp', st')
      ∧ (∀ e ∈ [((1 : Int), rampEvent)], vecGet vp' e.1 = some e.2.p)
      ∧ ∀ j : Nat, (∀ e ∈ [((1 : Int), rampEvent)], e.1 ≠ (j : Int)) →
          vp'[j]? = ([0, 1 / 2] : VarProbs)[j]? :=
  C5_sample_cleanup calcSlot1 [((1 : Int), rampEvent)] 0 [0, 1 / 2] 0
    (fun v => abs_nonneg _) (by simp [ValidEvents]) (by simp)

/-- C6: for every `num_trials ≥ 1` and every calculator with non-negative
results, `Sample` returns exactly `num_trials` samples, in trial order; sample
`k` is the total probability the calculator returns in trial `k`, clamped into
`[0,1]`. -/
theorem C6_sample_vector {σ : Type} (ctp : VarProbs → ℚ)
    (ue : List (Int × BasicEvent σ)) (n : Int) (vp : VarProbs) (st : σ)
    (hn : 1 ≤ n) (hnn : ∀ v, 0 ≤ ctp v) (hv : ValidEvents ue vp.length) :
    ∃ samples vp' st', UncertaintyAnalyzer.Sample ctp ue n vp st = some (samples, vp', st')
      ∧ (samples.length : Int) = n
      ∧ ∀ k : Nat, (k : Int) < n →
          ∃ vpk stk, UncertaintyAnalyzer.trialInput ue k vp st = some (vpk, stk)
            ∧ samples[k]? = some (max 0 (min 1 (ctp vpk))) := by
  obtain ⟨samples, vp', st', hs, hlen, -, -, -, hk⟩ := Sample_spec ctp ue hnn n vp st hv
  refine ⟨samples, vp', st', hs, ?_, ?_⟩
  · rw [hlen]
    exact Int.toNat_of_nonneg (by omega)
  · intro k hkn
    exact hk k (by omega)

/-- Witness of C6: three trials of one uncertain event. -/
theorem C6_sample_vector_witness :
    ∃ samples vp' st',
      UncertaintyAnalyzer.Sample calcSlot1 [((1 : Int), rampEvent)] 3 [0, 1 / 2] 0
        = some (samples, vp', st')
      ∧ (samples.length : Int) = 3
      ∧ ∀ k : Nat, (k : Int) < 3 →
          ∃ vpk stk,
            UncertaintyAnalyzer.trialInput [((1 : Int), rampEvent)] k [0, 1 / 2] 0
              = some (vpk, stk)
            ∧ samples[k]? = some (max 0 (min 1 (calcSlot1 vpk))) :=
  C6_sample_vector calcSlot1 [((1 : Int), rampEvent)] 3 [0, 1 / 2] 0 (by decide)
    (fun v => abs_nonneg _) (by simp [ValidEvents])

/-- C7: two runs of `Sample` with the same `num_trials`, uncertain events,
calculator and random state, started from probability vectors that differ at
most in the slots of uncertain events, both return, and return the same sample
vector (and leave the same probability vector and random state). -/
theorem C7_sample_deterministic {σ : Type} (ctp : VarProbs → ℚ)
    (ue : List (Int × BasicEvent σ)) (n : Int) (vp vp' : VarProbs) (st : σ)
    (hnn : ∀ v, 0 ≤ ctp v) (hv : ValidEvents ue vp.length)
    (hlen : vp.length = vp'.length)
    (hag : ∀ j : Nat, (∀ e ∈ ue, e.1 ≠ (j : Int)) → vp[j]? = vp'[j]?) :
    ∃ samples w st', UncertaintyAnalyzer.Sample ctp ue n vp st = some (samples, w, st')
      ∧ UncertaintyAnalyzer.Sample ctp ue n vp' st = some (samples, w, st') := by
  obtain ⟨samples, w, st', hs, -⟩ := Sample_spec ctp ue hnn n vp st hv
  refine ⟨samples, w, st', hs, ?_⟩
  rw [← Sample_agree ctp ue n vp vp' st hlen]
  · exact hs
  · intro j hj
    apply hag j
    intro e he h
    exact hj e he (by rw [h]; rfl)

/-- Witness of C7: entry vectors `[0, 1/2]` and `[0, 9/10]`, three trials. -/
theorem C7_sample_deterministic_witness :
    ∃ samples w st',
      UncertaintyAnalyzer.Sample calcSlot1 [((1 : Int), rampEvent)] 3 [0, 1 / 2] 0
        = some (samples, w, st')
      ∧ UncertaintyAnalyzer.Sample calcSlot1 [((1 : Int), rampEvent)] 3 [0, 9 / 10] 0
        = some (samples, w, st') :=
  C7_sample_deterministic calcSlot1 [((1 : Int), rampEvent)] 3 [0, 1 / 2] [0, 9 / 10] 0
    (fun v => abs_nonneg _) (by simp [ValidEvents]) rfl
    (by
      intro j hj
      have hj1 : (1 : Int) ≠ (j : Int) := hj (1, rampEvent) (List.mem_singleton.mpr rfl)
      match j with
      | 0 => rfl
      | 1 => exact absurd rfl hj1
      | _ + 2 => rfl)

/-! ## Claim C8: `GatherImportantEvents` -/

/-- Appending one element to the list: it is kept iff it is new. -/
theorem firstEncounters_append_singleton (l : List Int) (x : Int) :
    firstEncounters (l ++ [x])
      = if x ∈ firstEncounters l then firstEncounters l else firstEncounters l ++ [x] := by
  unfold firstEncounters
  rw [List.reverse_append, List.reverse_singleton, List.singleton_append]
  by_cases hx : x ∈ l.reverse
  · rw [List.dedup_cons_of_mem hx, if_pos (by simpa using hx)]
  · rw [List.dedup_cons_of_not_mem hx, if_neg (by simpa using hx), List.reverse_cons]

/-- The list `firstEncounters l` has the elements of `l`. -/
theorem mem_firstEncounters {l : List Int} {x : Int} : x ∈ firstEncounters l ↔ x ∈ l := by
  simp [firstEncounters]

/-- The gathering loop over one list of literals. -/
theorem gather_foldl {σ : Type} (graph : BooleanGraph σ) (l : List Int) :
    ∃ unique_indices : List Int,
      l.foldl (ImportanceAnalysis.gatherIndex graph) ([], [])
        = ((firstEncounters (l.map (fun i => |i|))).map (fun i => (i, graph.GetBasicEvent i)),
            unique_indices)
      ∧ ∀ x, x ∈ unique_indices ↔ x ∈ firstEncounters (l.map (fun i => |i|)) := by
  induction l using List.reverseRecOn with
  | nil => exact ⟨[], rfl, fun x => Iff.rfl⟩
  | append_singleton l a ih =>
    obtain ⟨u, hfold, hu⟩ := ih
    rw [List.foldl_append, hfold, List.map_append, List.map_singleton,
      firstEncounters_append_singleton]
    by_cases ha : |a| ∈ firstEncounters (l.map (fun i => |i|))
    · refine ⟨u, ?_, ?_⟩
      · simp only [List.foldl_cons, List.foldl_nil, ImportanceAnalysis.gatherIndex,
          (hu |a|).mpr ha, if_true, ha]
      · simpa only [ha, if_true] using hu
    · refine ⟨|a| :: u, ?_, ?_⟩
      · simp only [List.foldl_cons, List.foldl_nil, ImportanceAnalysis.gatherIndex,
          mt (hu |a|).mp ha, if_false, ha, List.map_append, List.map_singleton]
      · intro x
        simp only [ha, if_false, List.mem_cons, List.mem_append, List.mem_singleton, hu x]
        tauto

/-- C8: for every list of cut sets of non-zero signed indices,
`GatherImportantEvents` returns the pairs `(index, graph.GetBasicEvent(index))`
whose index list is the duplicate-free list of the absolute values of the
literals in first-encounter order; every index is positive, no index occurs
twice, and an index is present iff it or its negation occurs in a cut set. -/
theorem C8_gather_important_events {σ : Type} (graph : BooleanGraph σ)
    (cut_sets : List (List Int)) (hnz : ∀ c ∈ cut_sets, ∀ l ∈ c, l ≠ 0) :
    ImportanceAnalysis.GatherImportantEvents graph cut_sets
        = (firstEncounters (cut_sets.flatten.map (fun i => |i|))).map
            (fun i => (i, graph.GetBasicEvent i))
      ∧ (∀ i ∈ (ImportanceAnalysis.GatherImportantEvents graph cut_sets).map Prod.fst, 0 < i)
      ∧ ((ImportanceAnalysis.GatherImportantEvents graph cut_sets).map Prod.fst).Nodup
      ∧ ∀ i : Int, i ∈ (ImportanceAnalysis.GatherImportantEvents graph cut_sets).map Prod.fst
          ↔ 0 < i ∧ ∃ c ∈ cut_sets, i ∈ c ∨ -i ∈ c := by
  obtain ⟨u, hfold, -⟩ := gather_foldl graph cut_sets.flatten
  have hres : ImportanceAnalysis.GatherImportantEvents graph cut_sets
      = (firstEncounters (cut_sets.flatten.map (fun i => |i|))).map
          (fun i => (i, graph.GetBasicEvent i)) := by
    unfold ImportanceAnalysis.GatherImportantEvents
    rw [← List.foldl_flatten, hfold]
  have hidx : (ImportanceAnalysis.GatherImportantEvents graph cut_sets).map Prod.fst
      = firstEncounters (cut_sets.flatten.map (fun i => |i|)) := by
    rw [hres, List.map_map]
    exact List.map_id _
  have hmem : ∀ i : Int, i ∈ firstEncounters (cut_sets.flatten.map (fun i => |i|))
      ↔ ∃ c ∈ cut_sets, ∃ l ∈ c, |l| = i := by
    intro i
    rw [mem_firstEncounters, List.mem_map]
    constructor
    · rintro ⟨l, hl, rfl⟩
      obtain ⟨c, hc, hlc⟩ := List.mem_flatten.mp hl
      exact ⟨c, hc, l, hlc, rfl⟩
    · rintro ⟨c, hc, l, hlc, rfl⟩
      exact ⟨l, List.mem_flatten.mpr ⟨c, hc, hlc⟩, rfl⟩
  refine ⟨hres, ?_, ?_, ?_⟩
  · intro i hi
    rw [hidx] at hi
    obtain ⟨c, hc, l, hlc, rfl⟩ := (hmem i).mp hi
    exact abs_pos.mpr (hnz c hc l hlc)
  · rw [hidx]
    exact List.nodup_reverse.mpr (List.nodup_dedup _)
  · intro i
    rw [hidx, hmem]
    constructor
    · rintro ⟨c, hc, l, hlc, rfl⟩
      refine ⟨abs_pos.mpr (hnz c hc l hlc), c, hc, ?_⟩
      rcases abs_choice l with h | h
      · left; rw [h]; exact hlc
      · right; rw [h, neg_neg]; exact hlc
    · rintro ⟨hpos, c, hc, h | h⟩
      · exact ⟨c, hc, i, h, abs_of_pos hpos⟩
      · exact ⟨c, hc, -i, h, by rw [abs_neg, abs_of_pos hpos]⟩

/-- Witness of C8: the cut sets `{1, -2}` and `{2, 3, -1}`. -/
theorem C8_gather_important_events_witness :
    ImportanceAnalysis.GatherImportantEvents graphTenth [[1, -2], [2, 3, -1]]
        = (firstEncounters (([[1, -2], [2, 3, -1]] : List (List Int)).flatten.map
            (fun i => |i|))).map (fun i => (i, graphTenth.GetBasicEvent i))
      ∧ (∀ i ∈ (ImportanceAnalysis.GatherImportantEvents graphTenth
            [[1, -2], [2, 3, -1]]).map Prod.fst, 0 < i)
      ∧ ((ImportanceAnalysis.GatherImportantEvents graphTenth
            [[1, -2], [2, 3, -1]]).map Prod.fst).Nodup
      ∧ ∀ i : Int, i ∈ (ImportanceAnalysis.GatherImportantEvents graphTenth
            [[1, -2], [2, 3, -1]]).map Prod.fst
          ↔ 0 < i ∧ ∃ c ∈ ([[1, -2], [2, 3, -1]] : List (List Int)), i ∈ c ∨ -i ∈ c :=
  C8_gather_important_events graphTenth [[1, -2], [2, 3, -1]] (by decide)

/-! ## Fuel lemmas for the unmemoised recursions -/

/-- One step of `MifUnmemoised` on an `Ite`, read backwards. -/
theorem MifUnmemoised_ite_some {gates : List (Int × Bdd.Function)} {vp : VarProbs}
    {order : Int} {vs : List Ite} {n id : Nat} {d : ℚ} :
    MifUnmemoised gates vp order vs (n + 1) (.ite id) = some d ↔
      ∃ a, vs[id]? = some a ∧
        ((order < a.order ∧ a.module = false ∧ d = 0) ∨
         (order < a.order ∧ a.module = true ∧ ∃ diff res mif,
            edgeDifference vs a = some diff ∧ gates.lookup a.index = some res
            ∧ MifUnmemoised gates vp order vs n res.vertex = some mif
            ∧ d = diff * (if res.complement then -mif else mif)) ∨
         (a.order = order ∧ a.module = false ∧ edgeDifference vs a = some d) ∨
         (a.order < order ∧ ∃ pv hi lo,
            pivotProbability gates vp vs a = some pv
            ∧ MifUnmemoised gates vp order vs n a.high = some hi
            ∧ MifUnmemoised gates vp order vs n a.low = some lo
            ∧ d = pv * hi + (1 - pv) * (if a.complement_edge then -lo else lo))) := by
  rw [MifUnmemoised]
  cases hv : vs[id]? with
  | none => simp
  | some a =>
    simp only [Option.some.injEq, exists_eq_left']
    rcases lt_trichotomy a.order order with hlt | heq | hgt
    · have h1 : ¬ a.order > order := not_lt.mpr (le_of_lt hlt)
      have h2 : ¬ a.order = order := ne_of_lt hlt
      have h3 : ¬ order < a.order := h1
      simp only [h1, h2, h3, hlt, if_false, false_and, false_or, true_and]
      cases pivotProbability gates vp vs a with
      | none => simp
      | some pv =>
        cases MifUnmemoised gates vp order vs n a.high with
        | none => simp
        | some hi =>
          cases MifUnmemoised gates vp order vs n a.low with
          | none => simp
          | some lo =>
            simp only [Option.some.injEq, exists_eq_left', exists_and_left, exists_eq_left]
            exact eq_comm
    · have h1 : ¬ a.order > order := by rw [heq]; exact lt_irrefl _
      have h3 : ¬ order < a.order := h1
      have h4 : ¬ a.order < order := by rw [heq]; exact lt_irrefl _
      simp only [h1, h3, h4, heq, if_false, if_true, false_and, false_or, true_and, or_false]
      cases a.module <;> simp
    · have h2 : ¬ a.order = order := ne_of_gt hgt
      have h4 : ¬ a.order < order := not_lt.mpr (le_of_lt hgt)
      have h5 : a.order > order := hgt
      simp only [h2, h4, h5, hgt, if_true, false_and, or_false, true_and]
      cases a.module with
      | false =>
        simp only [if_true, Option.some.injEq, true_and, Bool.false_eq_true, false_and,
          or_false]
        exact eq_comm
      | true =>
        simp only [Bool.true_eq_false, if_false, false_and, false_or, true_and]
        cases hed : edgeDifference vs a with
        | none => simp
        | some diff =>
          cases hg : gates.lookup a.index with
          | none => simp
          | some res =>
            cases hm : MifUnmemoised gates vp order vs n res.vertex with
            | none => simp [hm]
            | some mif =>
              simp only [Option.some.injEq, exists_eq_left', exists_and_left, exists_eq_left, hm]
              exact eq_comm

/-- One more unit of fuel does not change a factor that is defined. -/
theorem MifUnmemoised_succ (gates : List (Int × Bdd.Function)) (vp : VarProbs)
    (order : Int) (vs : List Ite) :
    ∀ (n : Nat) (v : VertexPtr) (d : ℚ), MifUnmemoised gates vp order vs n v = some d →
      MifUnmemoised gates vp order vs (n + 1) v = some d := by
  intro n
  induction n with
  | zero => intro v d h; simp [MifUnmemoised] at h
  | succ n ih =>
    intro v d h
    match v with
    | .terminal b => simpa [MifUnmemoised] using h
    | .ite id =>
      obtain ⟨a, hv, hb⟩ := MifUnmemoised_ite_some.mp h
      refine MifUnmemoised_ite_some.mpr ⟨a, hv, ?_⟩
      rcases hb with hb | ⟨h1, h2, diff, res, mif, h3, h4, h5, h6⟩ | hb
        | ⟨h1, pv, hi, lo, h2, h3, h4, h5⟩
      · exact Or.inl hb
      · exact Or.inr (Or.inl ⟨h1, h2, diff, res, mif, h3, h4, ih _ _ h5, h6⟩)
      · exact Or.inr (Or.inr (Or.inl hb))
      · exact Or.inr (Or.inr (Or.inr ⟨h1, pv, hi, lo, h2, ih _ _ h3, ih _ _ h4, h5⟩))

/-- More fuel does not change a factor that is defined. -/
theorem MifUnmemoised_mono (gates : List (Int × Bdd.Function)) (vp : VarProbs)
    (order : Int) (vs : List Ite) {n m : Nat} (hnm : n ≤ m) {v : VertexPtr} {d : ℚ}
    (h : MifUnmemoised gates vp order vs n v = some d) :
    MifUnmemoised gates vp order vs m v = some d := by
  induction hnm with
  | refl => exact h
  | step _ ih => exact MifUnmemoised_succ gates vp order vs _ v d ih

/-- The unmemoised factor of a vertex does not depend on the fuel. -/
theorem MifUnmemoised_unique (gates : List (Int × Bdd.Function)) (vp : VarProbs)
    (order : Int) (vs : List Ite) {n m : Nat} {v : VertexPtr} {d d' : ℚ}
    (h : MifUnmemoised gates vp order vs n v = some d)
    (h' : MifUnmemoised gates vp order vs m v = some d') : d = d' := by
  have h1 := MifUnmemoised_mono gates vp order vs (le_max_left n m) h
  have h2 := MifUnmemoised_mono gates vp order vs (le_max_right n m) h'
  rw [h1] at h2
  exact Option.some.inj h2

/-- One step of `CalculateProbability` on an `Ite`, read backwards. -/
theorem CalculateProbability_ite_some {gates : List (Int × Bdd.Function)} {vp : VarProbs}
    {vs : List Ite} {n id : Nat} {p : ℚ} :
    CalculateProbability gates vp vs (n + 1) (.ite id) = some p ↔
      ∃ a pv ph pl, vs[id]? = some a
        ∧ ((a.module = true ∧ ∃ res pr, gates.lookup a.index = some res
              ∧ CalculateProbability gates vp vs n res.vertex = some pr
              ∧ pv = if res.complement then 1 - pr else pr)
            ∨ (a.module = false ∧ vecGet vp a.index = some pv))
        ∧ CalculateProbability gates vp vs n a.high = some ph
        ∧ CalculateProbability gates vp vs n a.low = some pl
        ∧ p = pv * ph + (1 - pv) * (if a.complement_edge then 1 - pl else pl) := by
  rw [CalculateProbability]
  cases hv : vs[id]? with
  | none => simp
  | some a =>
    simp only [Option.some.injEq, exists_and_left, exists_eq_left']
    constructor
    · intro h
      cases hm : a.module with
      | false =>
        simp only [hm, Bool.false_eq_true, if_false] at h
        cases hpv : vecGet vp a.index with
        | none => simp [hpv] at h
        | some pv =>
          simp only [hpv] at h
          cases hh : CalculateProbability gates vp vs n a.high with
          | none => simp [hh] at h
          | some ph =>
            simp only [hh] at h
            cases hl : CalculateProbability gates vp vs n a.low with
            | none => simp [hl] at h
            | some pl =>
              simp only [hl, Option.some.injEq] at h
              exact ⟨pv, Or.inr ⟨rfl, rfl⟩, ph, rfl, pl, rfl, h.symm⟩
      | true =>
        simp only [hm, if_true] at h
        cases hg : gates.lookup a.index with
        | none => simp [hg] at h
        | some res =>
          simp only [hg] at h
          cases hr : CalculateProbability gates vp vs n res.vertex with
          | none => simp [hr] at h
          | some pr =>
            simp only [hr] at h
            cases hh : CalculateProbability gates vp vs n a.high with
            | none => simp [hh] at h
            | some ph =>
              simp only [hh] at h
              cases hl : CalculateProbability gates vp vs n a.low with
              | none => simp [hl] at h
              | some pl =>
                simp only [hl, Option.some.injEq] at h
                exact ⟨_, Or.inl ⟨rfl, res, rfl, pr, hr, rfl⟩, ph, rfl, pl, rfl, h.symm⟩
    · rintro ⟨pv, hpv, ph, hh, pl, hl, rfl⟩
      rcases hpv with ⟨hm, res, hg, pr, hr, rfl⟩ | ⟨hm, hpv⟩
      · simp only [hm, if_true, hg, hr, hh, hl]
      · simp only [hm, Bool.false_eq_true, if_false, hpv, hh, hl]

/-- One more unit of fuel does not change a probability that is defined. -/
theorem CalculateProbability_succ (gates : List (Int × Bdd.Function)) (vp : VarProbs)
    (vs : List Ite) :
    ∀ (n : Nat) (v : VertexPtr) (p : ℚ), CalculateProbability gates vp vs n v = some p →
      CalculateProbability gates vp vs (n + 1) v = some p := by
  intro n
  induction n with
  | zero => intro v p h; simp [CalculateProbability] at h
  | succ n ih =>
    intro v p h
    match v with
    | .terminal true => simpa [CalculateProbability] using h
    | .terminal false => simpa [CalculateProbability] using h
    | .ite id =>
      obtain ⟨a, pv, ph, pl, hv, hpv, hh, hl, hp⟩ := CalculateProbability_ite_some.mp h
      refine CalculateProbability_ite_some.mpr ⟨a, pv, ph, pl, hv, ?_, ih _ _ hh, ih _ _ hl, hp⟩
      rcases hpv with ⟨hm, res, pr, hg, hr, hpv⟩ | hpv
      · exact Or.inl ⟨hm, res, pr, hg, ih _ _ hr, hpv⟩
      · exact Or.inr hpv

/-- More fuel does not change a probability that is defined. -/
theorem CalculateProbability_mono (gates : List (Int × Bdd.Function)) (vp : VarProbs)
    (vs : List Ite) {n m : Nat} (hnm : n ≤ m) {v : VertexPtr} {p : ℚ}
    (h : CalculateProbability gates vp vs n v = some p) :
    CalculateProbability gates vp vs m v = some p := by
  induction hnm with
  | refl => exact h
  | step _ ih => exact CalculateProbability_succ gates vp vs _ v p ih

/-- The bottom-up probability of a vertex does not depend on the fuel. -/
theorem CalculateProbability_unique (gates : List (Int × Bdd.Function)) (vp : VarProbs)
    (vs : List Ite) {n m : Nat} {v : VertexPtr} {p p' : ℚ}
    (h : CalculateProbability gates vp vs n v = some p)
    (h' : CalculateProbability gates vp vs m v = some p') : p = p' := by
  have h1 := CalculateProbability_mono gates vp vs (le_max_left n m) h
  have h2 := CalculateProbability_mono gates vp vs (le_max_right n m) h'
  rw [h1] at h2
  exact Option.some.inj h2

/-! ## The vertex store under `setMark` and `setFactor` -/

/-- Reading the store after `ite->mark(m)` on vertex `id`. -/
theorem getElem?_setMark (h : List Ite) (id : Nat) (m : Bool) (j : Nat) :
    (setMark h id m)[j]?
      = if j = id then (h[id]?).map (fun a => { a with mark := m }) else h[j]? := by
  unfold setMark
  cases hv : h[id]? with
  | none =>
    by_cases hj : j = id
    · simp [hj, hv]
    · simp [hj]
  | some a =>
    by_cases hj : j = id
    · have hlt : id < h.length := (List.getElem?_eq_some_iff.mp hv).1
      simp [hj, List.getElem?_set_self hlt]
    · simp [hj, List.getElem?_set_ne (Ne.symm hj)]

/-- Reading the store after `ite->factor(x)` on vertex `id`. -/
theorem getElem?_setFactor (h : List Ite) (id : Nat) (x : ℚ) (j : Nat) :
    (setFactor h id x)[j]?
      = if j = id then (h[id]?).map (fun a => { a with factor := x }) else h[j]? := by
  unfold setFactor
  cases hv : h[id]? with
  | none =>
    by_cases hj : j = id
    · simp [hj, hv]
    · simp [hj]
  | some a =>
    by_cases hj : j = id
    · have hlt : id < h.length := (List.getElem?_eq_some_iff.mp hv).1
      simp [hj, List.getElem?_set_self hlt]
    · simp [hj, List.getElem?_set_ne (Ne.symm hj)]

/-- The relation `SameShape` is transitive. -/
theorem sameShape_trans {h1 h2 h3 : List Ite} (h12 : SameShape h1 h2) (h23 : SameShape h2 h3) :
    SameShape h1 h3 := fun id => (h12 id).trans (h23 id)

/-- The relation `SameShape` is symmetric. -/
theorem sameShape_symm {h1 h2 : List Ite} (h12 : SameShape h1 h2) : SameShape h2 h1 :=
  fun id => (h12 id).symm

/-- Writing a mark changes no field outside `mark` and `factor`. -/
theorem SameShape_setMark (h : List Ite) (id : Nat) (m : Bool) : SameShape (setMark h id m) h := by
  intro j
  rw [getElem?_setMark]
  by_cases hj : j = id
  · subst hj
    cases h[j]? <;> simp [Ite.shape]
  · simp [hj]

/-- Writing a factor changes no field outside `mark` and `factor`. -/
theorem SameShape_setFactor (h : List Ite) (id : Nat) (x : ℚ) :
    SameShape (setFactor h id x) h := by
  intro j
  rw [getElem?_setFactor]
  by_cases hj : j = id
  · subst hj
    cases h[j]? <;> simp [Ite.shape]
  · simp [hj]

/-- Vertices of equal shape agree on every field but `mark` and `factor`. -/
theorem shape_fields {a b : Ite} (h : a.shape = b.shape) :
    a.index = b.index ∧ a.order = b.order ∧ a.high = b.high ∧ a.low = b.low
      ∧ a.complement_edge = b.complement_edge ∧ a.module = b.module ∧ a.prob = b.prob := by
  simp only [Ite.shape, Ite.mk.injEq] at h
  tauto

/-- A vertex of one store has a vertex of equal shape in a store of the same
shape. -/
theorem sameShape_get {h h' : List Ite} (hs : SameShape h h') {id : Nat} {a : Ite}
    (ha : h[id]? = some a) : ∃ b, h'[id]? = some b ∧ a.shape = b.shape := by
  have := hs id
  rw [ha] at this
  cases hb : h'[id]? with
  | none => simp [hb] at this
  | some b => exact ⟨b, rfl, by simpa [hb] using this⟩

/-- The retrieved probability depends on the shape of the store only. -/
theorem RetrieveProbability_congr {h h' : List Ite} (hs : SameShape h h') (v : VertexPtr) :
    RetrieveProbability h v = RetrieveProbability h' v := by
  cases v with
  | terminal b => rfl
  | ite id =>
    cases ha : h[id]? with
    | none =>
      have := hs id
      rw [ha] at this
      cases hb : h'[id]? with
      | none => simp only [RetrieveProbability, ha, hb]
      | some b => simp [hb] at this
    | some a =>
      obtain ⟨b, hb, hab⟩ := sameShape_get hs ha
      simp only [RetrieveProbability, ha, hb, (shape_fields hab).2.2.2.2.2.2]

/-- The difference `high - low` depends on the shape of store and vertex only. -/
theorem edgeDifference_congr {h h' : List Ite} (hs : SameShape h h') {a b : Ite}
    (hab : a.shape = b.shape) : edgeDifference h a = edgeDifference h' b := by
  obtain ⟨-, -, hhi, hlo, hce, -, -⟩ := shape_fields hab
  unfold edgeDifference
  rw [hhi, hlo, hce, RetrieveProbability_congr hs, RetrieveProbability_congr hs]

/-- The pivot probability depends on the shape of store and vertex only. -/
theorem pivotProbability_congr (gates : List (Int × Bdd.Function)) (vp : VarProbs)
    {h h' : List Ite} (hs : SameShape h h') {a b : Ite} (hab : a.shape = b.shape) :
    pivotProbability gates vp h a = pivotProbability gates vp h' b := by
  obtain ⟨hidx, -, -, -, -, hmod, -⟩ := shape_fields hab
  unfold pivotProbability
  rw [hidx, hmod]
  cases gates.lookup b.index with
  | none => rfl
  | some res => simp only [RetrieveProbability_congr hs]

/-! ## One step of the memoised traversal, branch by branch -/

section Steps

open ImportanceAnalyzerBdd

variable (gates : List (Int × Bdd.Function)) (vp : VarProbs) (order : Int) (mark : Bool)

/-- A terminal vertex has factor 0 and the store is left alone. -/
theorem CalculateMifVertex_terminal (n : Nat) (h : List Ite) (b : Bool) :
    CalculateMifVertex gates vp order mark (n + 1) h (.terminal b) = some (0, h) := by
  rw [CalculateMifVertex]

/-- A vertex that carries the target mark returns its stored factor. -/
theorem CalculateMifVertex_marked {n : Nat} {h : List Ite} {id : Nat} {a : Ite}
    (ha : h[id]? = some a) (hm : a.mark = mark) :
    CalculateMifVertex gates vp order mark (n + 1) h (.ite id) = some (a.factor, h) := by
  rw [CalculateMifVertex]
  simp only [ha, hm, if_true]

/-- Branch `ite->order() > order`, not a module: the factor is 0. -/
theorem CalculateMifVertex_above {n : Nat} {h : List Ite} {id : Nat} {a : Ite}
    (ha : h[id]? = some a) (hm : ¬ a.mark = mark) (ho : order < a.order)
    (hmod : a.module = false) :
    CalculateMifVertex gates vp order mark (n + 1) h (.ite id)
      = some (0, setFactor (setMark h id mark) id 0) := by
  rw [CalculateMifVertex]
  simp only [ha, hm, if_false, gt_iff_lt, ho, if_true, hmod]

/-- Branch `ite->order() > order`, a module: the stored factor is
`(high - low) * mif`, with `mif` the factor of the module's function, negated
if the function is complemented. -/
theorem CalculateMifVertex_above_module {n : Nat} {h h2 : List Ite} {id : Nat} {a : Ite}
    {diff mif : ℚ} {res : Bdd.Function}
    (ha : h[id]? = some a) (hm : ¬ a.mark = mark) (ho : order < a.order)
    (hmod : a.module = true) (hd : edgeDifference (setMark h id mark) a = some diff)
    (hg : gates.lookup a.index = some res)
    (hr : CalculateMifVertex gates vp order mark n (setMark h id mark) res.vertex
      = some (mif, h2)) :
    CalculateMifVertex gates vp order mark (n + 1) h (.ite id)
      = some (diff * (if res.complement then -mif else mif),
          setFactor h2 id (diff * (if res.complement then -mif else mif))) := by
  rw [CalculateMifVertex]
  simp only [ha, hm, if_false, gt_iff_lt, ho, if_true, hmod, Bool.true_eq_false, hd, hg, hr]

/-- Branch `ite->order() == order`: the factor is `high - low`. -/
theorem CalculateMifVertex_at {n : Nat} {h : List Ite} {id : Nat} {a : Ite} {diff : ℚ}
    (ha : h[id]? = some a) (hm : ¬ a.mark = mark) (ho : a.order = order)
    (hmod : a.module = false) (hd : edgeDifference (setMark h id mark) a = some diff) :
    CalculateMifVertex gates vp order mark (n + 1) h (.ite id)
      = some (diff, setFactor (setMark h id mark) id diff) := by
  rw [CalculateMifVertex]
  simp only [ha, hm, if_false, gt_iff_lt, ho, lt_irrefl, if_true, hmod, Bool.false_eq_true, hd]

/-- Branch `ite->order() < order`: the factor is
`var_prob * high + (1 - var_prob) * low` over the factors of the children, with
`low` negated on a complement edge. -/
theorem CalculateMifVertex_below {n : Nat} {h h2 h3 : List Ite} {id : Nat} {a : Ite}
    {pv hi lo : ℚ}
    (ha : h[id]? = some a) (hm : ¬ a.mark = mark) (ho : a.order < order)
    (hp : pivotProbability gates vp (setMark h id mark) a = some pv)
    (hhi : CalculateMifVertex gates vp order mark n (setMark h id mark) a.high = some (hi, h2))
    (hlo : CalculateMifVertex gates vp order mark n h2 a.low = some (lo, h3)) :
    CalculateMifVertex gates vp order mark (n + 1) h (.ite id)
      = some (pv * hi + (1 - pv) * (if a.complement_edge then -lo else lo),
          setFactor h3 id (pv * hi + (1 - pv) * (if a.complement_edge then -lo else lo))) := by
  rw [CalculateMifVertex]
  have h1 : ¬ order < a.order := not_lt.mpr (le_of_lt ho)
  have h2 : ¬ a.order = order := ne_of_lt ho
  simp only [ha, hm, if_false, gt_iff_lt, h1, h2, hp, hhi, hlo]

end Steps

/-! ## The memoised traversal computes the unmemoised factor -/

section Refinement

open ImportanceAnalyzerBdd

variable (gates : List (Int × Bdd.Function)) (vp : VarProbs) (order : Int) (mark : Bool)
  (vs0 : List Ite) (lvl : Nat → Int)

/-- Marking vertex `id` keeps the invariant strictly above the level of `id`. -/
theorem MemoInv_setMark {k : Int} {h : List Ite} {id : Nat} (hk : k ≤ lvl id)
    (hinv : MemoInv gates vp order mark vs0 lvl k h) :
    MemoInv gates vp order mark vs0 lvl (lvl id + 1) (setMark h id mark) := by
  intro id' a' hget hlv hmk
  have hne : id' ≠ id := by
    rintro rfl
    omega
  rw [getElem?_setMark, if_neg hne] at hget
  exact hinv id' a' hget (by omega) hmk

/-- Storing the factor of vertex `id` after its children are done restores the
invariant from the level `k` of the call. -/
theorem MemoInv_setFactor {k : Int} {h hX : List Ite} {id : Nat} {d : ℚ} (hk : k ≤ lvl id)
    (hinv : MemoInv gates vp order mark vs0 lvl k h) (hsX : SameShape hX vs0)
    (hinvX : MemoInv gates vp order mark vs0 lvl (lvl id + 1) hX)
    (hfrX : ∀ id', lvl id' < lvl id + 1 → hX[id']? = (setMark h id mark)[id']?)
    (hcorr : MifCorrect gates vp order vs0 id d) :
    SameShape (setFactor hX id d) vs0
      ∧ MemoInv gates vp order mark vs0 lvl k (setFactor hX id d)
      ∧ ∀ id', lvl id' < k → (setFactor hX id d)[id']? = h[id']? := by
  refine ⟨sameShape_trans (SameShape_setFactor hX id d) hsX, ?_, ?_⟩
  · intro id' a' hget hlv hmk
    rw [getElem?_setFactor] at hget
    by_cases hne : id' = id
    · subst hne
      rw [if_pos rfl] at hget
      obtain ⟨x, -, rfl⟩ := Option.map_eq_some'.mp hget
      exact hcorr
    · rw [if_neg hne] at hget
      by_cases hl : lvl id' < lvl id + 1
      · rw [hfrX id' hl, getElem?_setMark, if_neg hne] at hget
        exact hinv id' a' hget hlv hmk
      · exact hinvX id' a' hget (by omega) hmk
  · intro id' hl
    have hne : id' ≠ id := by
      rintro rfl
      omega
    rw [getElem?_setFactor, if_neg hne, hfrX id' (by omega), getElem?_setMark, if_neg hne]

/-- Refinement: whenever the unmemoised recursion yields the factor `d` of `v`
with fuel `n`, the mark-flipping traversal started on a store that satisfies
the memoisation invariant returns `d` with the same fuel, writes only `mark`
and `factor` fields, keeps the invariant, and leaves every vertex below the
level of the call untouched. -/
theorem CalculateMifVertex_refines (hlvl : LevelIncreasing gates vs0 lvl) :
    ∀ (n : Nat) (h : List Ite) (v : VertexPtr) (d : ℚ) (k : Int),
      SameShape h vs0 → MifUnmemoised gates vp order vs0 n v = some d →
      (∀ id, v = .ite id → k ≤ lvl id) → MemoInv gates vp order mark vs0 lvl k h →
      ∃ h', CalculateMifVertex gates vp order mark n h v = some (d, h') ∧ SameShape h' vs0
        ∧ MemoInv gates vp order mark vs0 lvl k h'
        ∧ ∀ id, lvl id < k → h'[id]? = h[id]? := by
  intro n
  induction n with
  | zero =>
    intro h v d k _ hu
    simp [MifUnmemoised] at hu
  | succ n ih =>
    intro h v d k hs hu hkv hinv
    cases v with
    | terminal b =>
      simp only [MifUnmemoised, Option.some.injEq] at hu
      subst hu
      exact ⟨h, CalculateMifVertex_terminal gates vp order mark n h b, hs, hinv, fun _ _ => rfl⟩
    | ite id =>
      have hk := hkv id rfl
      obtain ⟨a0, ha0, hb⟩ := MifUnmemoised_ite_some.mp hu
      obtain ⟨a, ha, haa0⟩ := sameShape_get (sameShape_symm hs) ha0
      obtain ⟨hidx, hord, hhi, hlo, hce, hmod, -⟩ := shape_fields haa0
      by_cases hm : a.mark = mark
      · refine ⟨h, ?_, hs, hinv, fun _ _ => rfl⟩
        rw [CalculateMifVertex_marked gates vp order mark ha hm,
          hinv id a ha hk hm (n + 1) d hu]
      · have hcorr : MifCorrect gates vp order vs0 id d :=
          fun m d' hm' => MifUnmemoised_unique gates vp order vs0 hu hm'
        have hs1 : SameShape (setMark h id mark) vs0 := sameShape_trans (SameShape_setMark h id mark) hs
        have hinv1 := MemoInv_setMark gates vp order mark vs0 lvl hk hinv
        rcases hb with ⟨ho, hmd, rfl⟩ | ⟨ho, hmd, diff, res, mif, hd, hg, hr, rfl⟩
          | ⟨ho, hmd, hd⟩ | ⟨ho, pv, hi, lo, hp, hhi', hlo', rfl⟩
        · obtain ⟨f1, f2, f3⟩ := MemoInv_setFactor gates vp order mark vs0 lvl hk hinv hs1 hinv1
            (fun _ _ => rfl) hcorr
          exact ⟨_, CalculateMifVertex_above gates vp order mark ha hm (hord ▸ ho) (hmod ▸ hmd),
            f1, f2, f3⟩
        · have hd1 : edgeDifference (setMark h id mark) a = some diff := by
            rw [← edgeDifference_congr (sameShape_symm hs1) haa0]
            exact hd
          obtain ⟨h2, hc2, hs2, hinv2, hfr2⟩ := ih (setMark h id mark) res.vertex mif
            (lvl id + 1) hs1 hr (fun c hc => (hlvl id a0 ha0).2.2 hmd res c hg hc) hinv1
          obtain ⟨f1, f2, f3⟩ := MemoInv_setFactor gates vp order mark vs0 lvl hk hinv hs2 hinv2
            hfr2 hcorr
          exact ⟨_, CalculateMifVertex_above_module gates vp order mark ha hm (hord ▸ ho)
            (hmod ▸ hmd) hd1 (hidx ▸ hg) hc2, f1, f2, f3⟩
        · have hd1 : edgeDifference (setMark h id mark) a = some d := by
            rw [← edgeDifference_congr (sameShape_symm hs1) haa0]
            exact hd
          obtain ⟨f1, f2, f3⟩ := MemoInv_setFactor gates vp order mark vs0 lvl hk hinv hs1 hinv1
            (fun _ _ => rfl) hcorr
          exact ⟨_, CalculateMifVertex_at gates vp order mark ha hm (hord ▸ ho) (hmod ▸ hmd) hd1,
            f1, f2, f3⟩
        · have hp1 : pivotProbability gates vp (setMark h id mark) a = some pv := by
            rw [← pivotProbability_congr gates vp (sameShape_symm hs1) haa0]
            exact hp
          obtain ⟨h2, hc2, hs2, hinv2, hfr2⟩ := ih (setMark h id mark) a0.high hi
            (lvl id + 1) hs1 hhi' (fun c hc => (hlvl id a0 ha0).1 c hc) hinv1
          obtain ⟨h3, hc3, hs3, hinv3, hfr3⟩ := ih h2 a0.low lo
            (lvl id + 1) hs2 hlo' (fun c hc => (hlvl id a0 ha0).2.1 c hc) hinv2
          obtain ⟨f1, f2, f3⟩ := MemoInv_setFactor gates vp order mark vs0 lvl hk hinv hs3 hinv3
            (fun id' hl => (hfr3 id' hl).trans (hfr2 id' hl)) hcorr
          rw [hhi] at hc2
          rw [hlo] at hc3
          have hstep := CalculateMifVertex_below gates vp order mark ha hm (hord ▸ ho) hp1 hc2 hc3
          rw [← hce] at hstep
          exact ⟨_, hstep, f1, f2, f3⟩

end Refinement

/-! ## Module-free BDDs: the factor is the Birnbaum difference -/

/-- Reading a slot other than the one written. -/
theorem vecGet_set_ne {vp : VarProbs} {i j : Int} (hi : 0 ≤ i) (hj : 0 ≤ j) (hne : j ≠ i)
    (x : ℚ) : vecGet (vp.set i.toNat x) j = vecGet vp j := by
  have : i.toNat ≠ j.toNat := by
    intro h
    apply hne
    rw [← Int.toNat_of_nonneg hi, ← Int.toNat_of_nonneg hj, h]
  simp only [vecGet, hj, if_true, List.getElem?_set_ne this]

/-- Reading the slot just written. -/
theorem vecGet_set_self {vp : VarProbs} {i : Int} (hi : 0 ≤ i) (hlt : i.toNat < vp.length)
    (x : ℚ) : vecGet (vp.set i.toNat x) i = some x := by
  simp only [vecGet, hi, if_true, List.getElem?_set_self hlt]

/-- A successful lookup returns a pair of the association list. -/
theorem mem_of_lookup_eq_some {l : List (Int × Int)} {k b : Int}
    (h : l.lookup k = some b) : (k, b) ∈ l := by
  obtain ⟨l₁, l₂, rfl, -⟩ := List.lookup_eq_some_iff.mp h
  simp

/-- In a well-formed BDD the order of a variable vertex identifies its index. -/
theorem index_eq_iff_order_eq {bdd : Bdd} {vp : VarProbs} (hwf : WellFormedBdd bdd vp)
    {a : Ite} (ha : a ∈ bdd.vertices) (hmod : a.module = false) {i o : Int}
    (hio : bdd.index_to_order.lookup i = some o) : a.index = i ↔ a.order = o := by
  have hao := hwf.order_of_index a ha hmod
  constructor
  · intro h
    rw [h, hio] at hao
    exact (Option.some.inj hao).symm
  · intro h
    rw [h] at hao
    have h1 := mem_of_lookup_eq_some hao
    have h2 := mem_of_lookup_eq_some hio
    have := List.inj_on_of_nodup_map hwf.order_injective h1 h2 rfl
    exact congrArg Prod.fst this

section Birnbaum

open ImportanceAnalyzerBdd

variable {bdd : Bdd} {vp : VarProbs} {i o : Int}

/-- Below a vertex whose order exceeds the order of variable `i`, the bottom-up
probability does not depend on slot `i` of the probability vector. -/
theorem CalculateProbability_above (hwf : WellFormedBdd bdd vp) (hmf : ModuleFree bdd)
    (hi : 0 ≤ i) (hio : bdd.index_to_order.lookup i = some o) (x : ℚ) :
    ∀ (n : Nat) (v : VertexPtr) (p : ℚ),
      CalculateProbability bdd.gates vp bdd.vertices n v = some p →
      (∀ id a, v = .ite id → bdd.vertices[id]? = some a → o < a.order) →
      CalculateProbability bdd.gates (vp.set i.toNat x) bdd.vertices n v = some p := by
  intro n
  induction n with
  | zero => intro v p h; simp [CalculateProbability] at h
  | succ n ih =>
    intro v p h hab
    match v with
    | .terminal true => simpa [CalculateProbability] using h
    | .terminal false => simpa [CalculateProbability] using h
    | .ite id =>
      obtain ⟨a, pv, ph, pl, hv, hpv, hh, hl, hp⟩ := CalculateProbability_ite_some.mp h
      have hmem : a ∈ bdd.vertices := List.getElem?_mem hv
      have hmod := hmf a hmem
      have hoa := hab id a rfl hv
      rcases hpv with ⟨hm, -⟩ | ⟨-, hpv⟩
      · rw [hmod] at hm
        exact absurd hm (by decide)
      · have hne : a.index ≠ i := fun e =>
          absurd ((index_eq_iff_order_eq hwf hmem hmod hio).mp e) (ne_of_gt hoa)
        have hchild : ∀ c, (a.high = .ite c ∨ a.low = .ite c) →
            ∀ b, bdd.vertices[c]? = some b → o < b.order := by
          intro c hc b hb
          obtain ⟨b', hb', hlt⟩ := hwf.order_increasing a hmem c hc
          rw [hb] at hb'
          rw [Option.some.inj hb']
          exact lt_trans hoa hlt
        refine CalculateProbability_ite_some.mpr ⟨a, pv, ph, pl, hv, Or.inr ⟨hmod, ?_⟩,
          ih _ _ hh (fun c b hc hb => hchild c (Or.inl hc) b hb),
          ih _ _ hl (fun c b hc hb => hchild c (Or.inr hc) b hb), hp⟩
        rw [vecGet_set_ne hi (hwf.index_in_range a hmem hmod).1 hne]
        exact hpv

/-- The probability retrieved for a child is its bottom-up probability. -/
theorem RetrieveProbability_eq (htt : TerminalsTrue bdd) (hpa : ProbAnnotated bdd vp)
    {a : Ite} (ha : a ∈ bdd.vertices) {v : VertexPtr} (hv : a.high = v ∨ a.low = v)
    {n : Nat} {p : ℚ} (hp : CalculateProbability bdd.gates vp bdd.vertices n v = some p) :
    RetrieveProbability bdd.vertices v = some p := by
  cases v with
  | terminal b =>
    have hb : b = true := htt a ha b hv
    subst hb
    cases n with
    | zero => simp [CalculateProbability] at hp
    | succ n =>
      simp only [CalculateProbability, Option.some.injEq] at hp
      rw [← hp]
      rfl
  | ite c =>
    cases n with
    | zero => simp [CalculateProbability] at hp
    | succ n =>
      obtain ⟨b, -, -, -, hb, -⟩ := CalculateProbability_ite_some.mp hp
      obtain ⟨m, hm⟩ := hpa c b hb
      simp only [RetrieveProbability, hb, CalculateProbability_unique _ _ _ hm hp]

/-- In a well-formed module-free BDD with `Terminal(true)` leaves and
annotated probabilities, the unmemoised factor of a vertex for variable `i` is
the difference of its bottom-up probabilities with slot `i` set to 1 and to
0. -/
theorem MifUnmemoised_eq_difference (hwf : WellFormedBdd bdd vp) (hmf : ModuleFree bdd)
    (htt : TerminalsTrue bdd) (hpa : ProbAnnotated bdd vp)
    (hi : 0 ≤ i) (hio : bdd.index_to_order.lookup i = some o) :
    ∀ (n : Nat) (v : VertexPtr) (p : ℚ),
      CalculateProbability bdd.gates vp bdd.vertices n v = some p →
      ∃ p1 p0, CalculateProbability bdd.gates (vp.set i.toNat 1) bdd.vertices n v = some p1
        ∧ CalculateProbability bdd.gates (vp.set i.toNat 0) bdd.vertices n v = some p0
        ∧ MifUnmemoised bdd.gates vp o bdd.vertices n v = some (p1 - p0) := by
  intro n
  induction n with
  | zero => intro v p h; simp [CalculateProbability] at h
  | succ n ih =>
    intro v p h
    match v with
    | .terminal true =>
      exact ⟨1, 1, by simp [CalculateProbability], by simp [CalculateProbability],
        by simp [MifUnmemoised]⟩
    | .terminal false =>
      exact ⟨0, 0, by simp [CalculateProbability], by simp [CalculateProbability],
        by simp [MifUnmemoised]⟩
    | .ite id =>
      obtain ⟨a, pv, ph, pl, hv, hpv, hh, hl, hp⟩ := CalculateProbability_ite_some.mp h
      have hmem : a ∈ bdd.vertices := List.getElem?_mem hv
      have hmod := hmf a hmem
      have hrange := hwf.index_in_range a hmem hmod
      have hpv' : vecGet vp a.index = some pv := by
        rcases hpv with ⟨hm, -⟩ | ⟨-, hpv⟩
        · rw [hmod] at hm
          exact absurd hm (by decide)
        · exact hpv
      rcases lt_trichotomy a.order o with hlt | heq | hgt
      · have hne : a.index ≠ i := fun e =>
          absurd ((index_eq_iff_order_eq hwf hmem hmod hio).mp e) (ne_of_lt hlt)
        obtain ⟨h1, h0, hh1, hh0, hhm⟩ := ih _ _ hh
        obtain ⟨l1, l0, hl1, hl0, hlm⟩ := ih _ _ hl
        refine ⟨_, _,
          CalculateProbability_ite_some.mpr ⟨a, pv, h1, l1, hv, Or.inr ⟨hmod, ?_⟩, hh1, hl1, rfl⟩,
          CalculateProbability_ite_some.mpr ⟨a, pv, h0, l0, hv, Or.inr ⟨hmod, ?_⟩, hh0, hl0, rfl⟩,
          MifUnmemoised_ite_some.mpr ⟨a, hv, Or.inr (Or.inr (Or.inr
            ⟨hlt, pv, h1 - h0, l1 - l0, ?_, hhm, hlm, ?_⟩))⟩⟩
        · rw [vecGet_set_ne hi hrange.1 hne]
          exact hpv'
        · rw [vecGet_set_ne hi hrange.1 hne]
          exact hpv'
        · simp only [pivotProbability, hmod, Bool.false_eq_true, if_false]
          exact hpv'
        · cases a.complement_edge <;> simp <;> ring
      · have hidx : a.index = i := (index_eq_iff_order_eq hwf hmem hmod hio).mpr heq
        have hchild : ∀ c, (a.high = .ite c ∨ a.low = .ite c) →
            ∀ b, bdd.vertices[c]? = some b → o < b.order := by
          intro c hc b hb
          obtain ⟨b', hb', hlt⟩ := hwf.order_increasing a hmem c hc
          rw [hb] at hb'
          rw [Option.some.inj hb', ← heq]
          exact hlt
        have hh' := fun x => CalculateProbability_above hwf hmf hi hio x n a.high ph hh
          (fun c b hc hb => hchild c (Or.inl hc) b hb)
        have hl' := fun x => CalculateProbability_above hwf hmf hi hio x n a.low pl hl
          (fun c b hc hb => hchild c (Or.inr hc) b hb)
        have hself : ∀ x, vecGet (vp.set i.toNat x) a.index = some x := by
          intro x
          rw [hidx]
          exact vecGet_set_self hi (hidx ▸ hrange.2) x
        refine ⟨_, _,
          CalculateProbability_ite_some.mpr
            ⟨a, 1, ph, pl, hv, Or.inr ⟨hmod, hself 1⟩, hh' 1, hl' 1, rfl⟩,
          CalculateProbability_ite_some.mpr
            ⟨a, 0, ph, pl, hv, Or.inr ⟨hmod, hself 0⟩, hh' 0, hl' 0, rfl⟩,
          MifUnmemoised_ite_some.mpr ⟨a, hv, Or.inr (Or.inr (Or.inl ⟨heq, hmod, ?_⟩))⟩⟩
        simp only [edgeDifference, RetrieveProbability_eq htt hpa hmem (Or.inl rfl) hh,
          RetrieveProbability_eq htt hpa hmem (Or.inr rfl) hl, Option.some.injEq]
        ring
      · have habove : ∀ id' a', VertexPtr.ite id = .ite id' → bdd.vertices[id']? = some a' →
            o < a'.order := by
          intro id' a' hid ha'
          injection hid with hid
          subst hid
          rw [hv] at ha'
          rw [← Option.some.inj ha']
          exact hgt
        refine ⟨p, p, CalculateProbability_above hwf hmf hi hio 1 _ _ p h habove,
          CalculateProbability_above hwf hmf hi hio 0 _ _ p h habove,
          MifUnmemoised_ite_some.mpr ⟨a, hv, Or.inl ⟨hgt, hmod, sub_self p⟩⟩⟩

/-- In a well-formed module-free BDD the order is a level function. -/
theorem LevelIncreasing_orderLevel (hwf : WellFormedBdd bdd vp) (hmf : ModuleFree bdd) :
    LevelIncreasing bdd.gates bdd.vertices (orderLevel bdd.vertices) := by
  intro id a ha
  have hmem : a ∈ bdd.vertices := List.getElem?_mem ha
  have hstep : ∀ c, (a.high = .ite c ∨ a.low = .ite c) →
      orderLevel bdd.vertices id < orderLevel bdd.vertices c := by
    intro c hc
    obtain ⟨b, hb, hlt⟩ := hwf.order_increasing a hmem c hc
    simp only [orderLevel, ha, hb]
    exact hlt
  refine ⟨fun c hc => hstep c (Or.inl hc), fun c hc => hstep c (Or.inr hc), ?_⟩
  intro hm
  rw [hmf a hmem] at hm
  exact absurd hm (by decide)

end Birnbaum

/-! ## Claim C1: BDD-mode `CalculateMif` is the Birnbaum factor -/

/-- C1 (amended): for every well-formed module-free BDD with uncomplemented
root function whose terminal children are all `Terminal(true)`, whose `prob`
fields hold the bottom-up probabilities under `var_probs` and whose marks are
uniform on entry, and for every variable index `i`, BDD-mode `CalculateMif(i)`
returns `P(top | x_i = 1) - P(top | x_i = 0)`, the bottom-up probabilities of
the top function with slot `i` of `var_probs` replaced by 1 and by 0. -/
theorem C1_bdd_mif_is_birnbaum (bdd : Bdd) (vp : VarProbs) (i o : Int) (m : Bool)
    (hwf : WellFormedBdd bdd vp) (hmf : ModuleFree bdd)
    (hrc : bdd.root.complement = false) (htt : TerminalsTrue bdd)
    (hpa : ProbAnnotated bdd vp) (hum : UniformMarks bdd m)
    (hi : 0 < i) (hio : bdd.index_to_order.lookup i = some o) :
    ∃ N, ∀ fuel, N ≤ fuel → ∃ p1 p0 bdd',
      TopProbability fuel bdd (vp.set i.toNat 1) = some p1
      ∧ TopProbability fuel bdd (vp.set i.toNat 0) = some p0
      ∧ ImportanceAnalyzerBdd.CalculateMif fuel bdd vp i = some (p1 - p0, bdd') := by
  cases hroot : bdd.root.vertex with
  | terminal b =>
    refine ⟨1, fun fuel hfuel => ?_⟩
    obtain ⟨f, rfl⟩ : ∃ f, fuel = f + 1 := ⟨fuel - 1, by omega⟩
    refine ⟨if b then 1 else 0, if b then 1 else 0, bdd, ?_, ?_, ?_⟩
    · cases b <;> simp [TopProbability, hroot, CalculateProbability, hrc]
    · cases b <;> simp [TopProbability, hroot, CalculateProbability, hrc]
    · simp [ImportanceAnalyzerBdd.CalculateMif, hroot]
  | ite rid =>
    have hlt := hwf.root_in_store rid hroot
    have hr : bdd.vertices[rid]? = some bdd.vertices[rid] := List.getElem?_eq_getElem hlt
    obtain ⟨n, hn⟩ := hpa rid _ hr
    refine ⟨n, fun fuel hfuel => ?_⟩
    have hcp := CalculateProbability_mono bdd.gates vp bdd.vertices hfuel hn
    obtain ⟨p1, p0, h1, h0, hmif⟩ :=
      MifUnmemoised_eq_difference hwf hmf htt hpa (le_of_lt hi) hio fuel _ _ hcp
    have hmark : bdd.vertices[rid].mark = m := hum _ (List.getElem?_mem hr)
    obtain ⟨h', hc, -, -, -⟩ := CalculateMifVertex_refines bdd.gates vp o (!m) bdd.vertices
      (orderLevel bdd.vertices) (LevelIncreasing_orderLevel hwf hmf) fuel bdd.vertices
      (.ite rid) (p1 - p0) (orderLevel bdd.vertices rid) (fun _ => rfl) hmif
      (fun id hid => by
        injection hid with hid
        rw [hid])
      (fun id a ha _ hmk => by
        rw [hum a (List.getElem?_mem ha)] at hmk
        cases m <;> simp at hmk)
    refine ⟨p1, p0, { bdd with vertices := ClearMarks h' m }, ?_, ?_, ?_⟩
    · simp only [TopProbability, hroot, h1, hrc, Bool.false_eq_true, if_false]
    · simp only [TopProbability, hroot, h0, hrc, Bool.false_eq_true, if_false]
    · simp only [ImportanceAnalyzerBdd.CalculateMif, hroot, hr, hio, hmark, hc]

/-- The BDD of `A OR B` is well-formed. -/
theorem orBdd_wellFormed (pA pB : ℚ) (m : Bool) : WellFormedBdd (orBdd pA pB m) [0, pA, pB] where
  root_in_store := by
    intro id h
    simp only [orBdd, VertexPtr.ite.injEq] at h
    subst h
    simp [orBdd]
  order_increasing := by
    intro a ha c hc
    simp only [orBdd, List.mem_cons, List.mem_singleton, List.not_mem_nil, or_false] at ha
    rcases ha with rfl | rfl
    · simp only [VertexPtr.ite.injEq, false_or, reduceCtorEq] at hc
      subst hc
      exact ⟨_, rfl, by simp [orBdd]⟩
    · simp at hc
  order_of_index := by
    intro a ha _
    simp only [orBdd, List.mem_cons, List.mem_singleton, List.not_mem_nil, or_false] at ha
    rcases ha with rfl | rfl <;> rfl
  order_injective := by simp [orBdd]
  index_in_range := by
    intro a ha _
    simp only [orBdd, List.mem_cons, List.mem_singleton, List.not_mem_nil, or_false] at ha
    rcases ha with rfl | rfl <;> simp

/-- The `prob` fields of the BDD of `A OR B` are its bottom-up probabilities. -/
theorem orBdd_probAnnotated (pA pB : ℚ) (m : Bool) :
    ProbAnnotated (orBdd pA pB m) [0, pA, pB] := by
  intro id a ha
  match id with
  | 0 =>
    simp only [orBdd, List.getElem?_cons_zero, Option.some.injEq] at ha
    subst ha
    exact ⟨3, by simp [orBdd, CalculateProbability, vecGet]⟩
  | 1 =>
    simp only [orBdd, List.getElem?_cons_succ, List.getElem?_cons_zero, Option.some.injEq] at ha
    subst ha
    exact ⟨2, by simp [orBdd, CalculateProbability, vecGet]⟩
  | k + 2 => simp [orBdd] at ha

/-- Witness of the amended C1: the BDD of `A OR B` with `p(A) = 1/10` and
`p(B) = 1/5`, variable `A`. -/
theorem C1_bdd_mif_is_birnbaum_witness :
    ∃ N, ∀ fuel, N ≤ fuel → ∃ p1 p0 bdd',
      TopProbability fuel (orBdd (1 / 10) (1 / 5) false)
        (([0, 1 / 10, 1 / 5] : VarProbs).set (1 : Int).toNat 1) = some p1
      ∧ TopProbability fuel (orBdd (1 / 10) (1 / 5) false)
        (([0, 1 / 10, 1 / 5] : VarProbs).set (1 : Int).toNat 0) = some p0
      ∧ ImportanceAnalyzerBdd.CalculateMif fuel (orBdd (1 / 10) (1 / 5) false)
          [0, 1 / 10, 1 / 5] 1 = some (p1 - p0, bdd') :=
  C1_bdd_mif_is_birnbaum (orBdd (1 / 10) (1 / 5) false) [0, 1 / 10, 1 / 5] 1 1 false
    (orBdd_wellFormed _ _ _)
    (by simp [ModuleFree, orBdd])
    rfl
    (by simp [TerminalsTrue, orBdd])
    (orBdd_probAnnotated _ _ _)
    (by simp [UniformMarks, orBdd])
    (by decide)
    rfl

/-- The one-variable BDD `falseLeafBdd` meets every premise of C1: it is
well-formed, module-free, with uncomplemented root, annotated probabilities and
uniform marks. -/
theorem falseLeafBdd_premises :
    WellFormedBdd falseLeafBdd [0, 1 / 2] ∧ ModuleFree falseLeafBdd
      ∧ falseLeafBdd.root.complement = false ∧ ProbAnnotated falseLeafBdd [0, 1 / 2]
      ∧ UniformMarks falseLeafBdd false := by
  refine ⟨⟨?_, ?_, ?_, ?_, ?_⟩, ?_, rfl, ?_, ?_⟩
  · intro id h
    simp only [falseLeafBdd, VertexPtr.ite.injEq] at h
    subst h
    simp [falseLeafBdd]
  · simp [falseLeafBdd]
  · simp [falseLeafBdd, List.lookup]
  · decide
  · simp [falseLeafBdd]
  · simp [ModuleFree, falseLeafBdd]
  · intro id a ha
    match id with
    | 0 =>
      simp only [falseLeafBdd, List.getElem?_cons_zero, Option.some.injEq] at ha
      subst ha
      exact ⟨2, by norm_num [falseLeafBdd, CalculateProbability, vecGet]⟩
    | k + 1 => simp [falseLeafBdd] at ha
  · simp [UniformMarks, falseLeafBdd]

/-- On `falseLeafBdd` the top probability is 1 with `x1 = 1` and 0 with
`x1 = 0`, and `CalculateMif(1)` returns 0, because `RetrieveProbability` is 1
for every terminal. -/
theorem falseLeafBdd_values (fuel : Nat) :
    TopProbability (fuel + 2) falseLeafBdd (([0, 1 / 2] : VarProbs).set (1 : Int).toNat 1)
        = some 1
      ∧ TopProbability (fuel + 2) falseLeafBdd (([0, 1 / 2] : VarProbs).set (1 : Int).toNat 0)
        = some 0
      ∧ (ImportanceAnalyzerBdd.CalculateMif (fuel + 2) falseLeafBdd [0, 1 / 2] 1).map Prod.fst
        = some 0 := by
  refine ⟨?_, ?_, ?_⟩
  · norm_num [TopProbability, falseLeafBdd, CalculateProbability, vecGet]
  · norm_num [TopProbability, falseLeafBdd, CalculateProbability, vecGet]
  · simp [ImportanceAnalyzerBdd.CalculateMif, falseLeafBdd,
      ImportanceAnalyzerBdd.CalculateMifVertex, ImportanceAnalyzerBdd.edgeDifference,
      ImportanceAnalyzerBdd.RetrieveProbability, setMark, setFactor, List.lookup]

/-- C1, as stated, fails on a BDD with a `Terminal(false)` child: the
one-variable BDD `falseLeafBdd` (high child `Terminal(true)`, low child
`Terminal(false)`, no complement edge) is well-formed, module-free, has an
uncomplemented root, annotated probabilities and uniform marks, yet with no
amount of fuel does `CalculateMif(1)` return
`P(top | x1 = 1) - P(top | x1 = 0)`: that difference is `1 - 0` and the code
returns 0. -/
theorem C1_counterexample :
    (WellFormedBdd falseLeafBdd [0, 1 / 2] ∧ ModuleFree falseLeafBdd
      ∧ falseLeafBdd.root.complement = false ∧ ProbAnnotated falseLeafBdd [0, 1 / 2]
      ∧ UniformMarks falseLeafBdd false)
    ∧ falseLeafBdd.index_to_order.lookup 1 = some 1
    ∧ ¬ ∃ N, ∀ fuel, N ≤ fuel → ∃ p1 p0 bdd',
        TopProbability fuel falseLeafBdd (([0, 1 / 2] : VarProbs).set (1 : Int).toNat 1)
          = some p1
        ∧ TopProbability fuel falseLeafBdd (([0, 1 / 2] : VarProbs).set (1 : Int).toNat 0)
          = some p0
        ∧ ImportanceAnalyzerBdd.CalculateMif fuel falseLeafBdd [0, 1 / 2] 1
          = some (p1 - p0, bdd') := by
  refine ⟨falseLeafBdd_premises, rfl, ?_⟩
  rintro ⟨N, hN⟩
  obtain ⟨p1, p0, bdd', h1, h0, hm⟩ := hN (N + 2) (by omega)
  obtain ⟨e1, e0, em⟩ := falseLeafBdd_values N
  rw [e1] at h1
  rw [e0] at h0
  rw [hm] at em
  have hp1 : (1 : ℚ) = p1 := Option.some.inj h1
  have hp0 : (0 : ℚ) = p0 := Option.some.inj h0
  have hd : p1 - p0 = 0 := Option.some.inj em
  rw [← hp1, ← hp0] at hd
  norm_num at hd

/-! ## Claims C9 and C10 -/

/-- C9, evaluated at the BDD of `NOT x1` (root function complemented): the top
probability is 0 with `x1 = 1` and 1 with `x1 = 0`, so the factor is `-1`, the
negated factor of the root vertex; `CalculateMif(1)` returns the factor of the
root vertex, 1, without negating it. -/
theorem C9_root_complement_ignored :
    notBdd.root.complement = true
      ∧ ∀ fuel : Nat,
          TopProbability (fuel + 2) notBdd (([0, 1 / 2] : VarProbs).set (1 : Int).toNat 1)
            = some 0
          ∧ TopProbability (fuel + 2) notBdd (([0, 1 / 2] : VarProbs).set (1 : Int).toNat 0)
            = some 1
          ∧ ImportanceAnalyzerBdd.CalculateMifVertex notBdd.gates [0, 1 / 2] 1 true (fuel + 2)
              notBdd.vertices notBdd.root.vertex
            = some (1, [⟨1, 1, .terminal true, .terminal true, true, false, true, 1 / 2, 1⟩])
          ∧ (ImportanceAnalyzerBdd.CalculateMif (fuel + 2) notBdd [0, 1 / 2] 1).map Prod.fst
            = some 1 := by
  refine ⟨rfl, fun fuel => ⟨?_, ?_, ?_, ?_⟩⟩
  · norm_num [TopProbability, notBdd, CalculateProbability, vecGet]
  · norm_num [TopProbability, notBdd, CalculateProbability, vecGet]
  · simp [notBdd, ImportanceAnalyzerBdd.CalculateMifVertex,
      ImportanceAnalyzerBdd.edgeDifference, ImportanceAnalyzerBdd.RetrieveProbability,
      setMark, setFactor]
  · simp [ImportanceAnalyzerBdd.CalculateMif, notBdd, ImportanceAnalyzerBdd.CalculateMifVertex,
      ImportanceAnalyzerBdd.edgeDifference, ImportanceAnalyzerBdd.RetrieveProbability,
      setMark, setFactor, List.lookup]

/-- C10: on the BDD of `M OR M` with the module `M = A AND B` (root the module
`Ite` of `M`, whose order exceeds those of `A` and `B`), with `prob` fields
annotated bottom-up, the top probability is `p(A) * p(B)` and BDD-mode
`CalculateMif(A)` is `p(B)`, for all `p(A)`, `p(B)` and either uniform mark. -/
theorem C10_module_sharing (pA pB : ℚ) (m : Bool) :
    ProbAnnotated (moduleBdd pA pB m) [0, pA, pB]
      ∧ ∀ fuel : Nat,
          TopProbability (fuel + 4) (moduleBdd pA pB m) [0, pA, pB] = some (pA * pB)
          ∧ (ImportanceAnalyzerBdd.CalculateMif (fuel + 2) (moduleBdd pA pB m) [0, pA, pB]
              1).map Prod.fst = some pB := by
  refine ⟨?_, fun fuel => ⟨?_, ?_⟩⟩
  · intro id a ha
    match id with
    | 0 =>
      simp only [moduleBdd, List.getElem?_cons_zero, Option.some.injEq] at ha
      subst ha
      exact ⟨4, by simp [moduleBdd, CalculateProbability, vecGet, List.lookup]⟩
    | 1 =>
      simp only [moduleBdd, List.getElem?_cons_succ, List.getElem?_cons_zero,
        Option.some.injEq] at ha
      subst ha
      exact ⟨3, by simp [moduleBdd, CalculateProbability, vecGet, List.lookup]⟩
    | 2 =>
      simp only [moduleBdd, List.getElem?_cons_succ, List.getElem?_cons_zero,
        Option.some.injEq] at ha
      subst ha
      exact ⟨2, by simp [moduleBdd, CalculateProbability, vecGet, List.lookup]⟩
    | k + 3 => simp [moduleBdd] at ha
  · simp [TopProbability, moduleBdd, CalculateProbability, vecGet, List.lookup]
  · simp [ImportanceAnalyzerBdd.CalculateMif, moduleBdd,
      ImportanceAnalyzerBdd.CalculateMifVertex, ImportanceAnalyzerBdd.edgeDifference,
      ImportanceAnalyzerBdd.RetrieveProbability, setMark, setFactor, List.lookup]

/-! ## Claim C11: the two-event OR -/

/-- C11: on the BDD of `A OR B` (root `Ite` of `A` with high child
`Terminal(true)` and low child the `Ite` of `B`, whose low child is the
complemented terminal), with `prob` fields annotated bottom-up, BDD-mode
`CalculateMif(A)` returns `1 - p(B)` for all `p(A)`, `p(B)`; with `p(A) = 0.1`
and `p(B) = 0.2` it returns `0.8`. -/
theorem C11_two_event_or (pA pB : ℚ) (m : Bool) (fuel : Nat) :
    ProbAnnotated (orBdd pA pB m) [0, pA, pB]
      ∧ (ImportanceAnalyzerBdd.CalculateMif (fuel + 1) (orBdd pA pB m) [0, pA, pB] 1).map
          Prod.fst = some (1 - pB)
      ∧ (ImportanceAnalyzerBdd.CalculateMif (fuel + 1) (orBdd (1 / 10) (1 / 5) m)
          [0, 1 / 10, 1 / 5] 1).map Prod.fst = some (4 / 5) := by
  have hmif : ∀ a b : ℚ,
      (ImportanceAnalyzerBdd.CalculateMif (fuel + 1) (orBdd a b m) [0, a, b] 1).map Prod.fst
        = some (1 - b) := by
    intro a b
    simp [ImportanceAnalyzerBdd.CalculateMif, orBdd, ImportanceAnalyzerBdd.CalculateMifVertex,
      ImportanceAnalyzerBdd.edgeDifference, ImportanceAnalyzerBdd.RetrieveProbability,
      setMark, setFactor, List.lookup]
  refine ⟨orBdd_probAnnotated pA pB m, hmif pA pB, ?_⟩
  rw [hmif]
  norm_num

/-! ## Claim C20: `RetrieveProbability` -/

/-- C20, as stated, fails on `Terminal(false)`: `RetrieveProbability` returns 1
where the terminal rule of the probability calculator gives 0. -/
theorem C20_counterexample :
    ImportanceAnalyzerBdd.RetrieveProbability [] (.terminal false) = some 1
      ∧ CalculateProbability [] [] [] 1 (.terminal false) = some 0
      ∧ (some (1 : ℚ)) ≠ some 0 := by
  refine ⟨rfl, rfl, ?_⟩
  simp

/-- C20 (amended): `RetrieveProbability` returns 1 for every terminal, whatever
its value, which is the terminal rule of the probability calculator for
`Terminal(true)`; for an `Ite` it returns the vertex's memoised `prob`
field. -/
theorem C20_retrieve_probability (gates : List (Int × Bdd.Function)) (vp : VarProbs)
    (vs : List Ite) (fuel id : Nat) (a : Ite) (ha : vs[id]? = some a) :
    (∀ b, ImportanceAnalyzerBdd.RetrieveProbability vs (.terminal b) = some 1)
      ∧ ImportanceAnalyzerBdd.RetrieveProbability vs (.terminal true)
          = CalculateProbability gates vp vs (fuel + 1) (.terminal true)
      ∧ ImportanceAnalyzerBdd.RetrieveProbability vs (.ite id) = some a.prob := by
  refine ⟨fun b => rfl, rfl, ?_⟩
  simp only [ImportanceAnalyzerBdd.RetrieveProbability, ha]

/-- Witness of the amended C20 on the store of the BDD of `NOT x1`. -/
theorem C20_retrieve_probability_witness :
    (∀ b, ImportanceAnalyzerBdd.RetrieveProbability notBdd.vertices (.terminal b) = some 1)
      ∧ ImportanceAnalyzerBdd.RetrieveProbability notBdd.vertices (.terminal true)
          = CalculateProbability notBdd.gates [0, 1 / 2] notBdd.vertices (0 + 1)
              (.terminal true)
      ∧ ImportanceAnalyzerBdd.RetrieveProbability notBdd.vertices (.ite 0)
          = some (⟨1, 1, .terminal true, .terminal true, true, false, false, 1 / 2, 0⟩ :
              Ite).prob :=
  C20_retrieve_probability notBdd.gates [0, 1 / 2] notBdd.vertices 0 0 _ rfl

/-! ## Claim C15: draws are clamped before they are stored -/

/-- The adjustment of a draw into the range is `min 1 (max 0 d)`. -/
theorem clamp_eq_min_max (d : ℚ) :
    (if d < 0 then 0 else if d > 1 then 1 else d) = min 1 (max 0 d) := by
  split_ifs with h0 h1
  · rw [max_eq_left (le_of_lt h0), min_eq_right zero_le_one]
  · rw [max_eq_right (le_of_lt (lt_trans zero_lt_one h1)), min_eq_left (le_of_lt h1)]
  · rw [max_eq_right (not_lt.mp h0), min_eq_right (not_lt.mp h1)]

/-- A write that succeeds was at a valid subscript. -/
theorem vecSet_some_iff {v w : VarProbs} {i : Int} {x : ℚ} (h : vecSet v i x = some w) :
    0 ≤ i ∧ i.toNat < v.length ∧ w = v.set i.toNat x := by
  unfold vecSet at h
  split_ifs at h with hv
  exact ⟨hv.1, hv.2, (Option.some.inj h).symm⟩

/-- Whenever the sampling loop succeeds, it keeps the length of the vector and
leaves every slot that belongs to no uncertain event untouched. -/
theorem sampleEvents_frame {σ : Type} (ue : List (Int × BasicEvent σ)) :
    ∀ (vp : VarProbs) (st : σ) (vp' : VarProbs) (st' : σ),
      sampleEvents ue vp st = some (vp', st') →
      vp'.length = vp.length ∧ ValidEvents ue vp.length
        ∧ ∀ j : Nat, (∀ e ∈ ue, e.1.toNat ≠ j) → vp'[j]? = vp[j]? := by
  induction ue with
  | nil =>
    intro vp st vp' st' h
    simp only [sampleEvents, Option.some.injEq, Prod.mk.injEq] at h
    rw [← h.1]
    exact ⟨rfl, fun e he => absurd he (List.not_mem_nil e), fun _ _ => rfl⟩
  | cons e es ih =>
    intro vp st vp' st' h
    rw [sampleEvents] at h
    cases hw : vecSet vp e.1 (if (e.2.SampleProbability st).1 < 0 then 0
        else if (e.2.SampleProbability st).1 > 1 then 1 else (e.2.SampleProbability st).1) with
    | none => simp [hw] at h
    | some w =>
      simp only [hw] at h
      obtain ⟨h0, hlt, rfl⟩ := vecSet_some_iff hw
      obtain ⟨hlen, hval, hframe⟩ := ih _ _ _ _ h
      refine ⟨by simpa using hlen, ?_, fun j hj => ?_⟩
      · intro e' he'
        rcases List.mem_cons.mp he' with rfl | he'
        · exact ⟨h0, hlt⟩
        · simpa using hval e' he'
      · rw [hframe j (fun e' he' => hj e' (List.mem_cons_of_mem _ he'))]
        exact List.getElem?_set_ne (hj e (List.mem_cons_self _ _))

/-- After the sampling loop, the slot of every uncertain event holds the value
drawn for it, adjusted into the range. -/
theorem sampleEvents_values {σ : Type} (ue : List (Int × BasicEvent σ)) :
    ∀ (vp : VarProbs) (st : σ) (vp' : VarProbs) (st' : σ), (ue.map Prod.fst).Nodup →
      sampleEvents ue vp st = some (vp', st') →
      ∀ p ∈ List.zip ue (drawnValues ue st), vecGet vp' p.1.1 = some (min 1 (max 0 p.2)) := by
  induction ue with
  | nil =>
    intro vp st vp' st' _ _ p hp
    simp [drawnValues] at hp
  | cons e es ih =>
    intro vp st vp' st' hnd h p hp
    rw [sampleEvents] at h
    cases hw : vecSet vp e.1 (if (e.2.SampleProbability st).1 < 0 then 0
        else if (e.2.SampleProbability st).1 > 1 then 1 else (e.2.SampleProbability st).1) with
    | none => simp [hw] at h
    | some w =>
      simp only [hw] at h
      obtain ⟨h0, hlt, rfl⟩ := vecSet_some_iff hw
      rw [List.map_cons, List.nodup_cons] at hnd
      simp only [drawnValues, List.zip_cons_cons, List.mem_cons] at hp
      rcases hp with rfl | hp
      · obtain ⟨-, hval, hframe⟩ := sampleEvents_frame es _ _ _ _ h
        have hnot : ∀ e' ∈ es, e'.1.toNat ≠ e.1.toNat := by
          intro e' he' heq
          have h0' := (hval e' he').1
          apply hnd.1
          have : e'.1 = e.1 := by
            rw [← Int.toNat_of_nonneg h0, ← Int.toNat_of_nonneg h0', heq]
          rw [← this]
          exact List.mem_map_of_mem Prod.fst he'
        simp only [vecGet, h0, if_true]
        rw [hframe e.1.toNat hnot, List.getElem?_set_self hlt, clamp_eq_min_max]
      · exact ih _ _ _ _ hnd.2 h p hp

/-- The probability vector with which the calculator is invoked in a trial is
the result of one pass of the sampling loop. -/
theorem trialInput_is_sampled {σ : Type} (ue : List (Int × BasicEvent σ)) :
    ∀ (k : Nat) (vp : VarProbs) (st : σ) (vpk : VarProbs) (stk : σ),
      trialInput ue k vp st = some (vpk, stk) →
      ∃ vp0 s0, sampleEvents ue vp0 s0 = some (vpk, stk) := by
  intro k
  induction k with
  | zero =>
    intro vp st vpk stk h
    exact ⟨vp, resetEvents ue st, h⟩
  | succ k ih =>
    intro vp st vpk stk h
    rw [trialInput] at h
    cases hs : sampleEvents ue vp (resetEvents ue st) with
    | none => simp [hs] at h
    | some r =>
      obtain ⟨vp1, st1⟩ := r
      simp only [hs] at h
      exact ih vp1 st1 vpk stk h

/-- C15: in every trial of `Sample`, each value drawn for an uncertain event is
clamped into `[0,1]` before it is stored: whenever the calculator is invoked
(on the vector `trialInput` of the trial), the slot of every uncertain event
holds `min 1 (max 0 draw)` for the value drawn for it in that trial, which lies
in `[0,1]`. Uncertain events carry distinct indices. -/
theorem C15_draws_clamped {σ : Type} (ue : List (Int × BasicEvent σ))
    (hnd : (ue.map Prod.fst).Nodup) (k : Nat) (vp : VarProbs) (st : σ)
    (vpk : VarProbs) (stk : σ)
    (h : UncertaintyAnalyzer.trialInput ue k vp st = some (vpk, stk)) :
    ∃ vp0 s0, UncertaintyAnalyzer.sampleEvents ue vp0 s0 = some (vpk, stk)
      ∧ ∀ p ∈ List.zip ue (drawnValues ue s0),
          vecGet vpk p.1.1 = some (min 1 (max 0 p.2))
          ∧ 0 ≤ min 1 (max 0 p.2) ∧ min 1 (max 0 p.2) ≤ 1 := by
  obtain ⟨vp0, s0, hs⟩ := trialInput_is_sampled ue k vp st vpk stk h
  refine ⟨vp0, s0, hs, fun p hp => ⟨sampleEvents_values ue vp0 s0 vpk stk hnd hs p hp, ?_, ?_⟩⟩
  · exact le_min zero_le_one (le_max_left 0 p.2)
  · exact min_le_left 1 _

/-- Witness of C15: the third trial of one uncertain event whose draws are
`-1/4, 0, 1/4, ...`. -/
theorem C15_draws_clamped_witness :
    ∃ vp0 s0, UncertaintyAnalyzer.sampleEvents [((1 : Int), rampEvent)] vp0 s0
        = some ([0, 1 / 4], 3)
      ∧ ∀ p ∈ List.zip [((1 : Int), rampEvent)] (drawnValues [((1 : Int), rampEvent)] s0),
          vecGet [0, 1 / 4] p.1.1 = some (min 1 (max 0 p.2))
          ∧ 0 ≤ min 1 (max 0 p.2) ∧ min 1 (max 0 p.2) ≤ 1 :=
  C15_draws_clamped [((1 : Int), rampEvent)] (by simp) 2 [0, 1 / 2] 0 [0, 1 / 4] 3
    (by norm_num [UncertaintyAnalyzer.trialInput, UncertaintyAnalyzer.sampleEvents,
      UncertaintyAnalyzer.resetEvents, vecSet, rampEvent])

/-! ## Claims C12 to C14: configuration -/

/-- The strings for which `GetBoolFromString` reaches a `return` statement, with
the value returned there. -/
theorem GetBoolFromString_value (flag : String) (b : Bool) :
    Config.GetBoolFromString flag = .value b ↔
      (b = true ∧ (flag = "1" ∨ flag = "true")) ∨ (b = false ∧ (flag = "0" ∨ flag = "false")) := by
  unfold Config.GetBoolFromString
  by_cases h1 : flag = "1" ∨ flag = "true"
  · have h0 : ¬ (flag = "0" ∨ flag = "false") := by
      rcases h1 with rfl | rfl <;> decide
    simp only [h1, if_true, Outcome.value.injEq, h0, and_false, or_false, and_true]
    exact eq_comm
  · by_cases h0 : flag = "0" ∨ flag = "false"
    · simp only [h1, if_false, h0, if_true, Outcome.value.injEq, and_false, false_or, and_true]
      exact eq_comm
    · simp [h1, h0]

/-- No call of `GetBoolFromString` throws. -/
theorem GetBoolFromString_never_throws (flag : String) (e : Error) :
    Config.GetBoolFromString flag ≠ .thrown e := by
  unfold Config.GetBoolFromString
  split_ifs <;> simp

/-- C12, evaluated on the string `"yes"`: `GetBoolFromString` neither returns a
boolean nor throws (control leaves the function without a `return`), and
`SetAnalysis` on an option with that value does the same; no call of
`GetBoolFromString` throws at all. -/
theorem C12_no_validation_error :
    Config.GetBoolFromString "yes" = .undefined
      ∧ (∀ s, Config.SetAnalysis (.mk "analysis" [("probability", "yes")] none []) s
          = .undefined)
      ∧ ∀ flag e, Config.GetBoolFromString flag ≠ .thrown e := by
  refine ⟨by decide, fun s => ?_, GetBoolFromString_never_throws⟩
  have h : Config.GetBoolFromString "yes" = .undefined := by decide
  simp only [Config.SetAnalysis, Element.get_attributes, Config.setAnalysisLoop, h]

/-- Storing a flag under one of the four names sets the flag of that name. -/
theorem flag_storeFlag_self (s : Settings) (name : String) (b : Bool)
    (h : name ∈ ["probability", "importance", "uncertainty", "ccf"]) :
    (Config.storeFlag s name b).flag name = some b := by
  simp only [List.mem_cons, List.mem_singleton, List.not_mem_nil, or_false] at h
  rcases h with rfl | rfl | rfl | rfl <;> simp [Config.storeFlag, Settings.flag]

/-- Storing a flag leaves the flags of all other names alone. -/
theorem flag_storeFlag_ne (s : Settings) (name other : String) (b : Bool) (h : other ≠ name) :
    (Config.storeFlag s name b).flag other = s.flag other := by
  unfold Config.storeFlag
  split_ifs with h1 h2 h3 h4
  · subst h1
    simp [Settings.flag, h]
  · subst h2
    simp [Settings.flag, h]
  · subst h3
    simp [Settings.flag, h]
  · subst h4
    simp [Settings.flag, h]
  · rfl

/-- Storing a flag leaves the approximation and the limits alone. -/
theorem approxAndLimits_storeFlag (s : Settings) (name : String) (b : Bool) :
    (Config.storeFlag s name b).approxAndLimits = s.approxAndLimits := by
  unfold Config.storeFlag
  split_ifs <;> rfl

/-- The loop of `SetAnalysis` over attributes with distinct names and valid
values: it returns settings in which every named flag holds the value of its
attribute, every other flag and every other option is as before. -/
theorem setAnalysisLoop_spec :
    ∀ (attrs : List (String × String)) (s : Settings), (attrs.map Prod.fst).Nodup →
      (∀ p ∈ attrs, p.2 ∈ ["1", "true", "0", "false"]) →
      ∃ s', Config.setAnalysisLoop attrs s = .value s'
        ∧ (∀ p ∈ attrs, p.1 ∈ ["probability", "importance", "uncertainty", "ccf"] →
            ∀ b, Config.GetBoolFromString p.2 = .value b → s'.flag p.1 = some b)
        ∧ (∀ name, name ∉ attrs.map Prod.fst → s'.flag name = s.flag name)
        ∧ s'.approxAndLimits = s.approxAndLimits := by
  intro attrs
  induction attrs with
  | nil => intro s _ _; exact ⟨s, rfl, fun p hp => absurd hp (List.not_mem_nil p), fun _ _ => rfl, rfl⟩
  | cons a rest ih =>
    intro s hnd hval
    rw [List.map_cons, List.nodup_cons] at hnd
    obtain ⟨b0, hb0⟩ : ∃ b0, Config.GetBoolFromString a.2 = .value b0 := by
      have := hval a (List.mem_cons_self _ _)
      simp only [List.mem_cons, List.mem_singleton, List.not_mem_nil, or_false] at this
      rcases this with h | h | h | h
      · exact ⟨true, (GetBoolFromString_value _ _).mpr (Or.inl ⟨rfl, Or.inl h⟩)⟩
      · exact ⟨true, (GetBoolFromString_value _ _).mpr (Or.inl ⟨rfl, Or.inr h⟩)⟩
      · exact ⟨false, (GetBoolFromString_value _ _).mpr (Or.inr ⟨rfl, Or.inl h⟩)⟩
      · exact ⟨false, (GetBoolFromString_value _ _).mpr (Or.inr ⟨rfl, Or.inr h⟩)⟩
    obtain ⟨s', hs', hstored, hframe, hrest⟩ := ih (Config.storeFlag s a.1 b0) hnd.2
      (fun p hp => hval p (List.mem_cons_of_mem _ hp))
    refine ⟨s', ?_, ?_, ?_, ?_⟩
    · simp only [Config.setAnalysisLoop, hb0]
      exact hs'
    · intro p hp hname b hb
      rcases List.mem_cons.mp hp with rfl | hp
      · rw [hb0] at hb
        injection hb with hb
        subst hb
        rw [hframe p.1 hnd.1]
        exact flag_storeFlag_self s p.1 b0 hname
      · exact hstored p hp hname b hb
    · intro name hname
      rw [List.map_cons, List.mem_cons, not_or] at hname
      rw [hframe name hname.2]
      exact flag_storeFlag_ne s a.1 name b0 hname.1
    · rw [hrest]
      exact approxAndLimits_storeFlag s a.1 b0

/-- The methods `SetApprox` and `SetLimits` return the settings they are
given. -/
theorem SetApprox_SetLimits_eq (e : Element) (s : Settings) :
    Config.SetApprox e s = s ∧ Config.SetLimits e s = s := by
  have h : ∀ l : List Element, l.foldl (fun (s : Settings) _ => s) s = s := by
    intro l
    induction l with
    | nil => rfl
    | cons _ _ ih => exact ih
  exact ⟨h _, h _⟩

/-- Whenever `SetAnalysis` returns, the approximation and the limits are as
before. -/
theorem setAnalysisLoop_approxAndLimits :
    ∀ (attrs : List (String × String)) (s s' : Settings),
      Config.setAnalysisLoop attrs s = .value s' → s'.approxAndLimits = s.approxAndLimits := by
  intro attrs
  induction attrs with
  | nil =>
    intro s s' h
    simp only [Config.setAnalysisLoop, Outcome.value.injEq] at h
    rw [h]
  | cons a rest ih =>
    intro s s' h
    rw [Config.setAnalysisLoop] at h
    cases hb : Config.GetBoolFromString a.2 with
    | value b =>
      simp only [hb] at h
      rw [ih _ _ h]
      exact approxAndLimits_storeFlag s a.1 b
    | thrown e => simp [hb] at h
    | undefined => simp [hb] at h

/-- Whenever the loop over the option groups returns, the approximation and
the limits are as before. -/
theorem readOptions_approxAndLimits :
    ∀ (groups : List Element) (s s' : Settings),
      Config.readOptions groups s = .value s' → s'.approxAndLimits = s.approxAndLimits := by
  intro groups
  induction groups with
  | nil =>
    intro s s' h
    simp only [Config.readOptions, Outcome.value.injEq] at h
    rw [h]
  | cons g rest ih =>
    intro s s' h
    rw [Config.readOptions] at h
    split_ifs at h with h1 h2 h3
    · cases hs : Config.SetAnalysis g s with
      | value s1 =>
        simp only [hs] at h
        rw [ih _ _ h]
        exact setAnalysisLoop_approxAndLimits _ _ _ hs
      | thrown e => simp [hs] at h
      | undefined => simp [hs] at h
    · rw [ih _ _ h, (SetApprox_SetLimits_eq g s).1]
    · rw [ih _ _ h, (SetApprox_SetLimits_eq g s).2]
    · exact ih _ _ h

/-- Whenever the loop over the children of the root returns, the approximation
and the limits are as before. -/
theorem readChildren_approxAndLimits :
    ∀ (elements : List Element) (c c' : Config),
      Config.readChildren elements c = .value c' →
      c'.settings.approxAndLimits = c.settings.approxAndLimits := by
  intro elements
  induction elements with
  | nil =>
    intro c c' h
    simp only [Config.readChildren, Outcome.value.injEq] at h
    rw [h]
  | cons e rest ih =>
    intro c c' h
    rw [Config.readChildren] at h
    split_ifs at h with h1 h2 h3 h4
    · cases hf : Config.readInputFiles e.children c.input_files with
      | value files =>
        simp only [hf] at h
        exact ih { c with input_files := files } c' h
      | thrown e => simp [hf] at h
      | undefined => simp [hf] at h
    · cases ht : e.get_child_text with
      | none => simp [ht] at h
      | some content =>
        simp only [ht] at h
        exact ih { c with output_path := content } c' h
    · cases hs : Config.readOptions e.children c.settings with
      | value s1 =>
        simp only [hs] at h
        rw [ih _ _ h]
        exact readOptions_approxAndLimits _ _ _ hs
      | thrown e => simp [hs] at h
      | undefined => simp [hs] at h
    · exact ih _ _ h

/-- For every configuration document, the approximation and the limits of the
settings of the constructed `Config` are those of the default-constructed
settings: the constructor reads none of them from the document. -/
theorem construct_approxAndLimits (load : String → Except Error Element) (defaults : Settings)
    (config_file : String) (c : Config)
    (h : Config.construct load defaults config_file = .value c) :
    c.settings.approxAndLimits = defaults.approxAndLimits := by
  unfold Config.construct at h
  cases hl : load config_file with
  | error e => simp [hl] at h
  | ok root =>
    simp only [hl] at h
    split_ifs at h
    exact readChildren_approxAndLimits _ _ _ h

/-- C14, evaluated on the full configuration of the test
`ConfigTest.FullSettings`: the constructed `Config` has the input file and the
output path of the document and the four analysis flags set, but its
approximation and limits are those of the default-constructed settings,
whatever these are, not `rare-event`, 11, 48, 0.009, 42, 777 and 97531; so it
equals the settings the test expects only if the defaults already hold these
values. -/
theorem C14_full_configuration (defaults : Settings) :
    Config.construct (fun _ => .ok fullConfiguration) defaults "full_configuration.xml"
        = .value ⟨["input/fta/correct_tree_input_with_probs.xml"], "temp_results.xml",
            { defaults with
              probability_analysis := true, importance_analysis := true,
              uncertainty_analysis := true, ccf_analysis := true }⟩
      ∧ (({ defaults with
              probability_analysis := true, importance_analysis := true,
              uncertainty_analysis := true, ccf_analysis := true } : Settings)
            = expectedFullSettings
          ↔ defaults.approxAndLimits = expectedFullSettings.approxAndLimits) := by
  constructor
  · simp [Config.construct, fullConfiguration, Element.get_name, Element.children,
      Element.get_child_text, Element.get_attributes, Config.readChildren,
      Config.readInputFiles, Config.readOptions, Config.SetAnalysis, Config.setAnalysisLoop,
      Config.GetBoolFromString, Config.storeFlag, Config.SetApprox, Config.SetLimits]
  · cases defaults
    simp only [expectedFullSettings, Settings.approxAndLimits, Settings.mk.injEq, true_and,
      Prod.mk.injEq]

/-! ## One step of the memoised traversal, read backwards -/

section Inversion

variable {gates : List (Int × Bdd.Function)} {vp : VarProbs} {order : Int} {mark : Bool}

/-- A call of `CalculateMif(vertex, order, mark)` on an `Ite` that returns has
taken one of the five paths through the function. -/
theorem CalculateMifVertex_ite_inv {n : Nat} {h : List Ite} {id : Nat} {d : ℚ} {h' : List Ite}
    (hc : CalculateMifVertex gates vp order mark (n + 1) h (.ite id) = some (d, h')) :
    ∃ a, h[id]? = some a ∧
      ((a.mark = mark ∧ d = a.factor ∧ h' = h) ∨
       (¬ a.mark = mark ∧
         ((order < a.order ∧ a.module = false ∧ d = 0
            ∧ h' = setFactor (setMark h id mark) id 0) ∨
          (order < a.order ∧ a.module = true ∧ ∃ diff res mif h2,
            edgeDifference (setMark h id mark) a = some diff
            ∧ gates.lookup a.index = some res
            ∧ CalculateMifVertex gates vp order mark n (setMark h id mark) res.vertex
                = some (mif, h2)
            ∧ d = diff * (if res.complement then -mif else mif)
            ∧ h' = setFactor h2 id d) ∨
          (a.order = order ∧ a.module = false
            ∧ edgeDifference (setMark h id mark) a = some d
            ∧ h' = setFactor (setMark h id mark) id d) ∨
          (a.order < order ∧ ∃ pv hi lo h2 h3,
            pivotProbability gates vp (setMark h id mark) a = some pv
            ∧ CalculateMifVertex gates vp order mark n (setMark h id mark) a.high
                = some (hi, h2)
            ∧ CalculateMifVertex gates vp order mark n h2 a.low = some (lo, h3)
            ∧ d = pv * hi + (1 - pv) * (if a.complement_edge then -lo else lo)
            ∧ h' = setFactor h3 id d)))) := by
  rw [CalculateMifVertex] at hc
  generalize ha : h[id]? = oa at hc
  cases oa with
  | none => simp at hc
  | some a =>
    simp only at hc
    refine ⟨a, rfl, ?_⟩
    by_cases hm : a.mark = mark
    · rw [if_pos hm] at hc
      simp only [Option.some.injEq, Prod.mk.injEq] at hc
      exact Or.inl ⟨hm, hc.1.symm, hc.2.symm⟩
    · rw [if_neg hm] at hc
      refine Or.inr ⟨hm, ?_⟩
      rcases lt_trichotomy a.order order with hlt | heq | hgt
      · have h1 : ¬ a.order > order := not_lt.mpr (le_of_lt hlt)
        have h2 : ¬ a.order = order := ne_of_lt hlt
        rw [if_neg h1, if_neg h2] at hc
        generalize hp : pivotProbability gates vp (setMark h id mark) a = op at hc
        cases op with
        | none => simp at hc
        | some pv =>
          simp only at hc
          generalize hhi : CalculateMifVertex gates vp order mark n (setMark h id mark) a.high
            = r2 at hc
          cases r2 with
          | none => simp at hc
          | some r2 =>
            obtain ⟨hi, h2'⟩ := r2
            simp only at hc
            generalize hlo : CalculateMifVertex gates vp order mark n h2' a.low = r3 at hc
            cases r3 with
            | none => simp at hc
            | some r3 =>
              obtain ⟨lo, h3'⟩ := r3
              simp only [Option.some.injEq, Prod.mk.injEq] at hc
              obtain ⟨hd, hh⟩ := hc
              refine Or.inr (Or.inr (Or.inr
                ⟨hlt, pv, hi, lo, h2', h3', rfl, rfl, hlo, hd.symm, ?_⟩))
              rw [← hh, hd]
      · have h1 : ¬ a.order > order := by rw [heq]; exact lt_irrefl _
        rw [if_neg h1, if_pos heq] at hc
        generalize hmod : a.module = am at hc
        cases am with
        | true => simp at hc
        | false =>
          simp only [Bool.false_eq_true, if_false] at hc
          generalize hd : edgeDifference (setMark h id mark) a = od at hc
          cases od with
          | none => simp at hc
          | some diff =>
            simp only [Option.some.injEq, Prod.mk.injEq] at hc
            obtain ⟨hdd, hh⟩ := hc
            subst hdd
            exact Or.inr (Or.inr (Or.inl ⟨heq, rfl, rfl, hh.symm⟩))
      · have h5 : a.order > order := hgt
        rw [if_pos h5] at hc
        generalize hmod : a.module = am at hc
        cases am with
        | false =>
          simp only [if_true, Option.some.injEq, Prod.mk.injEq] at hc
          exact Or.inl ⟨hgt, rfl, hc.1.symm, hc.2.symm⟩
        | true =>
          simp only [Bool.true_eq_false, if_false] at hc
          generalize hd : edgeDifference (setMark h id mark) a = od at hc
          cases od with
          | none => simp at hc
          | some diff =>
            simp only at hc
            generalize hg : gates.lookup a.index = og at hc
            cases og with
            | none => simp at hc
            | some res =>
              simp only at hc
              generalize hr : CalculateMifVertex gates vp order mark n (setMark h id mark)
                res.vertex = r2 at hc
              cases r2 with
              | none => simp at hc
              | some r2 =>
                obtain ⟨mif, h2'⟩ := r2
                simp only [Option.some.injEq, Prod.mk.injEq] at hc
                obtain ⟨hdd, hh⟩ := hc
                refine Or.inr (Or.inl
                  ⟨hgt, rfl, diff, res, mif, h2', rfl, rfl, hr, hdd.symm, ?_⟩)
                rw [← hh, hdd]

/-- The relation `SameShape` is reflexive. -/
theorem sameShape_refl (h : List Ite) : SameShape h h := fun _ => rfl

/-- Whenever the traversal returns, it has written `mark` and `factor` fields
only: the store it returns has the shape of the store it was given. -/
theorem CalculateMifVertex_sameShape :
    ∀ (n : Nat) (h : List Ite) (v : VertexPtr) (d : ℚ) (h' : List Ite),
      CalculateMifVertex gates vp order mark n h v = some (d, h') → SameShape h' h := by
  intro n
  induction n with
  | zero => intro h v d h' hc; simp [CalculateMifVertex] at hc
  | succ n ih =>
    intro h v d h' hc
    cases v with
    | terminal b =>
      simp only [CalculateMifVertex, Option.some.injEq, Prod.mk.injEq] at hc
      rw [← hc.2]
      exact sameShape_refl h
    | ite id =>
      obtain ⟨a, -, hb⟩ := CalculateMifVertex_ite_inv hc
      rcases hb with ⟨-, -, rfl⟩ | ⟨-, ⟨-, -, -, rfl⟩ | ⟨-, -, diff, res, mif, h2, -, -, hr, -, rfl⟩
        | ⟨-, -, -, rfl⟩ | ⟨-, pv, hi, lo, h2, h3, -, hhi, hlo, -, rfl⟩⟩
      · exact sameShape_refl _
      · exact sameShape_trans (SameShape_setFactor _ id 0) (SameShape_setMark h id mark)
      · exact sameShape_trans (SameShape_setFactor _ id _)
          (sameShape_trans (ih _ _ _ _ hr) (SameShape_setMark h id mark))
      · exact sameShape_trans (SameShape_setFactor _ id _) (SameShape_setMark h id mark)
      · exact sameShape_trans (SameShape_setFactor _ id _)
          (sameShape_trans (ih _ _ _ _ hlo)
            (sameShape_trans (ih _ _ _ _ hhi) (SameShape_setMark h id mark)))

/-- After `ite->factor(x)` on a vertex of the store, the vertex holds `x`. -/
theorem factor_setFactor {h : List Ite} {id : Nat} {a : Ite} (ha : h[id]? = some a) (x : ℚ) :
    ∃ b, (setFactor h id x)[id]? = some b ∧ b.factor = x := by
  rw [getElem?_setFactor, if_pos rfl, ha]
  exact ⟨_, rfl, rfl⟩

end Inversion
/-! ## The factor stored in the module and Shannon branches -/

/-- The difference `high - low` is defined iff both child probabilities are
retrieved. -/
theorem edgeDifference_eq_some {h : List Ite} {a : Ite} {diff : ℚ}
    (hd : edgeDifference h a = some diff) :
    ∃ high low, RetrieveProbability h a.high = some high
      ∧ RetrieveProbability h a.low = some low
      ∧ diff = high - (if a.complement_edge then 1 - low else low) := by
  unfold edgeDifference at hd
  generalize hh : RetrieveProbability h a.high = oh at hd
  cases oh with
  | none => simp at hd
  | some high =>
    simp only at hd
    generalize hl : RetrieveProbability h a.low = ol at hd
    cases ol with
    | none => simp at hd
    | some low =>
      simp only [Option.some.injEq] at hd
      exact ⟨high, low, rfl, rfl, hd.symm⟩

/-- The pivot probability is `var_probs[index]` for a variable and the retrieved
probability of the module's function, complemented if the function is, for a
module. -/
theorem pivotProbability_eq_some {gates : List (Int × Bdd.Function)} {vp : VarProbs}
    {h : List Ite} {a : Ite} {pv : ℚ} (hp : pivotProbability gates vp h a = some pv) :
    (a.module = false → vecGet vp a.index = some pv)
      ∧ (a.module = true → ∃ res p, gates.lookup a.index = some res
          ∧ RetrieveProbability h res.vertex = some p
          ∧ pv = if res.complement then 1 - p else p) := by
  unfold pivotProbability at hp
  cases hmod : a.module with
  | false =>
    simp only [hmod, Bool.false_eq_true, if_false] at hp
    exact ⟨fun _ => hp, fun hcon => absurd hcon (by decide)⟩
  | true =>
    simp only [hmod, if_true] at hp
    refine ⟨fun hcon => absurd hcon (by decide), fun _ => ?_⟩
    cases hg : gates.lookup a.index with
    | none => simp [hg] at hp
    | some res =>
      simp only [hg] at hp
      cases hr : RetrieveProbability h res.vertex with
      | none => simp [hr] at hp
      | some p =>
        simp only [hr, Option.some.injEq] at hp
        exact ⟨res, p, rfl, hr, hp.symm⟩

/-- The vertex written last by a traversal of vertex `id` holds the returned
factor when the store before the write has the shape of the store at entry. -/
theorem stored_factor {h hX : List Ite} {id : Nat} {a : Ite} (ha : h[id]? = some a)
    (hs : SameShape hX h) (d : ℚ) : ∃ b, (setFactor hX id d)[id]? = some b ∧ b.factor = d := by
  obtain ⟨x, hx, -⟩ := sameShape_get (sameShape_symm hs) ha
  exact factor_setFactor hx d

/-- C16, as stated, fails: on the BDD of `M AND C` with module `M = A AND B`,
`p(B) = 1/5` and `p(C) = 1/2`, the traversal for variable `A` visits the
unmarked module vertex `M`, whose order 3 exceeds the query order 1; the
recursion into the function of `M` yields the factor `1/5`, but the factor
stored for `M` and returned is `1/10 = (1/2 - 0) * 1/5`, the product with
`high - low`. -/
theorem C16_counterexample :
    (CalculateMifVertex (moduleAndBdd (1 / 2) (1 / 5) (1 / 2) false).gates
        [0, 1 / 2, 1 / 5, 0, 1 / 2] 1 true 2
        (setMark (moduleAndBdd (1 / 2) (1 / 5) (1 / 2) false).vertices 0 true)
        (.ite 1)).map Prod.fst = some (1 / 5)
      ∧ (CalculateMifVertex (moduleAndBdd (1 / 2) (1 / 5) (1 / 2) false).gates
          [0, 1 / 2, 1 / 5, 0, 1 / 2] 1 true 3
          (moduleAndBdd (1 / 2) (1 / 5) (1 / 2) false).vertices (.ite 0)).map Prod.fst
        = some (1 / 10)
      ∧ (CalculateMifVertex (moduleAndBdd (1 / 2) (1 / 5) (1 / 2) false).gates
          [0, 1 / 2, 1 / 5, 0, 1 / 2] 1 true 3
          (moduleAndBdd (1 / 2) (1 / 5) (1 / 2) false).vertices (.ite 0)).bind
          (fun r => (r.2[0]?).map Ite.factor) = some (1 / 10)
      ∧ (1 / 10 : ℚ) ≠ 1 / 5 := by
  refine ⟨?_, ?_, ?_, by norm_num⟩
  · norm_num [moduleAndBdd, CalculateMifVertex, edgeDifference, RetrieveProbability, setMark,
      setFactor, List.lookup]
  · norm_num [moduleAndBdd, CalculateMifVertex, edgeDifference, RetrieveProbability, setMark,
      setFactor, List.lookup]
  · norm_num [moduleAndBdd, CalculateMifVertex, edgeDifference, RetrieveProbability, setMark,
      setFactor, List.lookup]

/-! ## Totality of the traversals on a well-formed store -/

section Totality

variable {gates : List (Int × Bdd.Function)} {vp : VarProbs} {order : Int} {vs : List Ite}
  {ht : Nat → Nat}

/-- The probability of a vertex of the store can be retrieved. -/
theorem RetrieveProbability_total {h : List Ite} {v : VertexPtr}
    (hv : ∀ c, v = .ite c → c < h.length) : ∃ p, RetrieveProbability h v = some p := by
  cases v with
  | terminal b => exact ⟨1, rfl⟩
  | ite c =>
    have hlt := hv c rfl
    exact ⟨h[c].prob, by simp only [RetrieveProbability, List.getElem?_eq_getElem hlt]⟩

/-- The difference `high - low` of a vertex of a well-formed store is defined. -/
theorem edgeDifference_total (hwf : WellFormedDag gates vp order vs ht) {id : Nat} {a : Ite}
    (ha : vs[id]? = some a) : ∃ diff, edgeDifference vs a = some diff := by
  obtain ⟨ph, hph⟩ := RetrieveProbability_total (h := vs) (v := a.high)
    (fun c hc => (hwf.children id a ha c (Or.inl hc)).1)
  obtain ⟨pl, hpl⟩ := RetrieveProbability_total (h := vs) (v := a.low)
    (fun c hc => (hwf.children id a ha c (Or.inr hc)).1)
  exact ⟨ph - (if a.complement_edge then 1 - pl else pl),
    by simp only [edgeDifference, hph, hpl]⟩

/-- The pivot probability of a vertex of a well-formed store is defined. -/
theorem pivotProbability_total (hwf : WellFormedDag gates vp order vs ht) {id : Nat} {a : Ite}
    (ha : vs[id]? = some a) : ∃ pv, pivotProbability gates vp vs a = some pv := by
  cases hmod : a.module with
  | false =>
    obtain ⟨p, hp⟩ := hwf.variable_slots a (List.getElem?_mem ha) hmod
    exact ⟨p, by simp only [pivotProbability, hmod, Bool.false_eq_true, if_false, hp]⟩
  | true =>
    obtain ⟨res, hg, hres⟩ := hwf.modules id a ha hmod
    obtain ⟨p, hp⟩ := RetrieveProbability_total (h := vs) (v := res.vertex)
      (fun c hc => (hres c hc).1)
    exact ⟨if res.complement then 1 - p else p,
      by simp only [pivotProbability, hmod, if_true, hg, hp]⟩

/-- On a well-formed store the unmemoised recursion yields a factor for every
vertex once the fuel exceeds the height of the vertex by two. -/
theorem MifUnmemoised_total (hwf : WellFormedDag gates vp order vs ht) :
    ∀ (n : Nat) (v : VertexPtr), 1 ≤ n →
      (∀ id, v = .ite id → id < vs.length ∧ ht id + 2 ≤ n) →
      ∃ d, MifUnmemoised gates vp order vs n v = some d := by
  intro n
  induction n with
  | zero => intro v h1; omega
  | succ n ih =>
    intro v _ hv
    cases v with
    | terminal b => exact ⟨0, by simp [MifUnmemoised]⟩
    | ite id =>
      obtain ⟨hlt, hht⟩ := hv id rfl
      have ha : vs[id]? = some vs[id] := List.getElem?_eq_getElem hlt
      have hn : 1 ≤ n := by omega
      have hchild : ∀ c, (vs[id].high = .ite c ∨ vs[id].low = .ite c) →
          c < vs.length ∧ ht c + 2 ≤ n := by
        intro c hc
        obtain ⟨h1, h2⟩ := hwf.children id _ ha c hc
        exact ⟨h1, by omega⟩
      rcases lt_trichotomy vs[id].order order with hlo | heq | hgt
      · obtain ⟨pv, hpv⟩ := pivotProbability_total hwf ha
        obtain ⟨hi, hhi⟩ := ih vs[id].high hn (fun c hc => hchild c (Or.inl hc))
        obtain ⟨lo, hlo'⟩ := ih vs[id].low hn (fun c hc => hchild c (Or.inr hc))
        exact ⟨_, MifUnmemoised_ite_some.mpr ⟨_, ha, Or.inr (Or.inr (Or.inr
          ⟨hlo, pv, hi, lo, hpv, hhi, hlo', rfl⟩))⟩⟩
      · obtain ⟨diff, hd⟩ := edgeDifference_total hwf ha
        exact ⟨diff, MifUnmemoised_ite_some.mpr ⟨_, ha, Or.inr (Or.inr (Or.inl
          ⟨heq, hwf.query_is_variable _ (List.getElem?_mem ha) heq, hd⟩))⟩⟩
      · cases hmod : vs[id].module with
        | false => exact ⟨0, MifUnmemoised_ite_some.mpr ⟨_, ha, Or.inl ⟨hgt, hmod, rfl⟩⟩⟩
        | true =>
          obtain ⟨diff, hd⟩ := edgeDifference_total hwf ha
          obtain ⟨res, hg, hres⟩ := hwf.modules id _ ha hmod
          obtain ⟨mif, hmif⟩ := ih res.vertex hn (fun c hc => by
            obtain ⟨h1, h2⟩ := hres c hc
            exact ⟨h1, by omega⟩)
          exact ⟨_, MifUnmemoised_ite_some.mpr ⟨_, ha, Or.inr (Or.inl
            ⟨hgt, hmod, diff, res, mif, hd, hg, hmif, rfl⟩)⟩⟩

/-- On a store with the shape of a well-formed one the mark-flipping traversal
returns for every vertex once the fuel exceeds the height of the vertex by two,
whatever the marks are, and returns a store of the same shape. -/
theorem CalculateMifVertex_total (hwf : WellFormedDag gates vp order vs ht) (mark : Bool) :
    ∀ (n : Nat) (h : List Ite) (v : VertexPtr), SameShape h vs → 1 ≤ n →
      (∀ id, v = .ite id → id < vs.length ∧ ht id + 2 ≤ n) →
      ∃ d h', CalculateMifVertex gates vp order mark n h v = some (d, h')
        ∧ SameShape h' vs := by
  intro n
  induction n with
  | zero => intro h v _ h1; omega
  | succ n ih =>
    intro h v hs _ hv
    cases v with
    | terminal b => exact ⟨0, h, CalculateMifVertex_terminal gates vp order mark n h b, hs⟩
    | ite id =>
      obtain ⟨hlt, hht⟩ := hv id rfl
      have ha0 : vs[id]? = some vs[id] := List.getElem?_eq_getElem hlt
      obtain ⟨a, ha, haa0⟩ := sameShape_get (sameShape_symm hs) ha0
      obtain ⟨hidx, hord, hhi, hlo, hce, hmod, -⟩ := shape_fields haa0
      have hn : 1 ≤ n := by omega
      have hchild : ∀ c, (vs[id].high = .ite c ∨ vs[id].low = .ite c) →
          c < vs.length ∧ ht c + 2 ≤ n := by
        intro c hc
        obtain ⟨h1, h2⟩ := hwf.children id _ ha0 c hc
        exact ⟨h1, by omega⟩
      by_cases hm : a.mark = mark
      · exact ⟨_, _, CalculateMifVertex_marked gates vp order mark ha hm, hs⟩
      · have hs1 : SameShape (setMark h id mark) vs :=
          sameShape_trans (SameShape_setMark h id mark) hs
        rcases lt_trichotomy vs[id].order order with hlo' | heq | hgt
        · obtain ⟨pv, hpv⟩ := pivotProbability_total hwf ha0
          rw [pivotProbability_congr gates vp (sameShape_symm hs1) haa0] at hpv
          obtain ⟨hi, h2, hc2, hs2⟩ := ih (setMark h id mark) vs[id].high hs1 hn
            (fun c hc => hchild c (Or.inl hc))
          obtain ⟨lo, h3, hc3, hs3⟩ := ih h2 vs[id].low hs2 hn
            (fun c hc => hchild c (Or.inr hc))
          rw [hhi] at hc2
          rw [hlo] at hc3
          exact ⟨_, _, CalculateMifVertex_below gates vp order mark ha hm (hord ▸ hlo') hpv
            hc2 hc3, sameShape_trans (SameShape_setFactor _ _ _) hs3⟩
        · obtain ⟨diff, hd⟩ := edgeDifference_total hwf ha0
          rw [edgeDifference_congr (sameShape_symm hs1) haa0] at hd
          have hmd := hwf.query_is_variable _ (List.getElem?_mem ha0) heq
          exact ⟨_, _, CalculateMifVertex_at gates vp order mark ha hm (hord ▸ heq)
            (hmod ▸ hmd) hd, sameShape_trans (SameShape_setFactor _ _ _) hs1⟩
        · cases hmd : vs[id].module with
          | false =>
            exact ⟨_, _, CalculateMifVertex_above gates vp order mark ha hm (hord ▸ hgt)
              (hmod ▸ hmd), sameShape_trans (SameShape_setFactor _ _ _) hs1⟩
          | true =>
            obtain ⟨diff, hd⟩ := edgeDifference_total hwf ha0
            rw [edgeDifference_congr (sameShape_symm hs1) haa0] at hd
            obtain ⟨res, hg, hres⟩ := hwf.modules id _ ha0 hmd
            obtain ⟨mif, h2, hc2, hs2⟩ := ih (setMark h id mark) res.vertex hs1 hn
              (fun c hc => by
                obtain ⟨h1, h2⟩ := hres c hc
                exact ⟨h1, by omega⟩)
            exact ⟨_, _, CalculateMifVertex_above_module gates vp order mark ha hm
              (hord ▸ hgt) (hmod ▸ hmd) hd (hidx ▸ hg) hc2,
              sameShape_trans (SameShape_setFactor _ _ _) hs2⟩

end Totality
/-! ## Claims C18 and C19: memoisation and marks -/

/-- Clearing the marks changes no field outside `mark`. -/
theorem SameShape_ClearMarks (h : List Ite) (m : Bool) : SameShape (ClearMarks h m) h := by
  intro id
  simp only [ClearMarks, List.getElem?_map, Option.map_map]
  cases h[id]? <;> simp [Ite.shape]

/-- After `ClearMarks(m)` every vertex of the store carries the mark `m`. -/
theorem mark_ClearMarks (h : List Ite) (m : Bool) : ∀ a ∈ ClearMarks h m, a.mark = m := by
  intro a ha
  obtain ⟨b, -, rfl⟩ := List.mem_map.mp ha
  rfl

/-- The negated height is a level function on a well-formed store. -/
theorem LevelIncreasing_of_wellFormedDag {gates : List (Int × Bdd.Function)} {vp : VarProbs}
    {order : Int} {vs : List Ite} {ht : Nat → Nat} (hwf : WellFormedDag gates vp order vs ht) :
    LevelIncreasing gates vs (fun id => -(ht id : Int)) := by
  intro id a ha
  refine ⟨fun c hc => ?_, fun c hc => ?_, fun hmod res c hg hc => ?_⟩
  · have := (hwf.children id a ha c (Or.inl hc)).2
    simp only [neg_lt_neg_iff, Nat.cast_lt]
    exact this
  · have := (hwf.children id a ha c (Or.inr hc)).2
    simp only [neg_lt_neg_iff, Nat.cast_lt]
    exact this
  · obtain ⟨res', hg', hres⟩ := hwf.modules id a ha hmod
    rw [hg] at hg'
    obtain rfl : res = res' := Option.some.inj hg'
    have := (hres c hc).2
    simp only [neg_lt_neg_iff, Nat.cast_lt]
    exact this

/-- The BDD of `M OR M` has a well-formed store for the query order of `A`. -/
theorem moduleBdd_wellFormedDag (pA pB : ℚ) (m : Bool) :
    WellFormedDag (moduleBdd pA pB m).gates [0, pA, pB] 1 (moduleBdd pA pB m).vertices
      (fun id => 2 - id) where
  children := by
    intro id a ha c hc
    match id with
    | 0 =>
      simp only [moduleBdd, List.getElem?_cons_zero, Option.some.injEq] at ha
      subst ha
      simp at hc
    | 1 =>
      simp only [moduleBdd, List.getElem?_cons_succ, List.getElem?_cons_zero,
        Option.some.injEq] at ha
      subst ha
      simp only [VertexPtr.ite.injEq, reduceCtorEq, or_false] at hc
      subst hc
      simp [moduleBdd]
    | 2 =>
      simp only [moduleBdd, List.getElem?_cons_succ, List.getElem?_cons_zero,
        Option.some.injEq] at ha
      subst ha
      simp at hc
    | k + 3 => simp [moduleBdd] at ha
  modules := by
    intro id a ha hmod
    match id with
    | 0 =>
      simp only [moduleBdd, List.getElem?_cons_zero, Option.some.injEq] at ha
      subst ha
      refine ⟨⟨false, .ite 1⟩, by simp [moduleBdd, List.lookup], ?_⟩
      intro c hc
      simp only [VertexPtr.ite.injEq] at hc
      subst hc
      simp [moduleBdd]
    | 1 =>
      simp only [moduleBdd, List.getElem?_cons_succ, List.getElem?_cons_zero,
        Option.some.injEq] at ha
      subst ha
      simp at hmod
    | 2 =>
      simp only [moduleBdd, List.getElem?_cons_succ, List.getElem?_cons_zero,
        Option.some.injEq] at ha
      subst ha
      simp at hmod
    | k + 3 => simp [moduleBdd] at ha
  variable_slots := by
    intro a ha hmod
    simp only [moduleBdd, List.mem_cons, List.mem_singleton, List.not_mem_nil, or_false] at ha
    rcases ha with rfl | rfl | rfl
    · simp at hmod
    · exact ⟨pA, by simp [vecGet]⟩
    · exact ⟨pB, by simp [vecGet]⟩
  query_is_variable := by
    intro a ha ho
    simp only [moduleBdd, List.mem_cons, List.mem_singleton, List.not_mem_nil, or_false] at ha
    rcases ha with rfl | rfl | rfl
    · simp at ho
    · rfl
    · rfl

/-- C18, as stated, fails in its second half, on the BDD of `A OR B` with
`p(A) = 1/10`, `p(B) = 1/5`, marks `false` and target mark `true`. During the
pass for variable `B` the root is marked before its children are visited: the
recursive call on its low child runs on the store `setMark vertices 0 true`, in
which the root carries the target mark while its factor is still 0 and its
factor for this pass is `9/10`. And when the pass for variable `A` returns,
the vertex of `B` has never been visited and carries the old mark, while its
factor field, 0, is its factor for this pass. -/
theorem C18_counterexample :
    ((setMark (orBdd (1 / 10) (1 / 5) false).vertices 0 true)[0]?).map
        (fun a => (a.mark, a.factor)) = some (true, 0)
      ∧ MifUnmemoised [] [0, 1 / 10, 1 / 5] 2 (orBdd (1 / 10) (1 / 5) false).vertices 3
          (.ite 0) = some (9 / 10)
      ∧ (CalculateMifVertex [] [0, 1 / 10, 1 / 5] 2 true 2
          (setMark (orBdd (1 / 10) (1 / 5) false).vertices 0 true) (.ite 1)).map Prod.fst
          = some 1
      ∧ (CalculateMifVertex [] [0, 1 / 10, 1 / 5] 2 true 3
          (orBdd (1 / 10) (1 / 5) false).vertices (.ite 0)).map Prod.fst = some (9 / 10)
      ∧ (CalculateMifVertex [] [0, 1 / 10, 1 / 5] 1 true 2
          (orBdd (1 / 10) (1 / 5) false).vertices (.ite 0)).bind
          (fun r => (r.2[1]?).map (fun a => (a.mark, a.factor))) = some (false, 0)
      ∧ MifUnmemoised [] [0, 1 / 10, 1 / 5] 1 (orBdd (1 / 10) (1 / 5) false).vertices 2
          (.ite 1) = some 0 := by
  refine ⟨?_, ?_, ?_, ?_, ?_, ?_⟩
  · simp [orBdd, setMark]
  · norm_num [orBdd, MifUnmemoised, pivotProbability, edgeDifference, RetrieveProbability,
      vecGet]
  · norm_num [orBdd, CalculateMifVertex, pivotProbability, edgeDifference,
      RetrieveProbability, vecGet, setMark, setFactor]
  · norm_num [orBdd, CalculateMifVertex, pivotProbability, edgeDifference,
      RetrieveProbability, vecGet, setMark, setFactor]
  · norm_num [orBdd, CalculateMifVertex, pivotProbability, edgeDifference,
      RetrieveProbability, vecGet, setMark, setFactor]
  · norm_num [orBdd, MifUnmemoised]

/-- C18 (amended): for every well-formed BDD (a DAG with shared vertices and
nested modules) whose `Ite` marks all equal `m` on entry, the mark-flipping
memoised traversal `CalculateMif(root, order, !m)` returns, for all large
enough fuel, the same value as the unmemoised recursion that recomputes each
vertex on every visit; and when it returns, every `Ite` whose mark equals the
target mark holds that vertex's factor for this pass in its `factor` field. -/
theorem C18_memoised_is_unmemoised (bdd : Bdd) (vp : VarProbs) (order : Int) (m : Bool)
    (ht : Nat → Nat) (hwf : WellFormedDag bdd.gates vp order bdd.vertices ht)
    (hroot : ∀ id, bdd.root.vertex = .ite id → id < bdd.vertices.length)
    (hum : UniformMarks bdd m) :
    ∃ N, ∀ fuel, N ≤ fuel → ∃ d h',
      MifUnmemoised bdd.gates vp order bdd.vertices fuel bdd.root.vertex = some d
      ∧ CalculateMifVertex bdd.gates vp order (!m) fuel bdd.vertices bdd.root.vertex
          = some (d, h')
      ∧ ∀ id a, h'[id]? = some a → a.mark = (!m) →
          ∃ k, MifUnmemoised bdd.gates vp order bdd.vertices k (.ite id) = some a.factor := by
  have hN : ∃ N k, 1 ≤ N
      ∧ (∀ id, bdd.root.vertex = .ite id → id < bdd.vertices.length ∧ ht id + 2 ≤ N)
      ∧ (∀ id, bdd.root.vertex = .ite id → k ≤ -(ht id : Int)) := by
    cases hr : bdd.root.vertex with
    | terminal b =>
      exact ⟨1, 0, le_refl _, fun id hid => by simp at hid, fun id hid => by simp at hid⟩
    | ite rid =>
      refine ⟨ht rid + 2, -(ht rid : Int), by omega, fun id hid => ?_, fun id hid => ?_⟩
      · injection hid with hid
        subst hid
        exact ⟨hroot _ hr, le_refl _⟩
      · injection hid with hid
        subst hid
        exact le_refl _
  obtain ⟨N, k, hN1, hNv, hk⟩ := hN
  refine ⟨N, fun fuel hfuel => ?_⟩
  obtain ⟨d, hd⟩ := MifUnmemoised_total hwf fuel bdd.root.vertex (by omega)
    (fun id hid => ⟨(hNv id hid).1, by have := (hNv id hid).2; omega⟩)
  have hinit : MemoInv bdd.gates vp order (!m) bdd.vertices (fun id => -(ht id : Int)) k
      bdd.vertices := by
    intro id a ha _ hmk
    rw [hum a (List.getElem?_mem ha)] at hmk
    cases m <;> simp at hmk
  obtain ⟨h', hc, hs, hinv, hframe⟩ := CalculateMifVertex_refines bdd.gates vp order (!m)
    bdd.vertices (fun id => -(ht id : Int)) (LevelIncreasing_of_wellFormedDag hwf) fuel
    bdd.vertices bdd.root.vertex d k (sameShape_refl _) hd hk hinit
  refine ⟨d, h', hd, hc, fun id a ha hmk => ?_⟩
  by_cases hl : k ≤ -(ht id : Int)
  · obtain ⟨a0, ha0, -⟩ := sameShape_get hs ha
    have hlt : id < bdd.vertices.length := (List.getElem?_eq_some_iff.mp ha0).1
    obtain ⟨d', hd'⟩ := MifUnmemoised_total hwf (ht id + 2) (.ite id) (by omega)
      (fun id' hid => by
        injection hid with hid
        subst hid
        exact ⟨hlt, le_refl _⟩)
    rw [hinv id a ha hl hmk (ht id + 2) d' hd']
    exact ⟨ht id + 2, hd'⟩
  · rw [hframe id (not_le.mp hl)] at ha
    rw [hum a (List.getElem?_mem ha)] at hmk
    cases m <;> simp at hmk

/-- Witness of the amended C18: the BDD of `M OR M` with the shared module
`M = A AND B`, query variable `A`. -/
theorem C18_memoised_is_unmemoised_witness :
    ∃ N, ∀ fuel, N ≤ fuel → ∃ d h',
      MifUnmemoised (moduleBdd (1 / 2) (1 / 5) false).gates [0, 1 / 2, 1 / 5] 1
          (moduleBdd (1 / 2) (1 / 5) false).vertices fuel
          (moduleBdd (1 / 2) (1 / 5) false).root.vertex = some d
      ∧ CalculateMifVertex (moduleBdd (1 / 2) (1 / 5) false).gates [0, 1 / 2, 1 / 5] 1
          (!false) fuel (moduleBdd (1 / 2) (1 / 5) false).vertices
          (moduleBdd (1 / 2) (1 / 5) false).root.vertex = some (d, h')
      ∧ ∀ id a, h'[id]? = some a → a.mark = (!false) →
          ∃ k, MifUnmemoised (moduleBdd (1 / 2) (1 / 5) false).gates [0, 1 / 2, 1 / 5] 1
            (moduleBdd (1 / 2) (1 / 5) false).vertices k (.ite id) = some a.factor :=
  C18_memoised_is_unmemoised (moduleBdd (1 / 2) (1 / 5) false) [0, 1 / 2, 1 / 5] 1 false
    (fun id => 2 - id) (moduleBdd_wellFormedDag _ _ _)
    (fun id hid => by
      simp only [moduleBdd, VertexPtr.ite.injEq] at hid
      subst hid
      simp [moduleBdd])
    (by simp [UniformMarks, moduleBdd])

/-- C19: on a well-formed BDD, BDD-mode `CalculateMif(index)` returns for all
large enough fuel, and after it returns every `Ite` vertex of the BDD has its
mark equal to the root's mark on entry (`ClearMarks(restore_to)` sets every
mark to `restore_to`), no other field than `mark` and `factor` having changed;
when the root is a terminal the call returns 0 and changes nothing. -/
theorem C19_marks_restored (bdd : Bdd) (vp : VarProbs) (index order : Int) (ht : Nat → Nat)
    (hwf : WellFormedDag bdd.gates vp order bdd.vertices ht)
    (hroot : ∀ id, bdd.root.vertex = .ite id → id < bdd.vertices.length)
    (hio : bdd.index_to_order.lookup index = some order) :
    ∃ N, ∀ fuel, N ≤ fuel → ∃ mif bdd',
      ImportanceAnalyzerBdd.CalculateMif fuel bdd vp index = some (mif, bdd')
      ∧ SameShape bdd'.vertices bdd.vertices
      ∧ (∀ rid root, bdd.root.vertex = .ite rid → bdd.vertices[rid]? = some root →
          ∀ a ∈ bdd'.vertices, a.mark = root.mark)
      ∧ (∀ b, bdd.root.vertex = .terminal b → mif = 0 ∧ bdd' = bdd) := by
  cases hr : bdd.root.vertex with
  | terminal b =>
    refine ⟨0, fun fuel _ => ⟨0, bdd, ?_, sameShape_refl _, ?_, fun _ _ => ⟨rfl, rfl⟩⟩⟩
    · simp only [ImportanceAnalyzerBdd.CalculateMif, hr]
    · intro rid root hid
      simp at hid
  | ite rid =>
    have hlt := hroot rid hr
    have hroot' : bdd.vertices[rid]? = some bdd.vertices[rid] := List.getElem?_eq_getElem hlt
    refine ⟨ht rid + 2, fun fuel hfuel => ?_⟩
    obtain ⟨d, h', hc, hs⟩ := CalculateMifVertex_total hwf (!bdd.vertices[rid].mark) fuel
      bdd.vertices (.ite rid) (sameShape_refl _) (by omega)
      (fun id hid => by
        injection hid with hid
        subst hid
        exact ⟨hlt, hfuel⟩)
    refine ⟨d, { bdd with vertices := ClearMarks h' bdd.vertices[rid].mark }, ?_,
      sameShape_trans (SameShape_ClearMarks h' _) hs, ?_, ?_⟩
    · simp only [ImportanceAnalyzerBdd.CalculateMif, hr, hroot', hio, hc]
    · intro rid' root hid hroot'' a ha
      injection hid with hid
      subst hid
      rw [hroot'] at hroot''
      rw [← Option.some.inj hroot'']
      exact mark_ClearMarks h' _ a ha
    · intro b hb
      simp at hb

/-- Witness of C19: the BDD of `M OR M` with the module `M = A AND B`,
variable `A`. -/
theorem C19_marks_restored_witness :
    ∃ N, ∀ fuel, N ≤ fuel → ∃ mif bdd',
      ImportanceAnalyzerBdd.CalculateMif fuel (moduleBdd (1 / 2) (1 / 5) false)
          [0, 1 / 2, 1 / 5] 1 = some (mif, bdd')
      ∧ SameShape bdd'.vertices (moduleBdd (1 / 2) (1 / 5) false).vertices
      ∧ (∀ rid root, (moduleBdd (1 / 2) (1 / 5) false).root.vertex = .ite rid →
          (moduleBdd (1 / 2) (1 / 5) false).vertices[rid]? = some root →
          ∀ a ∈ bdd'.vertices, a.mark = root.mark)
      ∧ (∀ b, (moduleBdd (1 / 2) (1 / 5) false).root.vertex = .terminal b →
          mif = 0 ∧ bdd' = moduleBdd (1 / 2) (1 / 5) false) :=
  C19_marks_restored (moduleBdd (1 / 2) (1 / 5) false) [0, 1 / 2, 1 / 5] 1 1
    (fun id => 2 - id) (moduleBdd_wellFormedDag _ _ _)
    (fun id hid => by
      simp only [moduleBdd, VertexPtr.ite.injEq] at hid
      subst hid
      simp [moduleBdd])
    rfl

/-! ## Claim C21: when `Sample` resets the distributions -/

/-- The method `Reset()` of an observed event. -/
theorem recorded_Reset {σ : Type} (index : Int) (event : BasicEvent σ)
    (s : σ × List DistributionCall) :
    (recorded index event).Reset s = (event.Reset s.1, s.2 ++ [.reset index]) := rfl

/-- The method `SampleProbability()` of an observed event. -/
theorem recorded_SampleProbability {σ : Type} (index : Int) (event : BasicEvent σ)
    (s : σ × List DistributionCall) :
    (recorded index event).SampleProbability s
      = ((event.SampleProbability s.1).1,
          ((event.SampleProbability s.1).2, s.2 ++ [.sample index])) := rfl

/-- The nominal probability of an observed event. -/
theorem recorded_p {σ : Type} (index : Int) (event : BasicEvent σ) :
    (recorded index event).p = event.p := rfl

/-- Observing the events does not change the reset loop; it records one
`Reset()` per event, in the order of the events. -/
theorem resetEvents_recordCalls {σ : Type} (ue : List (Int × BasicEvent σ)) :
    ∀ (st : σ) (calls : List DistributionCall),
      resetEvents (recordCalls ue) (st, calls)
        = (resetEvents ue st, calls ++ ue.map (fun event => .reset event.1)) := by
  induction ue with
  | nil => intro st calls; simp [recordCalls, resetEvents]
  | cons e es ih =>
    intro st calls
    have := ih (e.2.Reset st) (calls ++ [.reset e.1])
    simp only [recordCalls] at this
    simp only [recordCalls, List.map_cons, resetEvents, recorded_Reset, this]
    simp

/-- Observing the events does not change the sampling loop; it records one
`SampleProbability()` per event, in the order of the events. -/
theorem sampleEvents_recordCalls {σ : Type} (ue : List (Int × BasicEvent σ)) :
    ∀ (vp : VarProbs) (st : σ) (calls : List DistributionCall),
      sampleEvents (recordCalls ue) vp (st, calls)
        = (sampleEvents ue vp st).map
            (fun r => (r.1, (r.2, calls ++ ue.map (fun event => .sample event.1)))) := by
  induction ue with
  | nil => intro vp st calls; simp [recordCalls, sampleEvents]
  | cons e es ih =>
    intro vp st calls
    simp only [recordCalls, List.map_cons, sampleEvents, recorded_SampleProbability]
    cases hset : vecSet vp e.1
        (if (e.2.SampleProbability st).1 < 0 then 0
          else if (e.2.SampleProbability st).1 > 1 then 1
          else (e.2.SampleProbability st).1) with
    | none => simp
    | some vp1 =>
      have := ih vp1 (e.2.SampleProbability st).2 (calls ++ [.sample e.1])
      simp only [recordCalls] at this
      simp only [this]
      simp

/-- Observing the events does not change the cleanup loop, which calls no
distribution. -/
theorem cleanup_recordCalls {σ : Type} (ue : List (Int × BasicEvent σ)) :
    ∀ vp : VarProbs, cleanup (recordCalls ue) vp = cleanup ue vp := by
  induction ue with
  | nil => intro vp; simp [recordCalls, cleanup]
  | cons e es ih =>
    intro vp
    simp only [recordCalls, List.map_cons, cleanup, recorded_p]
    cases vecSet vp e.1 e.2.p with
    | none => rfl
    | some vp1 =>
      have := ih vp1
      simp only [recordCalls] at this
      exact this

/-- Observing the events does not change the trial loop; every trial records
the calls `trialCalls`. -/
theorem trialLoop_recordCalls {σ : Type} (ctp : VarProbs → ℚ)
    (ue : List (Int × BasicEvent σ)) :
    ∀ (n : Nat) (samples : List ℚ) (vp : VarProbs) (st : σ) (calls : List DistributionCall),
      trialLoop ctp (recordCalls ue) n samples vp (st, calls)
        = (trialLoop ctp ue n samples vp st).map
            (fun r => (r.1, r.2.1,
              (r.2.2, calls ++ (List.replicate n (trialCalls ue)).flatten))) := by
  intro n
  induction n with
  | zero => intro samples vp st calls; simp [trialLoop]
  | succ n ih =>
    intro samples vp st calls
    simp only [trialLoop, resetEvents_recordCalls, sampleEvents_recordCalls]
    cases hs : sampleEvents ue vp (resetEvents ue st) with
    | none => simp
    | some r =>
      obtain ⟨vp1, st2⟩ := r
      simp only [Option.map_some']
      by_cases hneg : ctp vp1 < 0
      · simp [hneg]
      · simp only [hneg, if_false, ih]
        simp [trialCalls, List.replicate_succ]
/-- C21, as stated, fails: with one uncertain event at index 1 and two trials,
`Sample` calls `Reset()`, `SampleProbability()`, `Reset()`,
`SampleProbability()` on its distribution, so the distribution is reset twice,
the second time after the first trial; with no trial at all it is never reset.
Resetting once before the first trial would give the calls of
`resetOnceCalls`. -/
theorem C21_counterexample :
    UncertaintyAnalyzer.Sample calcSlot1 (recordCalls [((1 : Int), rampEvent)]) 2 [0, 1 / 2]
        (0, []) = some ([0, 0], [0, 1 / 10], (2, [.reset 1, .sample 1, .reset 1, .sample 1]))
      ∧ resetOnceCalls [((1 : Int), rampEvent)] 2 = [.reset 1, .sample 1, .sample 1]
      ∧ ([.reset 1, .sample 1, .reset 1, .sample 1] : List DistributionCall)
          ≠ resetOnceCalls [((1 : Int), rampEvent)] 2
      ∧ UncertaintyAnalyzer.Sample calcSlot1 (recordCalls [((1 : Int), rampEvent)]) 0 [0, 1 / 2]
          (0, []) = some ([], [0, 1 / 10], (0, []))
      ∧ resetOnceCalls [((1 : Int), rampEvent)] 0 = [.reset 1] := by
  refine ⟨?_, ?_, ?_, ?_, ?_⟩
  · norm_num [UncertaintyAnalyzer.Sample, UncertaintyAnalyzer.trialLoop,
      UncertaintyAnalyzer.sampleEvents, UncertaintyAnalyzer.resetEvents,
      UncertaintyAnalyzer.cleanup, vecSet, rampEvent, calcSlot1, recordCalls, recorded]
  · simp [resetOnceCalls, List.replicate]
  · simp [resetOnceCalls, List.replicate]
  · norm_num [UncertaintyAnalyzer.Sample, UncertaintyAnalyzer.trialLoop,
      UncertaintyAnalyzer.cleanup, vecSet, rampEvent, recordCalls, recorded]
  · simp [resetOnceCalls]

/-- C21 (amended): for every set of uncertain events with valid indices, every
`num_trials` and every calculator with non-negative results, `Sample` returns,
observing the events changes neither the samples nor the probability vector
nor the random state it leaves, and the calls it makes on the distributions
are, for each of the `num_trials` trials in turn, one `Reset()` of every
uncertain event followed by one `SampleProbability()` of every uncertain event:
the distributions are reset at the start of every trial, and never when
there is no trial. -/
theorem C21_reset_every_trial {σ : Type} (ctp : VarProbs → ℚ)
    (ue : List (Int × BasicEvent σ)) (n : Int) (vp : VarProbs) (st : σ)
    (calls : List DistributionCall)
    (hnn : ∀ v, 0 ≤ ctp v) (hv : ValidEvents ue vp.length) :
    ∃ samples vp' st', UncertaintyAnalyzer.Sample ctp ue n vp st = some (samples, vp', st')
      ∧ UncertaintyAnalyzer.Sample ctp (recordCalls ue) n vp (st, calls)
          = some (samples, vp', (st',
              calls ++ (List.replicate n.toNat
                (ue.map (fun event => DistributionCall.reset event.1)
                  ++ ue.map (fun event => DistributionCall.sample event.1))).flatten)) := by
  obtain ⟨samples, vp', st', hs, -⟩ := Sample_spec ctp ue hnn n vp st hv
  refine ⟨samples, vp', st', hs, ?_⟩
  unfold UncertaintyAnalyzer.Sample at hs ⊢
  rw [trialLoop_recordCalls]
  cases htl : trialLoop ctp ue n.toNat [] vp st with
  | none => simp [htl] at hs
  | some r =>
    obtain ⟨samples1, vp1, st1⟩ := r
    simp only [htl] at hs
    simp only [Option.map_some', cleanup_recordCalls]
    cases hcl : cleanup ue vp1 with
    | none => simp [hcl] at hs
    | some vp2 =>
      simp only [hcl, Option.some.injEq, Prod.mk.injEq] at hs
      obtain ⟨rfl, rfl, rfl⟩ := hs
      rfl

/-- Witness of the amended C21: one uncertain event at index 1, two trials. -/
theorem C21_reset_every_trial_witness :
    ∃ samples vp' st',
      UncertaintyAnalyzer.Sample calcSlot1 [((1 : Int), rampEvent)] 2 [0, 1 / 2] 0
        = some (samples, vp', st')
      ∧ UncertaintyAnalyzer.Sample calcSlot1 (recordCalls [((1 : Int), rampEvent)]) 2
          [0, 1 / 2] (0, [])
          = some (samples, vp', (st',
              [] ++ (List.replicate (2 : Int).toNat
                (([((1 : Int), rampEvent)]).map (fun event => DistributionCall.reset event.1)
                  ++ ([((1 : Int), rampEvent)]).map
                      (fun event => DistributionCall.sample event.1))).flatten)) :=
  C21_reset_every_trial calcSlot1 [((1 : Int), rampEvent)] 2 [0, 1 / 2] 0 []
    (fun v => abs_nonneg _) (by simp [ValidEvents])

/-! ## Claim C22: what BDD-mode `CalculateMif(index)` writes -/

/-- Stores of the same shape have the same number of vertices. -/
theorem sameShape_length {h h' : List Ite} (hs : SameShape h h') : h.length = h'.length := by
  rcases Nat.lt_trichotomy h.length h'.length with hlt | heq | hgt
  · have := hs h.length
    rw [List.getElem?_eq_none (le_refl _), List.getElem?_eq_getElem hlt] at this
    simp at this
  · exact heq
  · have := hs h'.length
    rw [List.getElem?_eq_none (le_refl _), List.getElem?_eq_getElem hgt] at this
    simp at this

/-- Whenever `CalculateMif(index)` returns, the BDD it leaves has the root, the
tables and the shape of the BDD it was given. -/
theorem CalculateMif_sameShape {fuel : Nat} {bdd bdd' : Bdd} {vp : VarProbs} {index : Int}
    {mif : ℚ} (hc : ImportanceAnalyzerBdd.CalculateMif fuel bdd vp index = some (mif, bdd')) :
    bdd'.root = bdd.root ∧ bdd'.gates = bdd.gates
      ∧ bdd'.index_to_order = bdd.index_to_order
      ∧ SameShape bdd'.vertices bdd.vertices := by
  unfold ImportanceAnalyzerBdd.CalculateMif at hc
  cases hr : bdd.root.vertex with
  | terminal b =>
    simp only [hr, Option.some.injEq, Prod.mk.injEq] at hc
    rw [← hc.2]
    exact ⟨rfl, rfl, rfl, sameShape_refl _⟩
  | ite rid =>
    simp only [hr] at hc
    cases hroot : bdd.vertices[rid]? with
    | none => simp [hroot] at hc
    | some root =>
      simp only [hroot] at hc
      cases hio : bdd.index_to_order.lookup index with
      | none => simp [hio] at hc
      | some order =>
        simp only [hio] at hc
        cases hv : CalculateMifVertex bdd.gates vp order (!root.mark) fuel bdd.vertices
            (.ite rid) with
        | none => simp [hv] at hc
        | some r =>
          obtain ⟨d, vs⟩ := r
          simp only [hv, Option.some.injEq, Prod.mk.injEq] at hc
          rw [← hc.2]
          exact ⟨rfl, rfl, rfl, sameShape_trans (SameShape_ClearMarks vs root.mark)
            (CalculateMifVertex_sameShape _ _ _ _ _ hv)⟩
/-- C22: whenever BDD-mode `CalculateMif(index)` returns, it has written only
`mark` and `factor` fields of `Ite` vertices: the root function, the tables
`gates` and `index_to_order` and the number of vertices are unchanged, and
every vertex keeps its `prob`, `index`, `order`, `high`, `low`,
`complement_edge` and `module` fields; and on a well-formed BDD the call
returns for all large enough fuel. The vector `var_probs` is only read by the
source (line 312), so the embedding takes it as an argument and returns no
vector: it is the same after the call. -/
theorem C22_writes_only_scratch (bdd : Bdd) (vp : VarProbs) (index : Int) :
    (∀ fuel mif bdd', ImportanceAnalyzerBdd.CalculateMif fuel bdd vp index = some (mif, bdd') →
        bdd'.root = bdd.root ∧ bdd'.gates = bdd.gates
        ∧ bdd'.index_to_order = bdd.index_to_order
        ∧ bdd'.vertices.length = bdd.vertices.length
        ∧ ∀ (id : Nat) (a : Ite), bdd.vertices[id]? = some a →
            ∃ a' : Ite, bdd'.vertices[id]? = some a'
            ∧ a'.prob = a.prob ∧ a'.index = a.index ∧ a'.order = a.order
            ∧ a'.high = a.high ∧ a'.low = a.low
            ∧ a'.complement_edge = a.complement_edge ∧ a'.module = a.module)
      ∧ (∀ (order : Int) (ht : Nat → Nat), bdd.index_to_order.lookup index = some order →
          WellFormedDag bdd.gates vp order bdd.vertices ht →
          (∀ id, bdd.root.vertex = .ite id → id < bdd.vertices.length) →
          ∃ N, ∀ fuel, N ≤ fuel →
            ∃ mif bdd', ImportanceAnalyzerBdd.CalculateMif fuel bdd vp index
              = some (mif, bdd')) := by
  constructor
  · intro fuel mif bdd' hc
    obtain ⟨h1, h2, h3, hs⟩ := CalculateMif_sameShape hc
    refine ⟨h1, h2, h3, sameShape_length hs, fun id a ha => ?_⟩
    obtain ⟨a', ha', hshape⟩ := sameShape_get (sameShape_symm hs) ha
    obtain ⟨hidx, hord, hhi, hlo, hce, hmod, hprob⟩ := shape_fields hshape
    exact ⟨a', ha', hprob.symm, hidx.symm, hord.symm, hhi.symm, hlo.symm, hce.symm,
      hmod.symm⟩
  · intro order ht hio hwf hroot
    cases hr : bdd.root.vertex with
    | terminal b =>
      exact ⟨0, fun fuel _ => ⟨0, bdd, by simp only [ImportanceAnalyzerBdd.CalculateMif, hr]⟩⟩
    | ite rid =>
      have hlt := hroot rid hr
      have hroot' : bdd.vertices[rid]? = some bdd.vertices[rid] :=
        List.getElem?_eq_getElem hlt
      refine ⟨ht rid + 2, fun fuel hfuel => ?_⟩
      obtain ⟨d, h', hc, -⟩ := CalculateMifVertex_total hwf (!bdd.vertices[rid].mark) fuel
        bdd.vertices (.ite rid) (sameShape_refl _) (by omega)
        (fun id hid => by
          injection hid with hid
          subst hid
          exact ⟨hlt, hfuel⟩)
      exact ⟨d, { bdd with vertices := ClearMarks h' bdd.vertices[rid].mark },
        by simp only [ImportanceAnalyzerBdd.CalculateMif, hr, hroot', hio, hc]⟩

/-- Witness of C22: the BDD of `M OR M` with the module `M = A AND B`, variable
`A`: the call returns for all large enough fuel and leaves every field but
`mark` and `factor` as it was. -/
theorem C22_writes_only_scratch_witness :
    ∃ N, ∀ fuel, N ≤ fuel → ∃ mif bdd',
      ImportanceAnalyzerBdd.CalculateMif fuel (moduleBdd (1 / 2) (1 / 5) false)
          [0, 1 / 2, 1 / 5] 1 = some (mif, bdd')
      ∧ bdd'.root = (moduleBdd (1 / 2) (1 / 5) false).root
      ∧ bdd'.gates = (moduleBdd (1 / 2) (1 / 5) false).gates
      ∧ bdd'.index_to_order = (moduleBdd (1 / 2) (1 / 5) false).index_to_order
      ∧ bdd'.vertices.length = (moduleBdd (1 / 2) (1 / 5) false).vertices.length
      ∧ ∀ (id : Nat) (a : Ite), (moduleBdd (1 / 2) (1 / 5) false).vertices[id]? = some a →
          ∃ a' : Ite, bdd'.vertices[id]? = some a'
            ∧ a'.prob = a.prob ∧ a'.index = a.index ∧ a'.order = a.order
            ∧ a'.high = a.high ∧ a'.low = a.low
            ∧ a'.complement_edge = a.complement_edge ∧ a'.module = a.module := by
  obtain ⟨N, hN⟩ := (C22_writes_only_scratch (moduleBdd (1 / 2) (1 / 5) false)
    [0, 1 / 2, 1 / 5] 1).2 1 (fun id => 2 - id) rfl (moduleBdd_wellFormedDag _ _ _)
    (fun id hid => by
      simp only [moduleBdd, VertexPtr.ite.injEq] at hid
      subst hid
      simp [moduleBdd])
  refine ⟨N, fun fuel hfuel => ?_⟩
  obtain ⟨mif, bdd', hc⟩ := hN fuel hfuel
  exact ⟨mif, bdd', hc, (C22_writes_only_scratch (moduleBdd (1 / 2) (1 / 5) false)
    [0, 1 / 2, 1 / 5] 1).1 fuel mif bdd' hc⟩

/-! ## Claim C23: no vertex of the query order -/

/-- When no reachable vertex has the query order, every factor the unmemoised
recursion yields for a reachable vertex is 0. -/
theorem MifUnmemoised_zero {gates : List (Int × Bdd.Function)} {vp : VarProbs} {order : Int}
    {vs : List Ite} {root : VertexPtr}
    (hno : ∀ (id : Nat) (a : Ite), Reachable gates vs root id → vs[id]? = some a →
      a.order ≠ order) :
    ∀ (n : Nat) (v : VertexPtr) (d : ℚ), (∀ id, v = .ite id → Reachable gates vs root id) →
      MifUnmemoised gates vp order vs n v = some d → d = 0 := by
  intro n
  induction n with
  | zero => intro v d _ hu; simp [MifUnmemoised] at hu
  | succ n ih =>
    intro v d hv hu
    cases v with
    | terminal b =>
      simp only [MifUnmemoised, Option.some.injEq] at hu
      exact hu.symm
    | ite id =>
      have hreach := hv id rfl
      obtain ⟨a, ha, hb⟩ := MifUnmemoised_ite_some.mp hu
      rcases hb with ⟨-, -, rfl⟩ | ⟨-, hmod, diff, res, mif, -, hg, hr, rfl⟩ | ⟨heq, -, -⟩
        | ⟨-, pv, hi, lo, -, hhi, hlo, rfl⟩
      · rfl
      · have := ih res.vertex mif (fun c hc => Reachable.gate hreach ha hmod hg hc) hr
        subst this
        simp
      · exact absurd heq (hno id a hreach ha)
      · have h1 := ih a.high hi (fun c hc => Reachable.high hreach ha hc) hhi
        have h2 := ih a.low lo (fun c hc => Reachable.low hreach ha hc) hlo
        subst h1 h2
        simp

/-- On a well-formed BDD with uniform marks the mark-flipping traversal from
the root returns, for all large enough fuel, the factor the unmemoised
recursion yields for the root. -/
theorem CalculateMifVertex_root (bdd : Bdd) (vp : VarProbs) (order : Int) (m : Bool)
    (ht : Nat → Nat) (hwf : WellFormedDag bdd.gates vp order bdd.vertices ht)
    (hroot : ∀ id, bdd.root.vertex = .ite id → id < bdd.vertices.length)
    (hum : UniformMarks bdd m) :
    ∃ N, ∀ fuel, N ≤ fuel → ∃ d h',
      MifUnmemoised bdd.gates vp order bdd.vertices fuel bdd.root.vertex = some d
      ∧ CalculateMifVertex bdd.gates vp order (!m) fuel bdd.vertices bdd.root.vertex
          = some (d, h') := by
  have hN : ∃ N k, 1 ≤ N
      ∧ (∀ id, bdd.root.vertex = .ite id → id < bdd.vertices.length ∧ ht id + 2 ≤ N)
      ∧ (∀ id, bdd.root.vertex = .ite id → k ≤ -(ht id : Int)) := by
    cases hr : bdd.root.vertex with
    | terminal b =>
      exact ⟨1, 0, le_refl _, fun id hid => by simp at hid, fun id hid => by simp at hid⟩
    | ite rid =>
      refine ⟨ht rid + 2, -(ht rid : Int), by omega, fun id hid => ?_, fun id hid => ?_⟩
      · injection hid with hid
        subst hid
        exact ⟨hroot _ hr, le_refl _⟩
      · injection hid with hid
        subst hid
        exact le_refl _
  obtain ⟨N, k, hN1, hNv, hk⟩ := hN
  refine ⟨N, fun fuel hfuel => ?_⟩
  obtain ⟨d, hd⟩ := MifUnmemoised_total hwf fuel bdd.root.vertex (by omega)
    (fun id hid => ⟨(hNv id hid).1, by have := (hNv id hid).2; omega⟩)
  have hinit : MemoInv bdd.gates vp order (!m) bdd.vertices (fun id => -(ht id : Int)) k
      bdd.vertices := by
    intro id a ha _ hmk
    rw [hum a (List.getElem?_mem ha)] at hmk
    cases m <;> simp at hmk
  obtain ⟨h', hc, -⟩ := CalculateMifVertex_refines bdd.gates vp order (!m)
    bdd.vertices (fun id => -(ht id : Int)) (LevelIncreasing_of_wellFormedDag hwf) fuel
    bdd.vertices bdd.root.vertex d k (sameShape_refl _) hd hk hinit
  exact ⟨d, h', hd, hc⟩
/-- C23: for every well-formed BDD whose `Ite` marks all equal `m` on entry, if
no `Ite` vertex reachable from the root (through high and low edges or through
module Functions in `gates`) has its order equal to the query order, then for
all large enough fuel the traversal `CalculateMif(root, order, !m)` returns
exactly 0, and so does `CalculateMif(index)` for every index of that order,
whatever the `prob` fields and `var_probs` contain. -/
theorem C23_zero_without_query_vertex (bdd : Bdd) (vp : VarProbs) (order : Int) (m : Bool)
    (ht : Nat → Nat) (hwf : WellFormedDag bdd.gates vp order bdd.vertices ht)
    (hroot : ∀ id, bdd.root.vertex = .ite id → id < bdd.vertices.length)
    (hum : UniformMarks bdd m)
    (hno : ∀ (id : Nat) (a : Ite), Reachable bdd.gates bdd.vertices bdd.root.vertex id →
      bdd.vertices[id]? = some a → a.order ≠ order) :
    ∃ N, ∀ fuel, N ≤ fuel →
      (∃ h', CalculateMifVertex bdd.gates vp order (!m) fuel bdd.vertices bdd.root.vertex
          = some (0, h'))
      ∧ ∀ index : Int, bdd.index_to_order.lookup index = some order →
          ∃ bdd', ImportanceAnalyzerBdd.CalculateMif fuel bdd vp index = some (0, bdd') := by
  obtain ⟨N, hN⟩ := CalculateMifVertex_root bdd vp order m ht hwf hroot hum
  refine ⟨N, fun fuel hfuel => ?_⟩
  obtain ⟨d, h', hd, hc⟩ := hN fuel hfuel
  have hd0 : d = 0 := MifUnmemoised_zero hno fuel bdd.root.vertex d
    (fun id hid => Reachable.start hid) hd
  subst hd0
  refine ⟨⟨h', hc⟩, fun index hio => ?_⟩
  cases hr : bdd.root.vertex with
  | terminal b => exact ⟨bdd, by simp only [ImportanceAnalyzerBdd.CalculateMif, hr]⟩
  | ite rid =>
    have hlt := hroot rid hr
    have hroot' : bdd.vertices[rid]? = some bdd.vertices[rid] := List.getElem?_eq_getElem hlt
    have hmark : bdd.vertices[rid].mark = m := hum _ (List.getElem?_mem hroot')
    rw [hr, ← hmark] at hc
    exact ⟨{ bdd with vertices := ClearMarks h' bdd.vertices[rid].mark },
      by simp only [ImportanceAnalyzerBdd.CalculateMif, hr, hroot', hio, hc]⟩

/-- The store of `spareVertexBdd` is well-formed for the query order of `C`. -/
theorem spareVertexBdd_wellFormedDag (m : Bool) :
    WellFormedDag (spareVertexBdd m).gates [0, 1 / 2, 1 / 5, 0, 1 / 2] 0
      (spareVertexBdd m).vertices (fun id => 2 - id) where
  children := by
    intro id a ha c hc
    match id with
    | 0 =>
      simp only [spareVertexBdd, List.getElem?_cons_zero, Option.some.injEq] at ha
      subst ha
      simp at hc
    | 1 =>
      simp only [spareVertexBdd, List.getElem?_cons_succ, List.getElem?_cons_zero,
        Option.some.injEq] at ha
      subst ha
      simp only [VertexPtr.ite.injEq, reduceCtorEq, or_false] at hc
      subst hc
      simp [spareVertexBdd]
    | 2 =>
      simp only [spareVertexBdd, List.getElem?_cons_succ, List.getElem?_cons_zero,
        Option.some.injEq] at ha
      subst ha
      simp at hc
    | 3 =>
      simp only [spareVertexBdd, List.getElem?_cons_succ, List.getElem?_cons_zero,
        Option.some.injEq] at ha
      subst ha
      simp at hc
    | k + 4 => simp [spareVertexBdd] at ha
  modules := by
    intro id a ha hmod
    match id with
    | 0 =>
      simp only [spareVertexBdd, List.getElem?_cons_zero, Option.some.injEq] at ha
      subst ha
      refine ⟨⟨false, .ite 1⟩, by simp [spareVertexBdd, List.lookup], ?_⟩
      intro c hc
      simp only [VertexPtr.ite.injEq] at hc
      subst hc
      simp [spareVertexBdd]
    | 1 =>
      simp only [spareVertexBdd, List.getElem?_cons_succ, List.getElem?_cons_zero,
        Option.some.injEq] at ha
      subst ha
      simp at hmod
    | 2 =>
      simp only [spareVertexBdd, List.getElem?_cons_succ, List.getElem?_cons_zero,
        Option.some.injEq] at ha
      subst ha
      simp at hmod
    | 3 =>
      simp only [spareVertexBdd, List.getElem?_cons_succ, List.getElem?_cons_zero,
        Option.some.injEq] at ha
      subst ha
      simp at hmod
    | k + 4 => simp [spareVertexBdd] at ha
  variable_slots := by
    intro a ha hmod
    simp only [spareVertexBdd, List.mem_cons, List.mem_singleton, List.not_mem_nil,
      or_false] at ha
    rcases ha with rfl | rfl | rfl | rfl
    · simp at hmod
    · exact ⟨1 / 2, by simp [vecGet]⟩
    · exact ⟨1 / 5, by simp [vecGet]⟩
    · exact ⟨1 / 2, by simp [vecGet]⟩
  query_is_variable := by
    intro a ha ho
    simp only [spareVertexBdd, List.mem_cons, List.mem_singleton, List.not_mem_nil,
      or_false] at ha
    rcases ha with rfl | rfl | rfl | rfl
    · simp at ho
    · rfl
    · rfl
    · rfl

/-- The vertex of `C` is not reachable in `spareVertexBdd`: the reachable
vertices are those of `M`, `A` and `B`. -/
theorem spareVertexBdd_reachable (m : Bool) (id : Nat)
    (h : Reachable (spareVertexBdd m).gates (spareVertexBdd m).vertices
      (spareVertexBdd m).root.vertex id) : id < 3 := by
  induction h with
  | start h0 =>
    simp only [spareVertexBdd, VertexPtr.ite.injEq] at h0
    omega
  | @high id c a _ ha hh ih =>
    match id, ih with
    | 0, _ => simp [spareVertexBdd] at ha; subst ha; simp at hh
    | 1, _ => simp [spareVertexBdd] at ha; subst ha; simp at hh; omega
    | 2, _ => simp [spareVertexBdd] at ha; subst ha; simp at hh
  | @low id c a _ ha hl ih =>
    match id, ih with
    | 0, _ => simp [spareVertexBdd] at ha; subst ha; simp at hl
    | 1, _ => simp [spareVertexBdd] at ha; subst ha; simp at hl
    | 2, _ => simp [spareVertexBdd] at ha; subst ha; simp at hl
  | @gate id c a res _ ha hmod hg hc ih =>
    match id, ih with
    | 0, _ =>
      simp [spareVertexBdd] at ha; subst ha
      simp [spareVertexBdd, List.lookup] at hg
      subst hg
      simp at hc
      omega
    | 1, _ => simp [spareVertexBdd] at ha; subst ha; simp at hmod
    | 2, _ => simp [spareVertexBdd] at ha; subst ha; simp at hmod

/-- Witness of C23: in `spareVertexBdd` the only vertex of the query order, the
one of `C`, is not reachable; the traversal for `C` returns 0 through the
module branch of the root. -/
theorem C23_zero_without_query_vertex_witness :
    ∃ N, ∀ fuel, N ≤ fuel →
      (∃ h', CalculateMifVertex (spareVertexBdd false).gates [0, 1 / 2, 1 / 5, 0, 1 / 2] 0
          (!false) fuel (spareVertexBdd false).vertices (spareVertexBdd false).root.vertex
          = some (0, h'))
      ∧ ∀ index : Int, (spareVertexBdd false).index_to_order.lookup index = some 0 →
          ∃ bdd', ImportanceAnalyzerBdd.CalculateMif fuel (spareVertexBdd false)
            [0, 1 / 2, 1 / 5, 0, 1 / 2] index = some (0, bdd') :=
  C23_zero_without_query_vertex (spareVertexBdd false) [0, 1 / 2, 1 / 5, 0, 1 / 2] 0 false
    (fun id => 2 - id) (spareVertexBdd_wellFormedDag false)
    (fun id hid => by
      simp only [spareVertexBdd, VertexPtr.ite.injEq] at hid
      subst hid
      simp [spareVertexBdd])
    (by simp [UniformMarks, spareVertexBdd])
    (fun id a hreach ha => by
      have hlt := spareVertexBdd_reachable false id hreach
      match id, hlt with
      | 0, _ => simp [spareVertexBdd] at ha; subst ha; simp
      | 1, _ => simp [spareVertexBdd] at ha; subst ha; simp
      | 2, _ => simp [spareVertexBdd] at ha; subst ha; simp)

/-! ## Claim C13: the values of `GetBoolFromString` -/

/-- C13, evaluated on the string `"yes"`: control leaves `GetBoolFromString`
without reaching a `return` statement, so the call has no defined value and
may hand `false` to its caller although `"yes"` is neither `"0"` nor `"false"`:
`false` is not returned for exactly these two strings, and `SetAnalysis` may
store `false` in the flag `probability` for the value `"yes"`. The four
strings `"1"`, `"true"`, `"0"` and `"false"` do reach their `return`. -/
theorem C13_false_beyond_zero_and_false :
    Config.GetBoolFromString "yes" = .undefined
      ∧ (Config.GetBoolFromString "yes").mayReturn false
      ∧ ¬ ("yes" = "0" ∨ "yes" = "false")
      ∧ ¬ (∀ flag : String, (Config.GetBoolFromString flag).mayReturn false ↔
            (flag = "0" ∨ flag = "false"))
      ∧ (∀ s : Settings,
          (Config.SetAnalysis (.mk "analysis" [("probability", "yes")] none []) s).mayReturn
            (Config.storeFlag s "probability" false))
      ∧ Config.GetBoolFromString "1" = .value true
      ∧ Config.GetBoolFromString "true" = .value true
      ∧ Config.GetBoolFromString "0" = .value false
      ∧ Config.GetBoolFromString "false" = .value false := by
  have h : Config.GetBoolFromString "yes" = .undefined := by decide
  have hm : (Config.GetBoolFromString "yes").mayReturn false := by
    rw [h]
    exact True.intro
  refine ⟨h, hm, by decide, fun hall => ?_, fun s => ?_, by decide, by decide, by decide,
    by decide⟩
  · exact absurd ((hall "yes").mp hm) (by decide)
  · simp only [Config.SetAnalysis, Element.get_attributes, Config.setAnalysisLoop, h]
    exact True.intro
/-! ## Claims C16 and C17: the factor stored in the module and Shannon branches -/

/-- The BDD of `M AND C` has a well-formed store for every query order but the
order of its module. -/
theorem moduleAndBdd_wellFormedDag (pA pB pC : ℚ) (m : Bool) (order : Int) (ho : order ≠ 3) :
    WellFormedDag (moduleAndBdd pA pB pC m).gates [0, pA, pB, 0, pC] order
      (moduleAndBdd pA pB pC m).vertices (fun id => 2 - id) where
  children := by
    intro id a ha c hc
    match id with
    | 0 =>
      simp only [moduleAndBdd, List.getElem?_cons_zero, Option.some.injEq] at ha
      subst ha
      simp only [VertexPtr.ite.injEq, reduceCtorEq, or_false] at hc
      subst hc
      simp [moduleAndBdd]
    | 1 =>
      simp only [moduleAndBdd, List.getElem?_cons_succ, List.getElem?_cons_zero,
        Option.some.injEq] at ha
      subst ha
      simp only [VertexPtr.ite.injEq, reduceCtorEq, or_false] at hc
      subst hc
      simp [moduleAndBdd]
    | 2 =>
      simp only [moduleAndBdd, List.getElem?_cons_succ, List.getElem?_cons_zero,
        Option.some.injEq] at ha
      subst ha
      simp at hc
    | 3 =>
      simp only [moduleAndBdd, List.getElem?_cons_succ, List.getElem?_cons_zero,
        Option.some.injEq] at ha
      subst ha
      simp at hc
    | k + 4 => simp [moduleAndBdd] at ha
  modules := by
    intro id a ha hmod
    match id with
    | 0 =>
      simp only [moduleAndBdd, List.getElem?_cons_zero, Option.some.injEq] at ha
      subst ha
      refine ⟨⟨false, .ite 1⟩, by simp [moduleAndBdd, List.lookup], ?_⟩
      intro c hc
      simp only [VertexPtr.ite.injEq] at hc
      subst hc
      simp [moduleAndBdd]
    | 1 =>
      simp only [moduleAndBdd, List.getElem?_cons_succ, List.getElem?_cons_zero,
        Option.some.injEq] at ha
      subst ha
      simp at hmod
    | 2 =>
      simp only [moduleAndBdd, List.getElem?_cons_succ, List.getElem?_cons_zero,
        Option.some.injEq] at ha
      subst ha
      simp at hmod
    | 3 =>
      simp only [moduleAndBdd, List.getElem?_cons_succ, List.getElem?_cons_zero,
        Option.some.injEq] at ha
      subst ha
      simp at hmod
    | k + 4 => simp [moduleAndBdd] at ha
  variable_slots := by
    intro a ha hmod
    simp only [moduleAndBdd, List.mem_cons, List.mem_singleton, List.not_mem_nil,
      or_false] at ha
    rcases ha with rfl | rfl | rfl | rfl
    · simp at hmod
    · exact ⟨pA, by simp [vecGet]⟩
    · exact ⟨pB, by simp [vecGet]⟩
    · exact ⟨pC, by simp [vecGet]⟩
  query_is_variable := by
    intro a ha hq
    simp only [moduleAndBdd, List.mem_cons, List.mem_singleton, List.not_mem_nil,
      or_false] at ha
    rcases ha with rfl | rfl | rfl | rfl
    · exact absurd hq.symm ho
    · rfl
    · rfl
    · rfl

/-- The BDD of `A OR B` has a well-formed store for every query order. -/
theorem orBdd_wellFormedDag (pA pB : ℚ) (m : Bool) (order : Int) :
    WellFormedDag (orBdd pA pB m).gates [0, pA, pB] order (orBdd pA pB m).vertices
      (fun id => 1 - id) where
  children := by
    intro id a ha c hc
    match id with
    | 0 =>
      simp only [orBdd, List.getElem?_cons_zero, Option.some.injEq] at ha
      subst ha
      simp only [VertexPtr.ite.injEq, reduceCtorEq, false_or] at hc
      subst hc
      simp [orBdd]
    | 1 =>
      simp only [orBdd, List.getElem?_cons_succ, List.getElem?_cons_zero,
        Option.some.injEq] at ha
      subst ha
      simp at hc
    | k + 2 => simp [orBdd] at ha
  modules := by
    intro id a ha hmod
    have hmem := List.getElem?_mem ha
    simp only [orBdd, List.mem_cons, List.mem_singleton, List.not_mem_nil, or_false] at hmem
    rcases hmem with rfl | rfl <;> simp at hmod
  variable_slots := by
    intro a ha _
    simp only [orBdd, List.mem_cons, List.mem_singleton, List.not_mem_nil, or_false] at ha
    rcases ha with rfl | rfl
    · exact ⟨pA, by simp [vecGet]⟩
    · exact ⟨pB, by simp [vecGet]⟩
  query_is_variable := by
    intro a ha _
    simp only [orBdd, List.mem_cons, List.mem_singleton, List.not_mem_nil, or_false] at ha
    rcases ha with rfl | rfl <;> rfl

/-- C16 (amended): on a well-formed store, when the BDD MIF traversal visits a
not-yet-marked module `Ite` whose order exceeds the query order, it returns
(for every fuel above the height of the vertex), and the factor it stores for
that vertex and returns is `(high - low) * mif`, where `mif` is the factor
obtained by recursing into the module's function graph, negated if the
function is complemented, and `high`, `low` are the probabilities retrieved for
the children, `low` replaced by `1 - low` on a complement edge. -/
theorem C16_module_factor (gates : List (Int × Bdd.Function)) (vp : VarProbs) (order : Int)
    (mark : Bool) (ht : Nat → Nat) (n : Nat) (h : List Ite) (id : Nat) (a : Ite)
    (hwf : WellFormedDag gates vp order h ht) (hn : ht id + 1 ≤ n)
    (ha : h[id]? = some a) (hm : a.mark ≠ mark) (ho : order < a.order)
    (hmod : a.module = true) :
    ∃ high low res mif h2 d h' a',
      RetrieveProbability h a.high = some high ∧ RetrieveProbability h a.low = some low
      ∧ gates.lookup a.index = some res
      ∧ CalculateMifVertex gates vp order mark n (setMark h id mark) res.vertex = some (mif, h2)
      ∧ d = (high - (if a.complement_edge then 1 - low else low))
            * (if res.complement then -mif else mif)
      ∧ CalculateMifVertex gates vp order mark (n + 1) h (.ite id) = some (d, h')
      ∧ h'[id]? = some a' ∧ a'.factor = d := by
  have hlt : id < h.length := (List.getElem?_eq_some_iff.mp ha).1
  obtain ⟨d, h', hc, -⟩ := CalculateMifVertex_total hwf mark (n + 1) h (.ite id)
    (sameShape_refl _) (by omega)
    (fun id' hid => by
      injection hid with hid
      subst hid
      exact ⟨hlt, by omega⟩)
  obtain ⟨a1, ha1, hb⟩ := CalculateMifVertex_ite_inv hc
  rw [ha] at ha1
  obtain rfl : a = a1 := Option.some.inj ha1
  rcases hb with ⟨hmk, -⟩ | ⟨-, ⟨-, hmd, -⟩ | ⟨-, -, diff, res, mif, h2, hd, hg, hr, hdd, hh⟩
    | ⟨heq, -⟩ | ⟨hlo, -⟩⟩
  · exact absurd hmk hm
  · rw [hmod] at hmd
    exact absurd hmd (by decide)
  · obtain ⟨high, low, hhigh, hlow, hdiff⟩ := edgeDifference_eq_some hd
    rw [RetrieveProbability_congr (SameShape_setMark h id mark)] at hhigh hlow
    have hs2 : SameShape h2 h :=
      sameShape_trans (CalculateMifVertex_sameShape _ _ _ _ _ hr) (SameShape_setMark h id mark)
    obtain ⟨a', ha', hfa⟩ := stored_factor ha hs2 d
    rw [← hh] at ha'
    exact ⟨high, low, res, mif, h2, d, h', a', hhigh, hlow, hg, hr, by rw [hdd, hdiff], hc,
      ha', hfa⟩
  · rw [heq] at ho
    exact absurd ho (lt_irrefl _)
  · exact absurd ho (not_lt.mpr (le_of_lt hlo))

/-- Witness of the amended C16: the module vertex of the BDD of `M AND C`,
query variable `A`. -/
theorem C16_module_factor_witness :
    ∃ high low res mif h2 d h' a',
      RetrieveProbability (moduleAndBdd (1 / 2) (1 / 5) (1 / 2) false).vertices
          (VertexPtr.ite 3) = some high
      ∧ RetrieveProbability (moduleAndBdd (1 / 2) (1 / 5) (1 / 2) false).vertices
          (VertexPtr.terminal true) = some low
      ∧ (moduleAndBdd (1 / 2) (1 / 5) (1 / 2) false).gates.lookup 3 = some res
      ∧ CalculateMifVertex (moduleAndBdd (1 / 2) (1 / 5) (1 / 2) false).gates
          [0, 1 / 2, 1 / 5, 0, 1 / 2] 1 true 3
          (setMark (moduleAndBdd (1 / 2) (1 / 5) (1 / 2) false).vertices 0 true) res.vertex
          = some (mif, h2)
      ∧ d = (high - (if true then 1 - low else low)) * (if res.complement then -mif else mif)
      ∧ CalculateMifVertex (moduleAndBdd (1 / 2) (1 / 5) (1 / 2) false).gates
          [0, 1 / 2, 1 / 5, 0, 1 / 2] 1 true (3 + 1)
          (moduleAndBdd (1 / 2) (1 / 5) (1 / 2) false).vertices (.ite 0) = some (d, h')
      ∧ h'[0]? = some a' ∧ a'.factor = d :=
  C16_module_factor (moduleAndBdd (1 / 2) (1 / 5) (1 / 2) false).gates
    [0, 1 / 2, 1 / 5, 0, 1 / 2] 1 true (fun id => 2 - id) 3
    (moduleAndBdd (1 / 2) (1 / 5) (1 / 2) false).vertices 0
    ⟨3, 3, .ite 3, .terminal true, true, true, false, 1 / 2 * (1 / 5) * (1 / 2), 0⟩
    (moduleAndBdd_wellFormedDag _ _ _ _ 1 (by decide)) (by decide) rfl (by decide) (by decide)
    rfl
/-- C17: on a well-formed store, when the BDD MIF traversal visits a
not-yet-marked `Ite` whose order is smaller than the query order, it returns
(for every fuel above the height of the vertex) and stores (and returns)
`factor = var_prob * high_factor + (1 - var_prob) * low_factor`, where
`high_factor` and `low_factor` are the factors the traversal returns for the
children, `low_factor` is negated on a complement edge, and `var_prob` is
`var_probs[index]` for a variable vertex and, for a module vertex, the
memoised probability of the root of the module's function, replaced by 1 minus
it if the function is complemented. -/
theorem C17_shannon_factor (gates : List (Int × Bdd.Function)) (vp : VarProbs) (order : Int)
    (mark : Bool) (ht : Nat → Nat) (n : Nat) (h : List Ite) (id : Nat) (a : Ite)
    (hwf : WellFormedDag gates vp order h ht) (hn : ht id + 1 ≤ n)
    (ha : h[id]? = some a) (hm : a.mark ≠ mark) (ho : a.order < order) :
    ∃ var_prob high_factor low_factor h2 h3 d h' a',
      (a.module = false → vecGet vp a.index = some var_prob)
      ∧ (a.module = true → ∃ res p, gates.lookup a.index = some res
          ∧ RetrieveProbability h res.vertex = some p
          ∧ var_prob = if res.complement then 1 - p else p)
      ∧ CalculateMifVertex gates vp order mark n (setMark h id mark) a.high
          = some (high_factor, h2)
      ∧ CalculateMifVertex gates vp order mark n h2 a.low = some (low_factor, h3)
      ∧ d = var_prob * high_factor
            + (1 - var_prob) * (if a.complement_edge then -low_factor else low_factor)
      ∧ CalculateMifVertex gates vp order mark (n + 1) h (.ite id) = some (d, h')
      ∧ h'[id]? = some a' ∧ a'.factor = d := by
  have hlt : id < h.length := (List.getElem?_eq_some_iff.mp ha).1
  obtain ⟨d, h', hc, -⟩ := CalculateMifVertex_total hwf mark (n + 1) h (.ite id)
    (sameShape_refl _) (by omega)
    (fun id' hid => by
      injection hid with hid
      subst hid
      exact ⟨hlt, by omega⟩)
  obtain ⟨a1, ha1, hb⟩ := CalculateMifVertex_ite_inv hc
  rw [ha] at ha1
  obtain rfl : a = a1 := Option.some.inj ha1
  rcases hb with ⟨hmk, -⟩ | ⟨-, ⟨hgt, -⟩ | ⟨hgt, -⟩ | ⟨heq, -⟩
    | ⟨-, pv, hi, lo, h2, h3, hp, hhi, hlo, hdd, hh⟩⟩
  · exact absurd hmk hm
  · exact absurd ho (not_lt.mpr (le_of_lt hgt))
  · exact absurd ho (not_lt.mpr (le_of_lt hgt))
  · rw [heq] at ho
    exact absurd ho (lt_irrefl _)
  · obtain ⟨hvar, hmodule⟩ := pivotProbability_eq_some hp
    have hs3 : SameShape h3 h :=
      sameShape_trans (CalculateMifVertex_sameShape _ _ _ _ _ hlo)
        (sameShape_trans (CalculateMifVertex_sameShape _ _ _ _ _ hhi)
          (SameShape_setMark h id mark))
    obtain ⟨a', ha', hfa⟩ := stored_factor ha hs3 d
    rw [← hh] at ha'
    refine ⟨pv, hi, lo, h2, h3, d, h', a', hvar, ?_, hhi, hlo, hdd, hc, ha', hfa⟩
    intro hmod
    obtain ⟨res, p, hg, hr, hpv⟩ := hmodule hmod
    rw [RetrieveProbability_congr (SameShape_setMark h id mark)] at hr
    exact ⟨res, p, hg, hr, hpv⟩

/-- Witness of C17, for a variable vertex and for a module vertex: the root of
the BDD of `A OR B` with query variable `B`, where `var_prob` is
`var_probs[1]`; and the module root of the BDD of `M AND C` with query variable
`C`, where `var_prob` is the probability retrieved for the root of the function
of `M`. -/
theorem C17_shannon_factor_witness :
    (∃ var_prob high_factor low_factor h2 h3 d h' a',
      vecGet [0, 1 / 10, 1 / 5] 1 = some var_prob
      ∧ CalculateMifVertex (orBdd (1 / 10) (1 / 5) false).gates [0, 1 / 10, 1 / 5] 2 true 2
          (setMark (orBdd (1 / 10) (1 / 5) false).vertices 0 true) (VertexPtr.terminal true)
          = some (high_factor, h2)
      ∧ CalculateMifVertex (orBdd (1 / 10) (1 / 5) false).gates [0, 1 / 10, 1 / 5] 2 true 2
          h2 (VertexPtr.ite 1) = some (low_factor, h3)
      ∧ d = var_prob * high_factor
            + (1 - var_prob) * (if false then -low_factor else low_factor)
      ∧ CalculateMifVertex (orBdd (1 / 10) (1 / 5) false).gates [0, 1 / 10, 1 / 5] 2 true
          (2 + 1) (orBdd (1 / 10) (1 / 5) false).vertices (.ite 0) = some (d, h')
      ∧ h'[0]? = some a' ∧ a'.factor = d)
    ∧ ∃ var_prob high_factor low_factor h2 h3 d h' a',
      (∃ res p, (moduleAndBdd (1 / 2) (1 / 5) (1 / 2) false).gates.lookup 3 = some res
          ∧ RetrieveProbability (moduleAndBdd (1 / 2) (1 / 5) (1 / 2) false).vertices
              res.vertex = some p
          ∧ var_prob = if res.complement then 1 - p else p)
      ∧ CalculateMifVertex (moduleAndBdd (1 / 2) (1 / 5) (1 / 2) false).gates
          [0, 1 / 2, 1 / 5, 0, 1 / 2] 4 true 3
          (setMark (moduleAndBdd (1 / 2) (1 / 5) (1 / 2) false).vertices 0 true)
          (VertexPtr.ite 3) = some (high_factor, h2)
      ∧ CalculateMifVertex (moduleAndBdd (1 / 2) (1 / 5) (1 / 2) false).gates
          [0, 1 / 2, 1 / 5, 0, 1 / 2] 4 true 3 h2 (VertexPtr.terminal true)
          = some (low_factor, h3)
      ∧ d = var_prob * high_factor
            + (1 - var_prob) * (if true then -low_factor else low_factor)
      ∧ CalculateMifVertex (moduleAndBdd (1 / 2) (1 / 5) (1 / 2) false).gates
          [0, 1 / 2, 1 / 5, 0, 1 / 2] 4 true (3 + 1)
          (moduleAndBdd (1 / 2) (1 / 5) (1 / 2) false).vertices (.ite 0) = some (d, h')
      ∧ h'[0]? = some a' ∧ a'.factor = d := by
  constructor
  · obtain ⟨var_prob, high_factor, low_factor, h2, h3, d, h', a', hvar, -, hrest⟩ :=
      C17_shannon_factor (orBdd (1 / 10) (1 / 5) false).gates [0, 1 / 10, 1 / 5] 2 true
        (fun id => 1 - id) 2 (orBdd (1 / 10) (1 / 5) false).vertices 0
        ⟨1, 1, .terminal true, .ite 1, false, false, false,
          1 / 10 * 1 + (1 - 1 / 10) * (1 / 5), 0⟩
        (orBdd_wellFormedDag _ _ _ 2) (by decide) rfl (by decide) (by decide)
    exact ⟨var_prob, high_factor, low_factor, h2, h3, d, h', a', hvar rfl, hrest⟩
  · obtain ⟨var_prob, high_factor, low_factor, h2, h3, d, h', a', -, hmodule, hrest⟩ :=
      C17_shannon_factor (moduleAndBdd (1 / 2) (1 / 5) (1 / 2) false).gates
        [0, 1 / 2, 1 / 5, 0, 1 / 2] 4 true (fun id => 2 - id) 3
        (moduleAndBdd (1 / 2) (1 / 5) (1 / 2) false).vertices 0
        ⟨3, 3, .ite 3, .terminal true, true, true, false, 1 / 2 * (1 / 5) * (1 / 2), 0⟩
        (moduleAndBdd_wellFormedDag _ _ _ _ 4 (by decide)) (by decide) rfl (by decide)
        (by decide)
    exact ⟨var_prob, high_factor, low_factor, h2, h3, d, h', a', hmodule rfl, hrest⟩

end scram
